import Mathlib

/-!
# Verification of the protovis contour layout (`src/layout/Contours.js`)

This file is a shallow embedding, in Lean 4, of the contour-extraction and
boundary-closure engine of the repository: the `ContourBuilder` ("Sequence
Store") with its `addSegment` chain-merging procedure, and the boundary
closer inside `contourList` of `pv.Layout.Contours.prototype.buildImplied`.

Modelling conventions:

* JavaScript numbers are modelled as rationals (`ℚ`); all the claims under
  study are about comparisons and ε-tests, none about binary floating-point
  rounding, so `ℚ` is the faithful idealisation of the arithmetic.
* A doubly-linked chain of points (`head`/`tail` with per-node `prev`/`next`)
  is modelled by its head-to-tail walk, a `List Point`; the JS `reverseList`
  (swap every node's `prev`/`next`, then swap `head`/`tail`) is exactly
  `List.reverse` of that walk.
* The chain list rooted at the builder's field `s` is modelled as a
  `List Chain` (front of list = `this.s`); the JS in-place splicing
  (`remove_seq`) becomes `List.eraseIdx`, and in-place record mutation
  becomes `modifyIdx`.
* The external Triangle Source (`Triangulate` / `intersectAt`, an external
  collaborator per the spec, not part of this repository's source) is
  abstracted as a function giving, per level index, the list of valid
  crossing segments in triangle order.
-/

/-- A 2D point, `{x, y}` in the source. -/
structure Point where
  x : ℚ
  y : ℚ
deriving DecidableEq, Repr

instance : Inhabited Point := ⟨⟨0, 0⟩⟩

/-- `var EPSILON = 1e-20;` (Contours.js line 64). -/
def EPSILON : ℚ := 1 / 10 ^ 20

/-- `pointsEqual(a, b)` (Contours.js lines 66-69): squared distance below
`EPSILON`. -/
def pointsEqual (a b : Point) : Bool :=
  let x := a.x - b.x
  let y := a.y - b.y
  x * x + y * y < EPSILON

/-- A chain (a "sequence" record in the source): the head-to-tail walk of its
doubly-linked point nodes, plus the `closed` flag.  The chain-list links
(`prev`/`next` of the record) are represented by the position of the chain in
the builder's list. -/
structure Chain where
  points : List Point
  closed : Bool
deriving DecidableEq, Repr

/-- First point of a walk (reachable walks are nonempty; the default is never
hit by the modelled code). -/
def headPt : List Point → Point
  | [] => ⟨0, 0⟩
  | p :: _ => p

/-- Last point of a walk. -/
def lastPt : List Point → Point
  | [] => ⟨0, 0⟩
  | [p] => p
  | _ :: q :: rest => lastPt (q :: rest)

/-- The point of the chain's `head` node. -/
def Chain.headP (ch : Chain) : Point := headPt ch.points

/-- The point of the chain's `tail` node. -/
def Chain.tailP (ch : Chain) : Point := lastPt ch.points

/-- The Sequence Store, `ContourBuilder(level)` (Contours.js lines 89-93):
field `s` is the head of the chain list, `count` the diagnostic counter. -/
structure ContourBuilder where
  level : ℚ
  s : List Chain
  count : Int
deriving DecidableEq, Repr

/-- A fresh `new ContourBuilder(level)`. -/
def ContourBuilder.empty (level : ℚ) : ContourBuilder :=
  { level := level, s := [], count := 0 }

/-- Replace the element at index `i` by its image under `f` (no-op when out of
range); models in-place mutation of one chain record in the chain list. -/
def modifyIdx (f : Chain → Chain) : Nat → List Chain → List Chain
  | _, [] => []
  | 0, ch :: rest => f ch :: rest
  | n + 1, ch :: rest => ch :: modifyIdx f n rest

/-- Element at index `i` (default chain when out of range). -/
def getIdx (l : List Chain) (i : Nat) : Chain := l.getD i ⟨[], false⟩

/-- The single scan loop of `addSegment` (Contours.js lines 114-139): walks
the chain list once, recording for each of `a` and `b` the first chain whose
head (tested first, setting the prepend flag) or tail is `pointsEqual` to it,
and stopping early once both are matched.  The result gives the index of the
matched chain and the prepend flag. -/
def scanLoop (a b : Point) (ma mb : Option (Nat × Bool)) :
    List Chain → Nat → Option (Nat × Bool) × Option (Nat × Bool)
  | [], _ => (ma, mb)
  | ss :: rest, i =>
    let ma' := if ma.isSome then ma
      else if pointsEqual a ss.headP then some (i, true)
      else if pointsEqual a ss.tailP then some (i, false)
      else none
    let mb' := if mb.isSome then mb
      else if pointsEqual b ss.headP then some (i, true)
      else if pointsEqual b ss.tailP then some (i, false)
      else none
    if ma'.isSome && mb'.isSome then (ma', mb')
    else scanLoop a b ma' mb' rest (i + 1)

/-- `ContourBuilder.prototype.addSegment(a, b)` (Contours.js lines 107-238).
The four cases of the `switch (c)` correspond to the four shapes of the scan
result; the nested `switch` of case 3 implements the four join types, with
`reverseList` rendered as `List.reverse` of the walk and `remove_seq` as
`List.eraseIdx`. -/
def addSegment (a b : Point) (cb : ContourBuilder) : ContourBuilder :=
  match scanLoop a b none none cb.s 0 with
  | (none, none) =>
    -- case 0: both unmatched, push a new 2-point chain onto the list head
    { cb with s := ⟨[a, b], false⟩ :: cb.s, count := cb.count + 1 }
  | (some (i, prependA), none) =>
    -- case 1: a matched, b extends chain i (prepend at head, append at tail)
    { cb with s := modifyIdx (fun ch =>
        if prependA then { ch with points := b :: ch.points }
        else { ch with points := ch.points ++ [b] }) i cb.s }
  | (none, some (j, prependB)) =>
    -- case 2: b matched, a extends chain j
    { cb with s := modifyIdx (fun ch =>
        if prependB then { ch with points := a :: ch.points }
        else { ch with points := ch.points ++ [a] }) j cb.s }
  | (some (i, prependA), some (j, prependB)) =>
    if i = j then
      -- case 3, ma === mb: close the chain by splicing a duplicate of the
      -- tail's point before the head
      { cb with s := modifyIdx (fun ch =>
          { ch with points := ch.tailP :: ch.points, closed := true }) i cb.s }
    else
      match prependA, prependB with
      | false, false =>
        -- tail-tail: reverse ma, append it to mb, discard ma
        { cb with
          s := (modifyIdx (fun mb' =>
              { mb' with points := mb'.points ++ (getIdx cb.s i).points.reverse })
            j cb.s).eraseIdx i,
          count := cb.count - 1 }
      | true, false =>
        -- head-tail: ma is appended to mb and ma discarded
        { cb with
          s := (modifyIdx (fun mb' =>
              { mb' with points := mb'.points ++ (getIdx cb.s i).points })
            j cb.s).eraseIdx i,
          count := cb.count - 1 }
      | false, true =>
        -- tail-head: mb is appended to ma and mb discarded
        { cb with
          s := (modifyIdx (fun ma' =>
              { ma' with points := ma'.points ++ (getIdx cb.s j).points })
            i cb.s).eraseIdx j,
          count := cb.count - 1 }
      | true, true =>
        -- head-head: reverse ma, append mb to it, discard mb
        { cb with
          s := (modifyIdx (fun ma' =>
              { ma' with points := ma'.points.reverse ++ (getIdx cb.s j).points })
            i cb.s).eraseIdx j,
          count := cb.count - 1 }

/-- Feed a list of segments, in order, to a fresh builder for the level: the
inner triangle loop of `buildImplied` (Contours.js lines 253-263). -/
def buildLevel (segs : List (Point × Point)) (level : ℚ) : ContourBuilder :=
  segs.foldl (fun cb pq => addSegment pq.1 pq.2 cb) (ContourBuilder.empty level)

/-- Specification of the scan for a single endpoint, written from the claim's
words: the endpoint is matched to the first chain in current list order whose
head or tail point is `pointsEqual` to it, the head being tested before the
tail (a head match sets the prepend flag); `i` is the index of the first chain
of the remaining list. -/
def firstMatchFrom (p : Point) : List Chain → Nat → Option (Nat × Bool)
  | [], _ => none
  | ch :: rest, i =>
    if pointsEqual p ch.headP then some (i, true)
    else if pointsEqual p ch.tailP then some (i, false)
    else firstMatchFrom p rest (i + 1)

/-- The single interleaved scan with early exit computes, for each endpoint
independently, the first match in list order. -/
theorem scanLoop_eq_firstMatch (a b : Point) :
    ∀ (l : List Chain) (i : Nat) (ma mb : Option (Nat × Bool)),
      scanLoop a b ma mb l i =
        (ma.orElse (fun _ => firstMatchFrom a l i),
         mb.orElse (fun _ => firstMatchFrom b l i)) := by
  intro l
  induction l with
  | nil => intro i ma mb; cases ma <;> cases mb <;> simp [scanLoop, firstMatchFrom]
  | cons ch rest ih =>
    intro i ma mb
    cases ma <;> cases mb <;>
      simp only [scanLoop, firstMatchFrom, Option.isSome_some, Option.isSome_none,
        Bool.true_and, Bool.false_and, Bool.and_true, Bool.and_false, if_true, if_false] <;>
      rcases hah : pointsEqual a ch.headP <;> rcases hat : pointsEqual a ch.tailP <;>
      rcases hbh : pointsEqual b ch.headP <;> rcases hbt : pointsEqual b ch.tailP <;>
      simp [hah, hat, hbh, hbt, ih, Option.orElse]

/-- If the scan reports no match, no chain of the list matches the endpoint at
its head or its tail. -/
theorem firstMatchFrom_eq_none (p : Point) :
    ∀ (l : List Chain) (i : Nat),
      firstMatchFrom p l i = none ↔
        ∀ ch ∈ l, pointsEqual p ch.headP = false ∧ pointsEqual p ch.tailP = false := by
  intro l
  induction l with
  | nil => intro i; simp [firstMatchFrom]
  | cons ch rest ih =>
    intro i
    rcases hh : pointsEqual p ch.headP <;> rcases ht : pointsEqual p ch.tailP <;>
      simp [firstMatchFrom, hh, ht, ih]

/-- Shifting the starting index shifts every reported match index. -/
theorem firstMatchFrom_shift (p : Point) :
    ∀ (l : List Chain) (i : Nat),
      firstMatchFrom p l i = (firstMatchFrom p l 0).map (fun m => (m.1 + i, m.2)) := by
  intro l
  induction l with
  | nil => intro i; simp [firstMatchFrom]
  | cons ch rest ih =>
    intro i
    rcases hh : pointsEqual p ch.headP <;> rcases ht : pointsEqual p ch.tailP <;>
      simp only [firstMatchFrom, hh, ht, if_true, if_false, Bool.false_eq_true,
        Option.map_some', Nat.zero_add]
    · rw [ih (i + 1), ih 1]
      rcases firstMatchFrom p rest 0 with _ | ⟨m, pre⟩ <;> simp <;> omega

/-- Soundness of the scan at starting index 0: a reported match `(m, pre)`
names a real chain at index `m`, matched at its head when `pre = true`
(and at its tail, the head having failed, when `pre = false`). -/
theorem firstMatchFrom_sound (p : Point) :
    ∀ (l : List Chain) (m : Nat) (pre : Bool),
      firstMatchFrom p l 0 = some (m, pre) →
        ∃ ch, l[m]? = some ch ∧
          (pre = true → pointsEqual p ch.headP = true) ∧
          (pre = false → pointsEqual p ch.headP = false ∧ pointsEqual p ch.tailP = true) := by
  intro l
  induction l with
  | nil => intro m pre h; simp [firstMatchFrom] at h
  | cons ch rest ih =>
    intro m pre h
    simp only [firstMatchFrom] at h
    rcases hh : pointsEqual p ch.headP with _ | _
    · rcases ht : pointsEqual p ch.tailP with _ | _
      · rw [hh, ht] at h
        simp only [Bool.false_eq_true, if_false] at h
        rw [firstMatchFrom_shift p rest 1] at h
        rcases hr : firstMatchFrom p rest 0 with _ | ⟨m', pre'⟩
        · rw [hr] at h; simp at h
        · rw [hr] at h
          simp only [Option.map_some', Option.some.injEq, Prod.mk.injEq] at h
          obtain ⟨hm, hpre⟩ := h
          obtain ⟨ch', hch', h1, h2⟩ := ih m' pre' hr
          subst hpre
          refine ⟨ch', ?_, h1, h2⟩
          rw [← hm]
          simpa using hch'
      · rw [hh, ht] at h
        simp only [Bool.false_eq_true, if_false, if_true, Option.some.injEq,
          Prod.mk.injEq] at h
        obtain ⟨hm, hpre⟩ := h
        subst hm; subst hpre
        exact ⟨ch, by simp, by simp, fun _ => ⟨hh, ht⟩⟩
    · rw [hh] at h
      simp only [if_true, Option.some.injEq, Prod.mk.injEq] at h
      obtain ⟨hm, hpre⟩ := h
      subst hm; subst hpre
      exact ⟨ch, by simp, fun _ => hh, by simp⟩

/-- `modifyIdx` preserves length. -/
theorem length_modifyIdx (f : Chain → Chain) :
    ∀ (i : Nat) (l : List Chain), (modifyIdx f i l).length = l.length := by
  intro i l
  induction l generalizing i with
  | nil => simp [modifyIdx]
  | cons ch rest ih => cases i <;> simp [modifyIdx, ih]

/-- `modifyIdx` leaves every other index unchanged. -/
theorem getElem?_modifyIdx_ne (f : Chain → Chain) :
    ∀ (i j : Nat) (l : List Chain), j ≠ i → (modifyIdx f i l)[j]? = l[j]? := by
  intro i j l
  induction l generalizing i j with
  | nil => simp [modifyIdx]
  | cons ch rest ih =>
    intro hne
    cases i with
    | zero => cases j with
      | zero => exact absurd rfl hne
      | succ j' => simp [modifyIdx]
    | succ i' => cases j with
      | zero => simp [modifyIdx]
      | succ j' => simpa [modifyIdx] using ih i' j' (by omega)

/-- `modifyIdx` applies `f` at the modified index. -/
theorem getElem?_modifyIdx_self (f : Chain → Chain) :
    ∀ (i : Nat) (l : List Chain), (modifyIdx f i l)[i]? = l[i]?.map f := by
  intro i l
  induction l generalizing i with
  | nil => simp [modifyIdx]
  | cons ch rest ih => cases i <;> simp [modifyIdx, ih]

/-- A list element not sitting at the modified index survives `modifyIdx`. -/
theorem mem_modifyIdx_of_ne (f : Chain → Chain) (i : Nat) (l : List Chain) (ch : Chain)
    (hmem : ch ∈ l) (hne : l[i]? ≠ some ch) : ch ∈ modifyIdx f i l := by
  obtain ⟨j, hj⟩ := List.mem_iff_getElem?.mp hmem
  have hji : j ≠ i := fun h => hne (h ▸ hj)
  exact List.mem_iff_getElem?.mpr ⟨j, by rw [getElem?_modifyIdx_ne f i j l hji]; exact hj⟩

/-- A list element not sitting at the erased index survives `List.eraseIdx`. -/
theorem mem_eraseIdx_of_ne :
    ∀ (i : Nat) (l : List Chain) (ch : Chain), ch ∈ l → l[i]? ≠ some ch →
      ch ∈ l.eraseIdx i := by
  intro i l
  induction l generalizing i with
  | nil => intro ch h _; simp at h
  | cons hd rest ih =>
    intro ch hmem hne
    cases i with
    | zero =>
      rcases List.mem_cons.mp hmem with h | h
      · exact absurd (by simp [h]) hne
      · simpa [List.eraseIdx] using h
    | succ i' =>
      rcases List.mem_cons.mp hmem with h | h
      · simp [List.eraseIdx, h]
      · exact List.mem_cons.mpr (Or.inr (ih i' ch h (by simpa using hne)))

/-- Shorthand: the set of `pointsEqual` facts needed to evaluate small
concrete runs. -/
theorem pointsEqual_self (p : Point) : pointsEqual p p = true := by
  norm_num [pointsEqual, EPSILON]

/-- C10: during `addSegment`'s single scan of the chain list, each endpoint of
the incoming segment is matched to the first chain in current list order whose
head or tail point is ε-coincident with it, the head being tested before the
tail of each chain (a head match setting the prepend flag); the early exit
once both endpoints are matched does not change the result. -/
theorem scan_matches_first_chain_head_before_tail (a b : Point) (l : List Chain) :
    scanLoop a b none none l 0 = (firstMatchFrom a l 0, firstMatchFrom b l 0) := by
  rw [scanLoop_eq_firstMatch]
  rfl

/-- C3: when the scan matches both endpoints of the segment to the same chain
(index `i`), `addSegment` closes that chain into a loop by splicing a
duplicate of the tail's point before the head and setting `closed := true`;
no chain is merged or removed (the chain list keeps its length) and the
store's chain count is unchanged. -/
theorem addSegment_close_same_chain (a b : Point) (cb : ContourBuilder) (i : Nat)
    (pa pb : Bool)
    (ha : firstMatchFrom a cb.s 0 = some (i, pa))
    (hb : firstMatchFrom b cb.s 0 = some (i, pb)) :
    (addSegment a b cb).s =
      modifyIdx (fun ch => { ch with points := ch.tailP :: ch.points, closed := true })
        i cb.s
    ∧ (addSegment a b cb).count = cb.count
    ∧ (addSegment a b cb).s.length = cb.s.length := by
  unfold addSegment
  rw [scanLoop_eq_firstMatch]
  simp [Option.orElse, ha, hb, length_modifyIdx]

/-- C3 witness: a single-segment 2-point chain whose ends coincide with the
incoming segment becomes exactly one closed chain of 3 points (the 2 original
points plus the duplicated wrap point), with the chain count unchanged. -/
theorem addSegment_close_same_chain_witness :
    (addSegment ⟨1,0⟩ ⟨0,0⟩ ⟨0, [⟨[⟨0,0⟩, ⟨1,0⟩], false⟩], 1⟩).s
        = [⟨[⟨1,0⟩, ⟨0,0⟩, ⟨1,0⟩], true⟩]
    ∧ (addSegment ⟨1,0⟩ ⟨0,0⟩ ⟨0, [⟨[⟨0,0⟩, ⟨1,0⟩], false⟩], 1⟩).count = 1 := by
  have ha : firstMatchFrom ⟨1,0⟩ [⟨[⟨0,0⟩, ⟨1,0⟩], false⟩] 0 = some (0, false) := by
    norm_num [firstMatchFrom, pointsEqual, EPSILON, Chain.headP, Chain.tailP, headPt, lastPt]
  have hb : firstMatchFrom ⟨0,0⟩ [⟨[⟨0,0⟩, ⟨1,0⟩], false⟩] 0 = some (0, true) := by
    norm_num [firstMatchFrom, pointsEqual, EPSILON, Chain.headP, Chain.tailP, headPt, lastPt]
  obtain ⟨h1, h2, _⟩ :=
    addSegment_close_same_chain ⟨1,0⟩ ⟨0,0⟩ ⟨0, [⟨[⟨0,0⟩, ⟨1,0⟩], false⟩], 1⟩ 0 false true ha hb
  constructor
  · rw [h1]; norm_num [modifyIdx, Chain.tailP, lastPt]
  · rw [h2]

/-- C2: when the scan matches endpoint `a` to chain `i` and endpoint `b` to a
distinct chain `j`, exactly one of the four join types applies, selected by
the two prepend flags (`pa`, `pb` record whether each endpoint matched its
chain's head); head–tail (`pa = true, pb = false`) and tail–head
(`pa = false, pb = true`) splice directly, tail–tail and head–head reverse
chain `ma` first; in every case the surviving chain's head-to-tail walk is the
concatenation of the two walks (one reversed when required) and the absorbed
chain's record is removed from the chain list, shrinking it by one. -/
theorem addSegment_merge_orientation (a b : Point) (cb : ContourBuilder) (i j : Nat)
    (pa pb : Bool)
    (ha : firstMatchFrom a cb.s 0 = some (i, pa))
    (hb : firstMatchFrom b cb.s 0 = some (j, pb))
    (hij : i ≠ j) :
    (addSegment a b cb).s =
      (match pa, pb with
        | false, false =>
          (modifyIdx (fun c =>
            { c with points := c.points ++ (getIdx cb.s i).points.reverse }) j cb.s).eraseIdx i
        | true, false =>
          (modifyIdx (fun c =>
            { c with points := c.points ++ (getIdx cb.s i).points }) j cb.s).eraseIdx i
        | false, true =>
          (modifyIdx (fun c =>
            { c with points := c.points ++ (getIdx cb.s j).points }) i cb.s).eraseIdx j
        | true, true =>
          (modifyIdx (fun c =>
            { c with points := c.points.reverse ++ (getIdx cb.s j).points }) i cb.s).eraseIdx j)
    ∧ (addSegment a b cb).s.length + 1 = cb.s.length := by
  have hi : i < cb.s.length := by
    obtain ⟨ch, hch, -⟩ := firstMatchFrom_sound a cb.s i pa ha
    exact List.getElem?_eq_some_iff.mp hch |>.1
  have hj : j < cb.s.length := by
    obtain ⟨ch, hch, -⟩ := firstMatchFrom_sound b cb.s j pb hb
    exact List.getElem?_eq_some_iff.mp hch |>.1
  unfold addSegment
  rw [scanLoop_eq_firstMatch]
  cases pa <;> cases pb <;>
    simp [Option.orElse, ha, hb, hij, List.length_eraseIdx_add_one,
      length_modifyIdx, hi, hj]

/-- C2 witness: a concrete head–tail merge; chain `[(2,0),(3,0)]` absorbs
chain `[(0,0),(1,0)]` by direct splice and the absorbed record disappears. -/
theorem addSegment_merge_orientation_witness :
    (addSegment ⟨0,0⟩ ⟨3,0⟩
        ⟨0, [⟨[⟨0,0⟩, ⟨1,0⟩], false⟩, ⟨[⟨2,0⟩, ⟨3,0⟩], false⟩], 2⟩).s
      = [⟨[⟨2,0⟩, ⟨3,0⟩, ⟨0,0⟩, ⟨1,0⟩], false⟩]
    ∧ (addSegment ⟨0,0⟩ ⟨3,0⟩
        ⟨0, [⟨[⟨0,0⟩, ⟨1,0⟩], false⟩, ⟨[⟨2,0⟩, ⟨3,0⟩], false⟩], 2⟩).s.length + 1 = 2 := by
  have ha : firstMatchFrom ⟨0,0⟩
      [⟨[⟨0,0⟩, ⟨1,0⟩], false⟩, ⟨[⟨2,0⟩, ⟨3,0⟩], false⟩] 0 = some (0, true) := by
    norm_num [firstMatchFrom, pointsEqual, EPSILON, Chain.headP, Chain.tailP, headPt, lastPt]
  have hb : firstMatchFrom ⟨3,0⟩
      [⟨[⟨0,0⟩, ⟨1,0⟩], false⟩, ⟨[⟨2,0⟩, ⟨3,0⟩], false⟩] 0 = some (1, false) := by
    norm_num [firstMatchFrom, pointsEqual, EPSILON, Chain.headP, Chain.tailP, headPt, lastPt]
  obtain ⟨h1, h2⟩ := addSegment_merge_orientation ⟨0,0⟩ ⟨3,0⟩
    ⟨0, [⟨[⟨0,0⟩, ⟨1,0⟩], false⟩, ⟨[⟨2,0⟩, ⟨3,0⟩], false⟩], 2⟩ 0 1 true false ha hb
    (by omega)
  refine ⟨?_, h2⟩
  rw [h1]
  norm_num [modifyIdx, getIdx, List.eraseIdx]

/-- C7 counterexample: the scan does not skip chains with `closed = true`.
After two segments the single chain is closed (walk `[(1,0),(0,0),(1,0)]`,
`closed = true`); a third segment whose endpoint coincides with the closed
chain's (equal) head/tail point extends it to a 4-point walk, i.e. a closed
chain IS modified by a subsequent `addSegment`. -/
theorem closed_chain_modified_counterexample :
    (buildLevel [(⟨0,0⟩, ⟨1,0⟩), (⟨1,0⟩, ⟨0,0⟩)] 0).s
        = [⟨[⟨1,0⟩, ⟨0,0⟩, ⟨1,0⟩], true⟩]
    ∧ (addSegment ⟨1,0⟩ ⟨5,5⟩ (buildLevel [(⟨0,0⟩, ⟨1,0⟩), (⟨1,0⟩, ⟨0,0⟩)] 0)).s
        = [⟨[⟨5,5⟩, ⟨1,0⟩, ⟨0,0⟩, ⟨1,0⟩], true⟩] := by
  have hcb : buildLevel [(⟨0,0⟩, ⟨1,0⟩), (⟨1,0⟩, ⟨0,0⟩)] 0
      = ⟨0, [⟨[⟨1,0⟩, ⟨0,0⟩, ⟨1,0⟩], true⟩], 1⟩ := by
    norm_num [buildLevel, addSegment, scanLoop, pointsEqual, EPSILON, modifyIdx,
      getIdx, Chain.headP, Chain.tailP, headPt, lastPt, ContourBuilder.empty]
  refine ⟨by rw [hcb], ?_⟩
  rw [hcb]
  norm_num [addSegment, scanLoop, pointsEqual, EPSILON, modifyIdx,
    getIdx, Chain.headP, Chain.tailP, headPt, lastPt]

/-- C7 amended: a chain (in particular a closed one) is not modified, merged
or removed by a subsequent `addSegment` whose two endpoints are both
ε-distinct from the chain's head and tail points: the chain survives in the
chain list unchanged. -/
theorem closed_chain_untouched_without_coincidence (a b : Point) (cb : ContourBuilder)
    (ch : Chain) (hmem : ch ∈ cb.s) (hclosed : ch.closed = true)
    (hah : pointsEqual a ch.headP = false) (hat : pointsEqual a ch.tailP = false)
    (hbh : pointsEqual b ch.headP = false) (hbt : pointsEqual b ch.tailP = false) :
    ch ∈ (addSegment a b cb).s := by
  have hne : ∀ (m : Nat) (pre : Bool), ∀ p : Point,
      pointsEqual p ch.headP = false → pointsEqual p ch.tailP = false →
      firstMatchFrom p cb.s 0 = some (m, pre) → cb.s[m]? ≠ some ch := by
    intro m pre p hph hpt hfm heq
    obtain ⟨ch', hch', h1, h2⟩ := firstMatchFrom_sound p cb.s m pre hfm
    rw [heq] at hch'
    cases hch'
    cases pre
    · exact absurd (h2 rfl).2 (by rw [hpt]; exact Bool.false_ne_true)
    · exact absurd (h1 rfl) (by rw [hph]; exact Bool.false_ne_true)
  unfold addSegment
  rw [scanLoop_eq_firstMatch]
  rcases hfa : firstMatchFrom a cb.s 0 with _ | ⟨i, pa⟩ <;>
    rcases hfb : firstMatchFrom b cb.s 0 with _ | ⟨j, pb⟩
  · simpa [Option.orElse] using List.mem_cons_of_mem _ hmem
  · simp only [Option.orElse]
    exact mem_modifyIdx_of_ne _ j cb.s ch hmem (hne j pb b hbh hbt hfb)
  · simp only [Option.orElse]
    exact mem_modifyIdx_of_ne _ i cb.s ch hmem (hne i pa a hah hat hfa)
  · simp only [Option.orElse]
    by_cases hij : i = j
    · simp only [hij, if_true]
      exact mem_modifyIdx_of_ne _ j cb.s ch hmem (hne j pb b hbh hbt hfb)
    · simp only [hij, if_false]
      have hia := hne i pa a hah hat hfa
      have hjb := hne j pb b hbh hbt hfb
      cases pa <;> cases pb
      · exact mem_eraseIdx_of_ne i _ ch
          (mem_modifyIdx_of_ne _ j cb.s ch hmem hjb)
          (by rw [getElem?_modifyIdx_ne _ j i cb.s hij]; exact hia)
      · exact mem_eraseIdx_of_ne j _ ch
          (mem_modifyIdx_of_ne _ i cb.s ch hmem hia)
          (by rw [getElem?_modifyIdx_ne _ i j cb.s (Ne.symm hij)]; exact hjb)
      · exact mem_eraseIdx_of_ne i _ ch
          (mem_modifyIdx_of_ne _ j cb.s ch hmem hjb)
          (by rw [getElem?_modifyIdx_ne _ j i cb.s hij]; exact hia)
      · exact mem_eraseIdx_of_ne j _ ch
          (mem_modifyIdx_of_ne _ i cb.s ch hmem hia)
          (by rw [getElem?_modifyIdx_ne _ i j cb.s (Ne.symm hij)]; exact hjb)

/-- C7 amended witness: a closed chain survives, unchanged, an `addSegment`
whose endpoints are far from its head/tail point. -/
theorem closed_chain_untouched_without_coincidence_witness :
    (⟨[⟨1,0⟩, ⟨0,0⟩, ⟨1,0⟩], true⟩ : Chain) ∈
      (addSegment ⟨5,5⟩ ⟨6,5⟩ ⟨0, [⟨[⟨1,0⟩, ⟨0,0⟩, ⟨1,0⟩], true⟩], 1⟩).s := by
  apply closed_chain_untouched_without_coincidence
  · simp
  · rfl
  all_goals norm_num [pointsEqual, EPSILON, Chain.headP, Chain.tailP, headPt, lastPt]

/-- Order the two free endpoints of a chain canonically (lexicographically),
so that open chains can be compared as unordered endpoint pairs. -/
def normPair (p q : Point) : Point × Point :=
  if p.x < q.x ∨ (p.x = q.x ∧ p.y ≤ q.y) then (p, q) else (q, p)

/-- `closeEnough(a0, b0)` in `contourList` (Contours.js lines 301-304). -/
def closeEnough (a0 b0 : ℚ) : Bool :=
  (a0 - b0) * (a0 - b0) < EPSILON

/-- The grid bounding rectangle: `minx/maxx/miny/maxy` are computed once in
`buildImplied` (Contours.js lines 271-274) as `pv.min`/`pv.max` of the grid
point coordinates; they are abstracted here as parameters (for an empty grid
the JS values are ±Infinity, which ℚ does not have, but then no open chain
exists and the bounds are never consulted). -/
structure Bounds where
  minx : ℚ
  maxx : ℚ
  miny : ℚ
  maxy : ℚ
deriving DecidableEq, Repr

/-- The perimeter `code` function (Contours.js lines 305-312): selects the
first or last point of the polyline and tests it against the four edges in
source order, yielding an `(edge, coordinate)` pair. -/
def code (B : Bounds) (points : List Point) (chooseLast : Bool) : Nat × ℚ :=
  let p := if chooseLast then lastPt points else headPt points
  if closeEnough p.x B.minx then (0, p.y)
  else if closeEnough p.y B.maxy then (1, p.x)
  else if closeEnough p.x B.maxx then (2, -p.y)
  else if closeEnough p.y B.miny then (3, -p.x)
  else (0, 0)

/-- The synthetic corner point unshifted for `m = c0 % 4` in the corner loop
(Contours.js lines 338-341). -/
def cornerPoint (B : Bounds) (m : Nat) : Point :=
  ⟨if m == 0 || m == 1 then B.minx else B.maxx,
   if m == 3 || m == 0 then B.miny else B.maxy⟩

/-- The corner-insertion `while` loop (Contours.js lines 335-343): while the
entry code `c0` exceeds the exit code `c`, unshift the corner for edge
`c0 % 4` and decrement. -/
def cornerLoop (B : Bounds) (c c0 : Nat) (fe : List Point) : List Point :=
  if c0 > c then cornerLoop B c (c0 - 1) (cornerPoint B (c0 % 4) :: fe) else fe
termination_by c0
decreasing_by omega

/-- Corner insertion including the wraparound adjustment
`if (c0[0] < c[0]) c0[0] += 4` (Contours.js line 334). -/
def cornersBetween (B : Bounds) (c c0 : Nat) (fe : List Point) : List Point :=
  cornerLoop B c (if c0 < c then c0 + 4 else c0) fe

/-- The stitching loop over the sorted open chains (Contours.js lines
322-345): each chain's points (with the corners between its tail code and the
next chain's head code) are unshifted onto the next chain; the final
iteration wraps the accumulated polyline onto itself via its own last point,
producing the single `fullEdge` pushed to the output. -/
def stitch (B : Bounds) : List Point → List (List Point) → List Point
  | cur, next :: rest =>
    stitch B (cur ++ cornersBetween B (code B cur true).1 (code B next false).1 next) rest
  | cur, [] =>
    lastPt cur ::
      cornersBetween B (code B [lastPt cur] true).1 (code B cur false).1 cur

/-- The whole closing pass for one level's unclosed chains, already sorted:
`fullEdge` stays `null` when there are none (nothing is pushed), otherwise
exactly the final accumulated polyline is pushed. -/
def closeOpen (B : Bounds) : List (List Point) → List (List Point)
  | [] => []
  | first :: rest => [stitch B first rest]

/-- The comparator of the `unclosed.sort(compare)` call (Contours.js lines
313-320): lexicographic on the `(edge, coordinate)` code of the first point. -/
def codeLe (B : Bounds) (l1 l2 : List Point) : Prop :=
  (code B l1 false).1 < (code B l2 false).1 ∨
  ((code B l1 false).1 = (code B l2 false).1 ∧ (code B l1 false).2 ≤ (code B l2 false).2)

instance (B : Bounds) : DecidableRel (codeLe B) := fun l1 l2 => by
  unfold codeLe
  infer_instance

/-- One output polyline: the level bucket key `k`, the level value, and the
point walk (`l2.level = level; l2.k = k` in the source). -/
structure KeyedLine where
  k : Nat
  level : ℚ
  points : List Point
deriving DecidableEq, Repr

/-- The per-level body of `contourList` (Contours.js lines 279-348): closed
chains are pushed to the output in chain-list order; unclosed chains are
collected, sorted by perimeter code (the JS engine's comparison sort is
modelled by insertion sort) and stitched into at most one closed polyline. -/
def levelLines (B : Bounds) (k : Nat) (cb : ContourBuilder) : List KeyedLine :=
  ((cb.s.filter (fun ch => ch.closed)).map (fun ch => KeyedLine.mk k cb.level ch.points))
    ++ (closeOpen B (List.insertionSort (codeLe B)
          ((cb.s.filter (fun ch => !ch.closed)).map (fun ch => ch.points)))).map
        (KeyedLine.mk k cb.level)

/-- The final ordering relation of `l.sort(function(a, b) { return a.k - b.k })`
(Contours.js line 350). -/
def keyLe (a b : KeyedLine) : Prop := a.k ≤ b.k

instance : DecidableRel keyLe := fun a b => Nat.decLe a.k b.k

/-- `s.lines = contourList()` of `buildImplied` (Contours.js lines 240-353):
one `ContourBuilder` per level index `k` is fed the valid crossing segments
of every triangle at that level (the external Triangle Source is abstracted
by `segsAt`), the per-level polylines are concatenated over `k` in ascending
order (the `for (var k in a)` loop over integer keys) and finally sorted by
the bucket key `k`. -/
def contourList (B : Bounds) (levels : List ℚ) (segsAt : Nat → List (Point × Point)) :
    List KeyedLine :=
  List.insertionSort keyLe
    (((List.range levels.length).map
        (fun k => levelLines B k (buildLevel (segsAt k) (levels.getD k 0)))).flatten)

/-- C5: the perimeter code tests ε-closeness of the selected point's
coordinates to the bounds in the fixed priority order left (x near `minx`),
top (y near `maxy`), right (x near `maxx`), bottom (y near `miny`), returning
`(0, y)`, `(1, x)`, `(2, -y)`, `(3, -x)` respectively for the first test that
succeeds, and the default `(0, 0)` when all four fail. -/
theorem code_priority_order (B : Bounds) (points : List Point) (chooseLast : Bool) :
    (closeEnough (if chooseLast then lastPt points else headPt points).x B.minx = true →
      code B points chooseLast = (0, (if chooseLast then lastPt points else headPt points).y))
    ∧ (closeEnough (if chooseLast then lastPt points else headPt points).x B.minx = false →
        closeEnough (if chooseLast then lastPt points else headPt points).y B.maxy = true →
      code B points chooseLast = (1, (if chooseLast then lastPt points else headPt points).x))
    ∧ (closeEnough (if chooseLast then lastPt points else headPt points).x B.minx = false →
        closeEnough (if chooseLast then lastPt points else headPt points).y B.maxy = false →
        closeEnough (if chooseLast then lastPt points else headPt points).x B.maxx = true →
      code B points chooseLast = (2, -(if chooseLast then lastPt points else headPt points).y))
    ∧ (closeEnough (if chooseLast then lastPt points else headPt points).x B.minx = false →
        closeEnough (if chooseLast then lastPt points else headPt points).y B.maxy = false →
        closeEnough (if chooseLast then lastPt points else headPt points).x B.maxx = false →
        closeEnough (if chooseLast then lastPt points else headPt points).y B.miny = true →
      code B points chooseLast = (3, -(if chooseLast then lastPt points else headPt points).x))
    ∧ (closeEnough (if chooseLast then lastPt points else headPt points).x B.minx = false →
        closeEnough (if chooseLast then lastPt points else headPt points).y B.maxy = false →
        closeEnough (if chooseLast then lastPt points else headPt points).x B.maxx = false →
        closeEnough (if chooseLast then lastPt points else headPt points).y B.miny = false →
      code B points chooseLast = (0, 0)) := by
  refine ⟨?_, ?_, ?_, ?_, ?_⟩ <;> intro h1 <;> try intro h2 <;> try intro h3 <;> try intro h4
  all_goals simp_all [code]

/-- C5 witness: a point on the top edge (and not on the left edge) receives
code `(1, x)`. -/
theorem code_priority_order_witness :
    code ⟨0, 10, 0, 10⟩ [⟨3, 10⟩] false = (1, 3) := by
  have h := (code_priority_order ⟨0, 10, 0, 10⟩ [⟨3, 10⟩] false).2.1
  simp only [headPt, if_false, Bool.false_eq_true] at h ⊢
  apply h <;> norm_num [closeEnough, EPSILON, headPt]

/-- The corner point for raw edge index `m`, written from the claim's words:
the corner for edge index `m` (taken modulo 4) has `x = minx` when `m mod 4`
is 0 or 1 and `x = maxx` otherwise, and `y = miny` when `m mod 4` is 3 or 0
and `y = maxy` otherwise. -/
def cornerSpec (B : Bounds) (m : Nat) : Point :=
  ⟨if m % 4 = 0 ∨ m % 4 = 1 then B.minx else B.maxx,
   if m % 4 = 3 ∨ m % 4 = 0 then B.miny else B.maxy⟩

theorem cornerPoint_mod_eq_spec (B : Bounds) (m : Nat) :
    cornerPoint B (m % 4) = cornerSpec B m := by
  have h : m % 4 = 0 ∨ m % 4 = 1 ∨ m % 4 = 2 ∨ m % 4 = 3 := by omega
  rcases h with h | h | h | h <;> simp [cornerPoint, cornerSpec, h]

/-- Closed form of the corner `while` loop: prepends exactly the corners for
edge indices `c+1, …, c0` (in that order), one per decrement. -/
theorem cornerLoop_eq (B : Bounds) (c : Nat) :
    ∀ (c0 : Nat) (fe : List Point),
      cornerLoop B c c0 fe = (List.range' (c + 1) (c0 - c)).map (cornerSpec B) ++ fe := by
  intro c0
  induction c0 using Nat.strong_induction_on with
  | _ c0 ih =>
    intro fe
    rw [cornerLoop]
    by_cases h : c0 > c
    · rw [if_pos h, ih (c0 - 1) (by omega)]
      have hn : c0 - c = (c0 - 1 - c) + 1 := by omega
      rw [hn, List.range'_1_concat]
      have hc : c + 1 + (c0 - 1 - c) = c0 := by omega
      simp [hc, cornerPoint_mod_eq_spec]
    · rw [if_neg h]
      have hn : c0 - c = 0 := by omega
      simp [hn]

/-- C4: connecting an exit point with perimeter code `c` to the next entry
point with code `c0`, the Boundary Closer first adds 4 to `c0` when it is
numerically smaller than `c`, then prepends exactly one synthetic corner per
edge traversed — the corners for edge indices `c+1, …, c0` (mod 4), whose
coordinates are `minx`/`maxx` and `miny`/`maxy` as the claim states — in
front of the connected chain. -/
theorem cornersBetween_inserts_one_corner_per_edge (B : Bounds) (c c0 : Nat)
    (fe : List Point) :
    cornersBetween B c c0 fe
      = (List.range' (c + 1) ((if c0 < c then c0 + 4 else c0) - c)).map (cornerSpec B)
          ++ fe := by
  unfold cornersBetween
  exact cornerLoop_eq B c _ fe

/-- `addSegment` never changes the builder's `level` field. -/
theorem addSegment_level (a b : Point) (cb : ContourBuilder) :
    (addSegment a b cb).level = cb.level := by
  unfold addSegment
  split
  · rfl
  · rfl
  · rfl
  · split
    · rfl
    · split <;> rfl

/-- Folding `addSegment` never changes the builder's `level` field. -/
theorem foldl_addSegment_level :
    ∀ (segs : List (Point × Point)) (cb : ContourBuilder),
      (segs.foldl (fun cb pq => addSegment pq.1 pq.2 cb) cb).level = cb.level := by
  intro segs
  induction segs with
  | nil => intro cb; rfl
  | cons t rest ih => intro cb; rw [List.foldl_cons, ih, addSegment_level]

/-- Every polyline produced for level bucket `k` carries `k` as its key and
the builder's level value. -/
theorem mem_levelLines (B : Bounds) (k : Nat) (cb : ContourBuilder) (e : KeyedLine)
    (he : e ∈ levelLines B k cb) : e.k = k ∧ e.level = cb.level := by
  unfold levelLines at he
  rcases List.mem_append.mp he with h | h <;>
    obtain ⟨x, _, hx⟩ := List.mem_map.mp h <;>
    rw [← hx]
  · exact ⟨rfl, rfl⟩
  · exact ⟨rfl, rfl⟩

/-- C8: the final list of contour polylines is sorted in ascending order of
level key, where the key of every polyline is the level's index in the input
levels sequence (the bucket key), not its numeric threshold value; this holds
for every bounds rectangle, every levels sequence and every triangle-segment
source. -/
theorem contourList_sorted_by_level_key (B : Bounds) (levels : List ℚ)
    (segsAt : Nat → List (Point × Point)) :
    List.Sorted keyLe (contourList B levels segsAt)
    ∧ ∀ e ∈ contourList B levels segsAt,
        e.k < levels.length ∧ e.level = levels.getD e.k 0 := by
  constructor
  · haveI : IsTotal KeyedLine keyLe := ⟨fun a b => Nat.le_total a.k b.k⟩
    haveI : IsTrans KeyedLine keyLe := ⟨fun _ _ _ hab hbc => Nat.le_trans hab hbc⟩
    exact List.sorted_insertionSort keyLe _
  · intro e he
    unfold contourList at he
    have he' := (List.perm_insertionSort keyLe _).mem_iff.mp he
    obtain ⟨lsub, hsub, hesub⟩ := List.mem_flatten.mp he'
    obtain ⟨k, hk, hlsub⟩ := List.mem_map.mp hsub
    rw [← hlsub] at hesub
    obtain ⟨hek, helev⟩ := mem_levelLines B k _ e hesub
    have hkrange := List.mem_range.mp hk
    refine ⟨by rw [hek]; exact hkrange, ?_⟩
    rw [helev, hek]
    unfold buildLevel
    rw [foldl_addSegment_level]
    rfl

/-- C9: with an empty levels sequence, or when no triangle reports a crossing
at any level (in particular when the grid yields no triangles), the produced
contour list is empty; the computation is total, so empty input is not a
failure mode. -/
theorem contourList_empty_inputs (B : Bounds) (levels : List ℚ)
    (segsAt : Nat → List (Point × Point)) :
    (levels = [] → contourList B levels segsAt = [])
    ∧ ((∀ k, segsAt k = []) → contourList B levels segsAt = []) := by
  constructor
  · intro h
    subst h
    rfl
  · intro h
    unfold contourList
    have hmap : ((List.range levels.length).map
        (fun k => levelLines B k (buildLevel (segsAt k) (levels.getD k 0)))).flatten
          = [] := by
      rw [List.flatten_eq_nil_iff]
      intro lsub hl
      obtain ⟨k, _, hlsub⟩ := List.mem_map.mp hl
      rw [← hlsub, h k]
      rfl
    rw [hmap]
    rfl

/-- C9 witness: both empty-input forms evaluated at concrete inputs. -/
theorem contourList_empty_inputs_witness :
    contourList ⟨0, 1, 0, 1⟩ [] (fun _ => []) = []
    ∧ contourList ⟨0, 1, 0, 1⟩ [1, 2] (fun _ => []) = [] :=
  ⟨(contourList_empty_inputs ⟨0, 1, 0, 1⟩ [] (fun _ => [])).1 rfl,
   (contourList_empty_inputs ⟨0, 1, 0, 1⟩ [1, 2] (fun _ => [])).2 (fun _ => rfl)⟩

/-- C6 amended: the close pass of `contourList` never splits the open chains
of a level into several polylines: with no open chains it appends nothing,
and with any positive number of open chains — whether or not they belong to
one connected boundary group — it pushes exactly one stitched polyline. -/
theorem boundary_closer_single_polyline (B : Bounds) (u : List (List Point)) :
    (closeOpen B (List.insertionSort (codeLe B) u)).length
      = if u.isEmpty then 0 else 1 := by
  rcases u with _ | ⟨h0, t⟩
  · rfl
  · rcases hs : List.insertionSort (codeLe B) (h0 :: t) with _ | ⟨f, r⟩
    · have hlen := List.length_insertionSort (codeLe B) (h0 :: t)
      rw [hs] at hlen
      simp at hlen
    · simp [closeOpen]

/-- C6 counterexample: two open chains lying in two disjoint boundary groups
(one cutting the bottom-left corner, one the top-right corner), which form
two maximal wraps around the perimeter, are nevertheless stitched into a
single closed polyline containing the points of both chains. -/
theorem boundary_stitches_all_into_one_counterexample :
    closeOpen ⟨0, 10, 0, 10⟩
      (List.insertionSort (codeLe ⟨0, 10, 0, 10⟩)
        [[⟨0,2⟩, ⟨2,2⟩, ⟨2,0⟩], [⟨10,8⟩, ⟨8,8⟩, ⟨8,10⟩]])
      = [[⟨8,10⟩, ⟨10,10⟩, ⟨10,0⟩, ⟨0,0⟩,
          ⟨0,2⟩, ⟨2,2⟩, ⟨2,0⟩,
          ⟨0,0⟩, ⟨0,10⟩, ⟨10,10⟩,
          ⟨10,8⟩, ⟨8,8⟩, ⟨8,10⟩]] := by
  have hle : codeLe ⟨0, 10, 0, 10⟩ [⟨0,2⟩, ⟨2,2⟩, ⟨2,0⟩] [⟨10,8⟩, ⟨8,8⟩, ⟨8,10⟩] := by
    norm_num [codeLe, code, closeEnough, EPSILON, headPt, lastPt]
  have hsort : List.insertionSort (codeLe ⟨0, 10, 0, 10⟩)
      [[⟨0,2⟩, ⟨2,2⟩, ⟨2,0⟩], [⟨10,8⟩, ⟨8,8⟩, ⟨8,10⟩]]
      = [[⟨0,2⟩, ⟨2,2⟩, ⟨2,0⟩], [⟨10,8⟩, ⟨8,8⟩, ⟨8,10⟩]] := by
    simp only [List.insertionSort, List.orderedInsert]
    rw [if_pos hle]
  have hc1 : code ⟨0, 10, 0, 10⟩ [⟨0,2⟩, ⟨2,2⟩, ⟨2,0⟩] true = (3, -2) := by
    norm_num [code, closeEnough, EPSILON, headPt, lastPt]
  have hc2 : code ⟨0, 10, 0, 10⟩ [⟨10,8⟩, ⟨8,8⟩, ⟨8,10⟩] false = (2, -8) := by
    norm_num [code, closeEnough, EPSILON, headPt, lastPt]
  have hcor1 : cornersBetween ⟨0, 10, 0, 10⟩ 3 2 [⟨10,8⟩, ⟨8,8⟩, ⟨8,10⟩]
      = [⟨0,0⟩, ⟨0,10⟩, ⟨10,10⟩, ⟨10,8⟩, ⟨8,8⟩, ⟨8,10⟩] := by
    unfold cornersBetween
    norm_num [cornerLoop_eq, List.range', cornerSpec]
  have hc3 : code ⟨0, 10, 0, 10⟩ [(⟨8,10⟩ : Point)] true = (1, 8) := by
    norm_num [code, closeEnough, EPSILON, headPt, lastPt]
  have hc4 : code ⟨0, 10, 0, 10⟩
      [⟨0,2⟩, ⟨2,2⟩, ⟨2,0⟩, ⟨0,0⟩, ⟨0,10⟩, ⟨10,10⟩, ⟨10,8⟩, ⟨8,8⟩, ⟨8,10⟩] false
      = (0, 2) := by
    norm_num [code, closeEnough, EPSILON, headPt, lastPt]
  have hcor2 : cornersBetween ⟨0, 10, 0, 10⟩ 1 0
      [⟨0,2⟩, ⟨2,2⟩, ⟨2,0⟩, ⟨0,0⟩, ⟨0,10⟩, ⟨10,10⟩, ⟨10,8⟩, ⟨8,8⟩, ⟨8,10⟩]
      = [⟨10,10⟩, ⟨10,0⟩, ⟨0,0⟩,
         ⟨0,2⟩, ⟨2,2⟩, ⟨2,0⟩, ⟨0,0⟩, ⟨0,10⟩, ⟨10,10⟩, ⟨10,8⟩, ⟨8,8⟩, ⟨8,10⟩] := by
    unfold cornersBetween
    norm_num [cornerLoop_eq, List.range', cornerSpec]
  rw [hsort]
  show [stitch ⟨0, 10, 0, 10⟩ [⟨0,2⟩, ⟨2,2⟩, ⟨2,0⟩] [[⟨10,8⟩, ⟨8,8⟩, ⟨8,10⟩]]] = _
  rw [stitch, hc1, hc2]
  norm_num [hcor1]
  rw [stitch, hc4]
  norm_num [lastPt, hc3, hcor2]

/-- C8 witness: one level, one segment; the single produced polyline carries
bucket key 0 (below the levels length 1) and the level value 5. -/
theorem contourList_sorted_by_level_key_witness :
    (⟨0, 5, [⟨1,0⟩, ⟨1,0⟩, ⟨0,0⟩, ⟨0,0⟩, ⟨1,0⟩]⟩ : KeyedLine).k < ([5] : List ℚ).length
    ∧ (⟨0, 5, [⟨1,0⟩, ⟨1,0⟩, ⟨0,0⟩, ⟨0,0⟩, ⟨1,0⟩]⟩ : KeyedLine).level
        = ([5] : List ℚ).getD 0 0 := by
  have hbuild : buildLevel [(⟨0,0⟩, ⟨1,0⟩)] 5
      = ⟨5, [⟨[⟨0,0⟩, ⟨1,0⟩], false⟩], 1⟩ := rfl
  have hc1 : code ⟨0, 1, 0, 1⟩ [(⟨1,0⟩ : Point)] true = (2, 0) := by
    norm_num [code, closeEnough, EPSILON, headPt, lastPt]
  have hc2 : code ⟨0, 1, 0, 1⟩ [⟨0,0⟩, ⟨1,0⟩] false = (0, 0) := by
    norm_num [code, closeEnough, EPSILON, headPt, lastPt]
  have hcor : cornersBetween ⟨0, 1, 0, 1⟩ 2 0 [⟨0,0⟩, ⟨1,0⟩]
      = [⟨1,0⟩, ⟨0,0⟩, ⟨0,0⟩, ⟨1,0⟩] := by
    unfold cornersBetween
    norm_num [cornerLoop_eq, List.range', cornerSpec]
  have hstitch : stitch ⟨0, 1, 0, 1⟩ [⟨0,0⟩, ⟨1,0⟩] []
      = [⟨1,0⟩, ⟨1,0⟩, ⟨0,0⟩, ⟨0,0⟩, ⟨1,0⟩] := by
    rw [stitch]
    norm_num [lastPt, hc1, hc2, hcor]
  have hlines : levelLines ⟨0, 1, 0, 1⟩ 0 ⟨5, [⟨[⟨0,0⟩, ⟨1,0⟩], false⟩], 1⟩
      = [⟨0, 5, [⟨1,0⟩, ⟨1,0⟩, ⟨0,0⟩, ⟨0,0⟩, ⟨1,0⟩]⟩] := by
    unfold levelLines
    norm_num [closeOpen, hstitch, List.insertionSort, List.orderedInsert]
  have heval : contourList ⟨0, 1, 0, 1⟩ [5] (fun _ => [(⟨0,0⟩, ⟨1,0⟩)])
      = [⟨0, 5, [⟨1,0⟩, ⟨1,0⟩, ⟨0,0⟩, ⟨0,0⟩, ⟨1,0⟩]⟩] := by
    unfold contourList
    norm_num [hbuild, hlines, hstitch, closeOpen, levelLines,
      List.insertionSort, List.orderedInsert]
  have h := (contourList_sorted_by_level_key ⟨0, 1, 0, 1⟩ [5]
      (fun _ => [(⟨0,0⟩, ⟨1,0⟩)])).2
    ⟨0, 5, [⟨1,0⟩, ⟨1,0⟩, ⟨0,0⟩, ⟨0,0⟩, ⟨1,0⟩]⟩ (by rw [heval]; simp)
  simpa using h

/-!
### Order-insensitivity for branch-point-free inputs (strengthened C1 analysis)

The branch-point counterexample above breaks order-insensitivity only through
a point value shared by three segment endpoints.  The remainder of the file
proves that this is the only obstruction: if every point value occurs at most
twice among the segments' endpoints and ε-coincidence acts as equality on
them (no distinct-but-ε-close endpoint values), then `addSegment`-folding is
insensitive to the order of the segments — the final multiset of open-chain
endpoint pairs and the final multiset of closed loops (as cyclic edge sets)
are the same for every permutation.  The proof is a bisimulation: states of
two runs are related by a permutation of the chain list together with a
per-chain equivalence (walk reversal for open chains, rotation/reflection —
rendered as equality of edge multisets and vertex multisets — for closed
ones), and this relation is preserved by every `addSegment` step and by
transposing two adjacent segments.
-/

/-- All endpoint values of a segment list, in order. -/
def endPts (l : List (Point × Point)) : List Point :=
  l.flatMap (fun t => [t.1, t.2])

/-- The endpoint occurrences a chain accounts for: each interior point of an
open walk stands for two consumed segment-endpoint occurrences, each free end
for one; in a closed walk (whose wrap point is stored twice) every vertex
stands for two. -/
def occs (c : Chain) : List Point :=
  if c.closed then c.points.drop 1 ++ c.points.drop 1
  else c.points ++ (c.points.drop 1).dropLast

/-- Occurrences accounted for by a whole chain list. -/
def stateOccs (s : List Chain) : List Point := s.flatMap occs

/-- ε-coincidence acts as equality on the values of `L`. -/
def SepOn (L : List Point) : Prop :=
  ∀ p ∈ L, ∀ q ∈ L, (pointsEqual p q = true ↔ p = q)

/-- No value occurs more than twice in `L` (absence of branch points). -/
def Deg2On (L : List Point) : Prop := ∀ v : Point, L.count v ≤ 2

/-- Invariant tying a chain-list state to the not-yet-processed segments:
walks have at least two points, closed walks carry their wrap point at both
ends, and over all accounted occurrences plus future endpoints coincidence is
equality and no value occurs more than twice. -/
structure StInv (s : List Chain) (rest : List (Point × Point)) : Prop where
  twoLe : ∀ c ∈ s, 2 ≤ c.points.length
  wrap : ∀ c ∈ s, c.closed = true → headPt c.points = lastPt c.points
  sep : SepOn (stateOccs s ++ endPts rest)
  deg : Deg2On (stateOccs s ++ endPts rest)

/-- Consecutive point pairs of a walk, as unordered pairs; for a closed walk
this is its cyclic edge multiset. -/
def cycleEdges (w : List Point) : List (Point × Point) :=
  (w.zip w.tail).map (fun pq => normPair pq.1 pq.2)

/-- Equivalence of chains up to representation: open chains up to walk
reversal, closed chains up to rotation and reflection of the cycle (equal
edge multisets and equal vertex multisets), with the wrap-point invariant
recorded on both sides. -/
def chainEq (c1 c2 : Chain) : Prop :=
  c1.closed = c2.closed ∧
  (c1.closed = true → headPt c1.points = lastPt c1.points) ∧
  (c2.closed = true → headPt c2.points = lastPt c2.points) ∧
  (if c1.closed = true then
      (cycleEdges c1.points).Perm (cycleEdges c2.points)
        ∧ (c1.points.drop 1).Perm (c2.points.drop 1)
    else c1.points = c2.points ∨ c1.points = c2.points.reverse)

/-- Equivalence of chain-list states: a permutation pairing chains up to
`chainEq`. -/
def SEq (s1 s2 : List Chain) : Prop :=
  ∃ mid, s1.Perm mid ∧ List.Forall₂ chainEq mid s2

/-- Two points with equal coordinates are equal. -/
theorem pointExt {p q : Point} (hx : p.x = q.x) (hy : p.y = q.y) : p = q := by
  cases p
  cases q
  simp_all

/-- `normPair` is insensitive to argument order. -/
theorem normPair_comm (p q : Point) : normPair p q = normPair q p := by
  unfold normPair
  by_cases h1 : p.x < q.x ∨ (p.x = q.x ∧ p.y ≤ q.y)
  · by_cases h2 : q.x < p.x ∨ (q.x = p.x ∧ q.y ≤ p.y)
    · have hpq : p = q := by
        have hx : p.x = q.x := by
          rcases h1 with h | ⟨he, _⟩
          · rcases h2 with h' | ⟨h'e, _⟩
            · linarith
            · linarith
          · exact he
        have hy : p.y = q.y := by
          rcases h1 with h | ⟨he, hy1⟩
          · rcases h2 with h' | ⟨h'e, _⟩
            · linarith
            · linarith
          · rcases h2 with h' | ⟨h'e, hy2⟩
            · linarith
            · exact le_antisymm hy1 hy2
        exact pointExt hx hy
      rw [if_pos h1, if_pos h2, hpq]
    · rw [if_pos h1, if_neg h2]
  · by_cases h2 : q.x < p.x ∨ (q.x = p.x ∧ q.y ≤ p.y)
    · rw [if_neg h1, if_pos h2]
    · exfalso
      rw [not_or, not_and_or] at h1 h2
      obtain ⟨h1x, h1y⟩ := h1
      obtain ⟨h2x, h2y⟩ := h2
      have hx : p.x = q.x := le_antisymm (not_lt.mp h2x) (not_lt.mp h1x)
      rcases h1y with h | h
      · exact h hx
      · rcases h2y with h' | h'
        · exact h' hx.symm
        · exact h' (le_of_not_le (fun hle => h hle))

/-- `headPt` of a nonempty prefix. -/
theorem headPt_append (w1 w2 : List Point) (h : w1 ≠ []) :
    headPt (w1 ++ w2) = headPt w1 := by
  cases w1 with
  | nil => exact absurd rfl h
  | cons a t => rfl

/-- `lastPt` skips a cons onto a nonempty tail. -/
theorem lastPt_cons (a : Point) (w : List Point) (h : w ≠ []) :
    lastPt (a :: w) = lastPt w := by
  cases w with
  | nil => exact absurd rfl h
  | cons b t => rfl

/-- `lastPt` of an append with nonempty suffix. -/
theorem lastPt_append (w1 w2 : List Point) (h : w2 ≠ []) :
    lastPt (w1 ++ w2) = lastPt w2 := by
  induction w1 with
  | nil => rfl
  | cons a t ih =>
    rw [List.cons_append, lastPt_cons a (t ++ w2) (by simp [h]), ih]

/-- `lastPt` of a reversed walk is `headPt`. -/
theorem lastPt_reverse (w : List Point) : lastPt w.reverse = headPt w := by
  cases w with
  | nil => rfl
  | cons a t =>
    rw [List.reverse_cons, lastPt_append _ _ (by simp)]
    rfl

/-- `headPt` of a reversed walk is `lastPt`. -/
theorem headPt_reverse (w : List Point) : headPt w.reverse = lastPt w := by
  induction w with
  | nil => rfl
  | cons a t ih =>
    cases t with
    | nil => rfl
    | cons b u =>
      rw [List.reverse_cons, headPt_append _ _ (by simp), ih,
        lastPt_cons a (b :: u) (by simp)]

/-- A nonempty walk is its `dropLast` followed by its last point. -/
theorem dropLast_concat_lastPt : ∀ (w : List Point), w ≠ [] →
    w.dropLast ++ [lastPt w] = w := by
  intro w
  induction w with
  | nil => intro h; exact absurd rfl h
  | cons a t ih =>
    intro _
    cases t with
    | nil => rfl
    | cons b u =>
      rw [List.dropLast_cons₂, lastPt_cons a (b :: u) (by simp), List.cons_append,
        ih (by simp)]

/-- A walk of length at least two is head, middle, last. -/
theorem walk_decomp (w : List Point) (h : 2 ≤ w.length) :
    w = headPt w :: ((w.drop 1).dropLast ++ [lastPt w]) := by
  cases w with
  | nil => simp at h
  | cons a t =>
    have ht : t ≠ [] := by
      cases t with
      | nil => simp at h
      | cons b u => simp
    have : t.dropLast ++ [lastPt t] = t := dropLast_concat_lastPt t ht
    rw [lastPt_cons a t ht]
    simpa [headPt] using this.symm

/-- `cycleEdges` of a cons onto a nonempty walk. -/
theorem cycleEdges_cons (a : Point) (z : List Point) (hz : z ≠ []) :
    cycleEdges (a :: z) = normPair a (headPt z) :: cycleEdges z := by
  cases z with
  | nil => exact absurd rfl hz
  | cons c v => simp [cycleEdges, headPt]

/-- `cycleEdges` distributes over an append of nonempty walks, adding the
junction edge. -/
theorem cycleEdges_append (w1 w2 : List Point) (h1 : w1 ≠ []) (h2 : w2 ≠ []) :
    cycleEdges (w1 ++ w2)
      = cycleEdges w1 ++ normPair (lastPt w1) (headPt w2) :: cycleEdges w2 := by
  induction w1 with
  | nil => exact absurd rfl h1
  | cons a t ih =>
    cases t with
    | nil =>
      rw [List.singleton_append, cycleEdges_cons a w2 h2]
      rfl
    | cons b u =>
      rw [List.cons_append, cycleEdges_cons a ((b :: u) ++ w2) (by simp),
        cycleEdges_cons a (b :: u) (by simp), headPt_append _ _ (by simp),
        ih (by simp), lastPt_cons a (b :: u) (by simp)]
      simp

/-- The edge multiset of a walk is invariant under reversal. -/
theorem cycleEdges_reverse (w : List Point) :
    (cycleEdges w.reverse).Perm (cycleEdges w) := by
  induction w with
  | nil => exact List.Perm.refl _
  | cons a t ih =>
    cases t with
    | nil => exact List.Perm.refl _
    | cons b u =>
      rw [List.reverse_cons,
        cycleEdges_append (b :: u).reverse [a] (by simp) (by simp),
        lastPt_reverse, cycleEdges_cons a (b :: u) (by simp)]
      have h1 : cycleEdges (b :: u).reverse ++ normPair (headPt (b :: u)) (headPt [a]) :: cycleEdges [a]
          = cycleEdges (b :: u).reverse ++ [normPair a (headPt (b :: u))] := by
        rw [normPair_comm]
        rfl
      rw [h1]
      exact (List.perm_append_singleton _ _).trans (ih.cons _)

theorem chainEq_refl (c : Chain)
    (hw : c.closed = true → headPt c.points = lastPt c.points) : chainEq c c := by
  refine ⟨rfl, hw, hw, ?_⟩
  split
  · exact ⟨List.Perm.refl _, List.Perm.refl _⟩
  · exact Or.inl rfl

theorem chainEq_symm {c1 c2 : Chain} (h : chainEq c1 c2) : chainEq c2 c1 := by
  obtain ⟨hc, hw1, hw2, hrest⟩ := h
  refine ⟨hc.symm, hw2, hw1, ?_⟩
  rw [← hc]
  by_cases hcl : c1.closed = true
  · rw [if_pos hcl] at hrest ⊢
    exact ⟨hrest.1.symm, hrest.2.symm⟩
  · rw [if_neg hcl] at hrest ⊢
    rcases hrest with h | h
    · exact Or.inl h.symm
    · right
      rw [h, List.reverse_reverse]

theorem chainEq_trans {c1 c2 c3 : Chain} (h12 : chainEq c1 c2) (h23 : chainEq c2 c3) :
    chainEq c1 c3 := by
  obtain ⟨hc12, hw1, hw2, hr12⟩ := h12
  obtain ⟨hc23, _, hw3, hr23⟩ := h23
  refine ⟨hc12.trans hc23, hw1, hw3, ?_⟩
  rw [← hc12] at hr23
  by_cases hcl : c1.closed = true
  · rw [if_pos hcl] at hr12 hr23 ⊢
    exact ⟨hr12.1.trans hr23.1, hr12.2.trans hr23.2⟩
  · rw [if_neg hcl] at hr12 hr23 ⊢
    rcases hr12 with h | h <;> rcases hr23 with h' | h'
    · exact Or.inl (h.trans h')
    · exact Or.inr (h.trans h')
    · exact Or.inr (by rw [h, h'])
    · left
      rw [h, h', List.reverse_reverse]

theorem forall₂_chainEq_refl (s : List Chain)
    (hw : ∀ c ∈ s, c.closed = true → headPt c.points = lastPt c.points) :
    List.Forall₂ chainEq s s := by
  induction s with
  | nil => exact List.Forall₂.nil
  | cons c t ih =>
    exact List.Forall₂.cons (chainEq_refl c (hw c (List.mem_cons_self c t)))
      (ih (fun d hd => hw d (List.mem_cons_of_mem c hd)))

theorem forall₂_chainEq_symm : ∀ {s1 s2 : List Chain},
    List.Forall₂ chainEq s1 s2 → List.Forall₂ chainEq s2 s1 := by
  intro s1 s2 h
  induction h with
  | nil => exact List.Forall₂.nil
  | cons hc ht ih => exact List.Forall₂.cons (chainEq_symm hc) ih

theorem forall₂_chainEq_trans : ∀ {s1 s2 s3 : List Chain},
    List.Forall₂ chainEq s1 s2 → List.Forall₂ chainEq s2 s3 →
      List.Forall₂ chainEq s1 s3 := by
  intro s1 s2 s3 h12
  induction h12 generalizing s3 with
  | nil =>
    intro h23
    cases h23
    exact List.Forall₂.nil
  | cons hc ht ih =>
    intro h23
    cases h23 with
    | cons hc2 ht2 => exact List.Forall₂.cons (chainEq_trans hc hc2) (ih ht2)

/-- A `Forall₂ chainEq` pairing can be pushed through a permutation of its
right-hand list. -/
theorem forall₂_chainEq_exchange : ∀ {b c : List Chain}, b.Perm c →
    ∀ {m : List Chain}, List.Forall₂ chainEq m b →
      ∃ d, m.Perm d ∧ List.Forall₂ chainEq d c := by
  intro b c hperm
  induction hperm with
  | nil =>
    intro m hm
    cases hm
    exact ⟨[], List.Perm.refl _, List.Forall₂.nil⟩
  | cons x p ih =>
    intro m hm
    cases hm with
    | cons hc ht =>
      obtain ⟨d, hpd, hfd⟩ := ih ht
      exact ⟨_ :: d, hpd.cons _, List.Forall₂.cons hc hfd⟩
  | swap x y l =>
    intro m hm
    cases hm with
    | cons hc1 ht =>
      cases ht with
      | cons hc2 ht2 =>
        exact ⟨_ :: _ :: _, List.Perm.swap _ _ _, List.Forall₂.cons hc2
          (List.Forall₂.cons hc1 ht2)⟩
  | trans p1 p2 ih1 ih2 =>
    intro m hm
    obtain ⟨d1, hp1, hf1⟩ := ih1 hm
    obtain ⟨d2, hp2, hf2⟩ := ih2 hf1
    exact ⟨d2, hp1.trans hp2, hf2⟩

theorem seq_of_perm {s1 s2 : List Chain} (h : s1.Perm s2)
    (hw : ∀ c ∈ s2, c.closed = true → headPt c.points = lastPt c.points) :
    SEq s1 s2 :=
  ⟨s2, h, forall₂_chainEq_refl s2 hw⟩

theorem seq_symm {s1 s2 : List Chain} (h : SEq s1 s2) : SEq s2 s1 := by
  obtain ⟨mid, hp, hf⟩ := h
  exact forall₂_chainEq_exchange hp.symm (forall₂_chainEq_symm hf)

theorem seq_trans {s1 s2 s3 : List Chain} (h12 : SEq s1 s2) (h23 : SEq s2 s3) :
    SEq s1 s3 := by
  obtain ⟨m1, hp1, hf1⟩ := h12
  obtain ⟨m2, hp2, hf2⟩ := h23
  obtain ⟨d, hpd, hfd⟩ := forall₂_chainEq_exchange hp2 hf1
  exact ⟨d, hp1.trans hpd, forall₂_chainEq_trans hfd hf2⟩

theorem seq_cons {c1 c2 : Chain} {s1 s2 : List Chain} (hc : chainEq c1 c2)
    (hs : SEq s1 s2) : SEq (c1 :: s1) (c2 :: s2) := by
  obtain ⟨mid, hp, hf⟩ := hs
  exact ⟨c1 :: mid, hp.cons _, List.Forall₂.cons hc hf⟩

/-- A list is a permutation of any element pulled to the front. -/
theorem permExtract : ∀ (l : List Chain) (i : Nat), i < l.length →
    l.Perm (getIdx l i :: l.eraseIdx i) := by
  intro l
  induction l with
  | nil => intro i h; simp at h
  | cons c t ih =>
    intro i h
    cases i with
    | zero => simp [getIdx, List.eraseIdx]
    | succ i =>
      have hi : i < t.length := by simpa using h
      have step := (ih i hi).cons c
      refine step.trans ?_
      simp only [getIdx, List.getD_cons_succ, List.eraseIdx_cons_succ]
      exact List.Perm.swap _ _ _

/-- `modifyIdx` at `i` is, up to permutation, modifying the extracted element. -/
theorem permModify (f : Chain → Chain) : ∀ (l : List Chain) (i : Nat), i < l.length →
    (modifyIdx f i l).Perm (f (getIdx l i) :: l.eraseIdx i) := by
  intro l
  induction l with
  | nil => intro i h; simp at h
  | cons c t ih =>
    intro i h
    cases i with
    | zero => simp [modifyIdx, getIdx, List.eraseIdx]
    | succ i =>
      have hi : i < t.length := by simpa using h
      have step := (ih i hi).cons c
      simp only [modifyIdx, getIdx, List.getD_cons_succ, List.eraseIdx_cons_succ]
      refine (step.trans (List.Perm.swap _ _ _))

/-- Pulling two distinct positions to the front: the remainder `r` is shared
between the original list and the modify-then-erase result of `addSegment`'s
merge case. -/
theorem extract2 : ∀ (l : List Chain) (i j : Nat), i ≠ j → i < l.length → j < l.length →
    ∃ r, l.Perm (getIdx l i :: getIdx l j :: r) ∧
      ∀ (f : Chain → Chain), ((modifyIdx f j l).eraseIdx i).Perm (f (getIdx l j) :: r) := by
  intro l
  induction l with
  | nil => intro i j _ h _; simp at h
  | cons c t ih =>
    intro i j hij hi hj
    cases i with
    | zero =>
      cases j with
      | zero => exact absurd rfl hij
      | succ j =>
        have hj' : j < t.length := by simpa using hj
        refine ⟨t.eraseIdx j, ?_, ?_⟩
        · simpa [getIdx] using (permExtract t j hj').cons c
        · intro f
          simpa [modifyIdx, getIdx, List.eraseIdx] using permModify f t j hj'
    | succ i =>
      have hi' : i < t.length := by simpa using hi
      cases j with
      | zero =>
        refine ⟨t.eraseIdx i, ?_, ?_⟩
        · refine ((permExtract t i hi').cons c).trans ?_
          simp only [getIdx, List.getD_cons_succ, List.getD_cons_zero]
          exact List.Perm.swap _ _ _
        · intro f
          simp only [modifyIdx, getIdx, List.getD_cons_zero, List.eraseIdx_cons_succ]
          exact List.Perm.refl _
      | succ j =>
        have hj' : j < t.length := by simpa using hj
        obtain ⟨r, hr1, hr2⟩ := ih i j (by omega) hi' hj'
        refine ⟨c :: r, ?_, ?_⟩
        · refine (hr1.cons c).trans ?_
          simp only [getIdx, List.getD_cons_succ]
          exact (List.Perm.swap _ _ _).trans ((List.Perm.swap _ _ _).cons _)
        · intro f
          simp only [modifyIdx, getIdx, List.getD_cons_succ, List.eraseIdx_cons_succ]
          exact ((hr2 f).cons c).trans (List.Perm.swap _ _ _)

theorem getIdx_eq_of_getElem? {l : List Chain} {i : Nat} {ch : Chain}
    (h : l[i]? = some ch) : getIdx l i = ch := by
  unfold getIdx
  rw [List.getD_eq_getElem?_getD, h]
  rfl

/-- Case 1/2 body of `addSegment`: extend a chain with `q`, prepending when
the matched end was the head. -/
def extendCh (c : Chain) (pre : Bool) (q : Point) : Chain :=
  if pre then { c with points := q :: c.points }
  else { c with points := c.points ++ [q] }

/-- Case 3 same-chain body of `addSegment`: close the chain. -/
def closeCh (c : Chain) : Chain :=
  { c with points := c.tailP :: c.points, closed := true }

/-- Case 3 merge body of `addSegment`, by the two prepend flags; `cA` is the
chain matched by `a`, `cB` the chain matched by `b`. -/
def mergeCh (cA cB : Chain) (pa pb : Bool) : Chain :=
  match pa, pb with
  | false, false => { cB with points := cB.points ++ cA.points.reverse }
  | true, false => { cB with points := cB.points ++ cA.points }
  | false, true => { cA with points := cA.points ++ cB.points }
  | true, true => { cA with points := cA.points.reverse ++ cB.points }

/-- Step characterization, case 0. -/
theorem step_case0 (a b : Point) (cb : ContourBuilder)
    (ha : firstMatchFrom a cb.s 0 = none) (hb : firstMatchFrom b cb.s 0 = none) :
    (addSegment a b cb).s = ⟨[a, b], false⟩ :: cb.s := by
  unfold addSegment
  rw [scanLoop_eq_firstMatch]
  simp [Option.orElse, ha, hb]

/-- Step characterization, case 1 (`a` matched, `b` fresh). -/
theorem step_case1 (a b : Point) (cb : ContourBuilder) (i : Nat) (pa : Bool)
    (ha : firstMatchFrom a cb.s 0 = some (i, pa)) (hb : firstMatchFrom b cb.s 0 = none) :
    (addSegment a b cb).s.Perm (extendCh (getIdx cb.s i) pa b :: cb.s.eraseIdx i) := by
  have hi : i < cb.s.length := by
    obtain ⟨ch, hch, -⟩ := firstMatchFrom_sound a cb.s i pa ha
    exact List.getElem?_eq_some_iff.mp hch |>.1
  have hres : (addSegment a b cb).s = modifyIdx (fun ch =>
      if pa then { ch with points := b :: ch.points }
      else { ch with points := ch.points ++ [b] }) i cb.s := by
    unfold addSegment
    rw [scanLoop_eq_firstMatch]
    simp [Option.orElse, ha, hb]
  rw [hres]
  exact permModify _ cb.s i hi

/-- Step characterization, case 2 (`b` matched, `a` fresh). -/
theorem step_case2 (a b : Point) (cb : ContourBuilder) (j : Nat) (pb : Bool)
    (ha : firstMatchFrom a cb.s 0 = none) (hb : firstMatchFrom b cb.s 0 = some (j, pb)) :
    (addSegment a b cb).s.Perm (extendCh (getIdx cb.s j) pb a :: cb.s.eraseIdx j) := by
  have hj : j < cb.s.length := by
    obtain ⟨ch, hch, -⟩ := firstMatchFrom_sound b cb.s j pb hb
    exact List.getElem?_eq_some_iff.mp hch |>.1
  have hres : (addSegment a b cb).s = modifyIdx (fun ch =>
      if pb then { ch with points := a :: ch.points }
      else { ch with points := ch.points ++ [a] }) j cb.s := by
    unfold addSegment
    rw [scanLoop_eq_firstMatch]
    simp [Option.orElse, ha, hb]
  rw [hres]
  exact permModify _ cb.s j hj

/-- Step characterization, case 3 with both endpoints on the same chain. -/
theorem step_close (a b : Point) (cb : ContourBuilder) (i : Nat) (pa pb : Bool)
    (ha : firstMatchFrom a cb.s 0 = some (i, pa))
    (hb : firstMatchFrom b cb.s 0 = some (i, pb)) :
    (addSegment a b cb).s.Perm (closeCh (getIdx cb.s i) :: cb.s.eraseIdx i) := by
  have hi : i < cb.s.length := by
    obtain ⟨ch, hch, -⟩ := firstMatchFrom_sound a cb.s i pa ha
    exact List.getElem?_eq_some_iff.mp hch |>.1
  have hres : (addSegment a b cb).s = modifyIdx (fun ch =>
      { ch with points := ch.tailP :: ch.points, closed := true }) i cb.s := by
    unfold addSegment
    rw [scanLoop_eq_firstMatch]
    simp [Option.orElse, ha, hb]
  rw [hres]
  exact permModify _ cb.s i hi

/-- Step characterization, case 3 with two distinct chains: the state is, up
to permutation, a common remainder `r` with the two matched chains in front,
and the result replaces them by the merged chain. -/
theorem step_merge (a b : Point) (cb : ContourBuilder) (i j : Nat) (pa pb : Bool)
    (ha : firstMatchFrom a cb.s 0 = some (i, pa))
    (hb : firstMatchFrom b cb.s 0 = some (j, pb)) (hij : i ≠ j) :
    ∃ r, cb.s.Perm (getIdx cb.s i :: getIdx cb.s j :: r) ∧
      (addSegment a b cb).s.Perm (mergeCh (getIdx cb.s i) (getIdx cb.s j) pa pb :: r) := by
  have hi : i < cb.s.length := by
    obtain ⟨ch, hch, -⟩ := firstMatchFrom_sound a cb.s i pa ha
    exact List.getElem?_eq_some_iff.mp hch |>.1
  have hj : j < cb.s.length := by
    obtain ⟨ch, hch, -⟩ := firstMatchFrom_sound b cb.s j pb hb
    exact List.getElem?_eq_some_iff.mp hch |>.1
  cases pa <;> cases pb
  · have hres : (addSegment a b cb).s = (modifyIdx (fun c =>
        { c with points := c.points ++ (getIdx cb.s i).points.reverse }) j cb.s).eraseIdx i := by
      unfold addSegment
      rw [scanLoop_eq_firstMatch]
      simp [Option.orElse, ha, hb, hij]
    obtain ⟨r, hr1, hr2⟩ := extract2 cb.s i j hij hi hj
    exact ⟨r, hr1, by rw [hres]; exact hr2 _⟩
  · have hres : (addSegment a b cb).s = (modifyIdx (fun c =>
        { c with points := c.points ++ (getIdx cb.s j).points }) i cb.s).eraseIdx j := by
      unfold addSegment
      rw [scanLoop_eq_firstMatch]
      simp [Option.orElse, ha, hb, hij]
    obtain ⟨r, hr1, hr2⟩ := extract2 cb.s j i (Ne.symm hij) hj hi
    refine ⟨r, hr1.trans (List.Perm.swap _ _ _), by rw [hres]; exact hr2 _⟩
  · have hres : (addSegment a b cb).s = (modifyIdx (fun c =>
        { c with points := c.points ++ (getIdx cb.s i).points }) j cb.s).eraseIdx i := by
      unfold addSegment
      rw [scanLoop_eq_firstMatch]
      simp [Option.orElse, ha, hb, hij]
    obtain ⟨r, hr1, hr2⟩ := extract2 cb.s i j hij hi hj
    exact ⟨r, hr1, by rw [hres]; exact hr2 _⟩
  · have hres : (addSegment a b cb).s = (modifyIdx (fun c =>
        { c with points := c.points.reverse ++ (getIdx cb.s j).points }) i cb.s).eraseIdx j := by
      unfold addSegment
      rw [scanLoop_eq_firstMatch]
      simp [Option.orElse, ha, hb, hij]
    obtain ⟨r, hr1, hr2⟩ := extract2 cb.s j i (Ne.symm hij) hj hi
    refine ⟨r, hr1.trans (List.Perm.swap _ _ _), by rw [hres]; exact hr2 _⟩

theorem headPt_mem (w : List Point) (h : w ≠ []) : headPt w ∈ w := by
  cases w with
  | nil => exact absurd rfl h
  | cons a t => exact List.mem_cons_self _ _

theorem lastPt_mem : ∀ (w : List Point), w ≠ [] → lastPt w ∈ w := by
  intro w
  induction w with
  | nil => intro h; exact absurd rfl h
  | cons a t ih =>
    intro _
    cases t with
    | nil => exact List.mem_cons_self _ _
    | cons b u =>
      rw [lastPt_cons a (b :: u) (by simp)]
      exact List.mem_cons_of_mem a (ih (by simp))

theorem dropLast_tail_comm (w : List Point) : (w.tail).dropLast = (w.dropLast).tail := by
  cases w with
  | nil => rfl
  | cons a t =>
    cases t with
    | nil => rfl
    | cons b u => simp

theorem dropLast_reverse (w : List Point) : w.reverse.dropLast = w.tail.reverse := by
  have h := List.tail_reverse w.reverse
  rw [List.reverse_reverse] at h
  have := congrArg List.reverse h
  rw [List.reverse_reverse] at this
  exact this.symm

/-- The interior of a walk (all but the two end points). -/
def interiorW (w : List Point) : List Point := (w.drop 1).dropLast

theorem interiorW_reverse (w : List Point) :
    interiorW w.reverse = (interiorW w).reverse := by
  unfold interiorW
  rw [List.drop_one, List.drop_one, List.tail_reverse, dropLast_reverse,
    dropLast_tail_comm]

/-- The tail of a walk of length ≥ 2 is its interior plus the last point. -/
theorem drop_one_eq_interior_concat (w : List Point) (h : 2 ≤ w.length) :
    w.drop 1 = interiorW w ++ [lastPt w] := by
  unfold interiorW
  have hne : w.drop 1 ≠ [] := by
    cases w with
    | nil => simp at h
    | cons a t =>
      cases t with
      | nil => simp at h
      | cons b u => simp
  have hlast : lastPt (w.drop 1) = lastPt w := by
    cases w with
    | nil => rfl
    | cons a t =>
      rw [List.drop_one]
      cases t with
      | nil => simp at h
      | cons b u => rw [lastPt_cons a (b :: u) (by simp)]; rfl
  rw [← hlast]
  exact (dropLast_concat_lastPt _ hne).symm

/-- `occs` of an open chain, unfolded. -/
theorem occs_open (c : Chain) (h : c.closed = false) :
    occs c = c.points ++ interiorW c.points := by
  unfold occs interiorW
  rw [h]
  rfl

/-- `occs` of a closed chain, unfolded. -/
theorem occs_closed (c : Chain) (h : c.closed = true) :
    occs c = c.points.drop 1 ++ c.points.drop 1 := by
  unfold occs
  rw [h]
  rfl

theorem stateOccs_cons (c : Chain) (s : List Chain) :
    stateOccs (c :: s) = occs c ++ stateOccs s := by
  simp [stateOccs]

theorem stateOccs_perm {s1 s2 : List Chain} (h : s1.Perm s2) :
    (stateOccs s1).Perm (stateOccs s2) :=
  List.Perm.flatMap_right occs h

theorem sepOn_perm {L1 L2 : List Point} (h : L1.Perm L2) (hs : SepOn L1) : SepOn L2 :=
  fun p hp q hq => hs p (h.mem_iff.mpr hp) q (h.mem_iff.mpr hq)

theorem deg2On_perm {L1 L2 : List Point} (h : L1.Perm L2) (hd : Deg2On L1) : Deg2On L2 :=
  fun v => le_of_eq_of_le (h.count_eq v).symm (hd v)

theorem stinv_perm {s1 s2 : List Chain} {r1 r2 : List (Point × Point)}
    (hs : s1.Perm s2) (hr : r1.Perm r2) (h : StInv s1 r1) : StInv s2 r2 := by
  have hocc : (stateOccs s1 ++ endPts r1).Perm (stateOccs s2 ++ endPts r2) :=
    (stateOccs_perm hs).append (List.Perm.flatMap_right _ hr)
  exact ⟨fun c hc => h.twoLe c (hs.mem_iff.mpr hc),
    fun c hc => h.wrap c (hs.mem_iff.mpr hc),
    sepOn_perm hocc h.sep, deg2On_perm hocc h.deg⟩

theorem dropLast_eq_head_cons_interior (w : List Point) (h : 2 ≤ w.length) :
    w.dropLast = headPt w :: interiorW w := by
  cases w with
  | nil => simp at h
  | cons a t =>
    cases t with
    | nil => simp at h
    | cons b u =>
      rw [List.dropLast_cons₂]
      rfl

theorem drop_one_append (P Q : List Point) (h : P ≠ []) :
    (P ++ Q).drop 1 = P.drop 1 ++ Q := by
  cases P with
  | nil => exact absurd rfl h
  | cons a t => rfl

/-- Occurrence conservation for the extension step: the extended chain
accounts for the occurrences of the old chain plus the two endpoint
occurrences of the incoming segment (the matched end value and the fresh
point `b`). -/
theorem occs_extendCh (c : Chain) (pa : Bool) (b : Point) (hcl : c.closed = false)
    (hlen : 2 ≤ c.points.length) :
    (occs (extendCh c pa b)).Perm
      (b :: (if pa then c.headP else c.tailP) :: occs c) := by
  have hne : c.points ≠ [] := by
    intro h
    rw [h] at hlen
    simp at hlen
  cases pa
  · have hint : interiorW (c.points ++ [b]) = interiorW c.points ++ [lastPt c.points] := by
      unfold interiorW
      rw [drop_one_append _ _ hne, List.dropLast_concat]
      exact drop_one_eq_interior_concat c.points hlen
    have hocc : occs (extendCh c false b)
        = (c.points ++ [b]) ++ (interiorW c.points ++ [lastPt c.points]) := by
      rw [← hint]
      exact occs_open _ hcl
    rw [hocc, if_neg (by simp), occs_open c hcl]
    show ((c.points ++ [b]) ++ (interiorW c.points ++ [lastPt c.points])).Perm
      (b :: c.tailP :: (c.points ++ interiorW c.points))
    show ((c.points ++ [b]) ++ (interiorW c.points ++ [lastPt c.points])).Perm
      (b :: lastPt c.points :: (c.points ++ interiorW c.points))
    rw [← Multiset.coe_eq_coe]
    simp only [← Multiset.cons_coe, ← Multiset.coe_add, ← Multiset.singleton_add,
      Multiset.coe_nil, add_zero]
    abel
  · have hint : interiorW (b :: c.points) = headPt c.points :: interiorW c.points := by
      unfold interiorW
      rw [List.drop_one, List.tail_cons, ← interiorW,
        dropLast_eq_head_cons_interior c.points hlen]
    have hocc : occs (extendCh c true b)
        = (b :: c.points) ++ (headPt c.points :: interiorW c.points) := by
      rw [← hint]
      exact occs_open _ hcl
    rw [hocc, if_pos rfl, occs_open c hcl]
    show ((b :: c.points) ++ (headPt c.points :: interiorW c.points)).Perm
      (b :: headPt c.points :: (c.points ++ interiorW c.points))
    rw [← Multiset.coe_eq_coe]
    simp only [← Multiset.cons_coe, ← Multiset.coe_add, ← Multiset.singleton_add,
      Multiset.coe_nil, add_zero]
    abel

/-- Occurrence conservation for the closure step: the closed chain accounts
for the old open chain's occurrences plus one more occurrence of each former
free-end value. -/
theorem occs_closeCh (c : Chain) (hcl : c.closed = false) (hlen : 2 ≤ c.points.length) :
    (occs (closeCh c)).Perm (c.headP :: c.tailP :: occs c) := by
  have hne : c.points ≠ [] := by
    intro h
    rw [h] at hlen
    simp at hlen
  have hocc : occs (closeCh c) = c.points ++ c.points := by
    unfold closeCh
    rw [occs_closed _ rfl]
    simp [Chain.tailP]
  rw [hocc, occs_open c hcl]
  have hw := walk_decomp c.points hlen
  have h2 : c.points ++ c.points
      = c.points ++ (headPt c.points :: ((c.points.drop 1).dropLast ++ [lastPt c.points])) :=
    congrArg (fun z => c.points ++ z) hw
  rw [h2]
  show (c.points ++ (headPt c.points :: (interiorW c.points ++ [lastPt c.points]))).Perm
    (headPt c.points :: lastPt c.points :: (c.points ++ interiorW c.points))
  rw [← Multiset.coe_eq_coe]
  simp only [← Multiset.cons_coe, ← Multiset.coe_add, ← Multiset.singleton_add,
    Multiset.coe_nil, add_zero]
  abel

/-- Occurrences of an appended walk: the two junction values are new, the
rest adds up. -/
theorem occsW_append (P Q : List Point) (hP : 2 ≤ P.length) (hQ : 2 ≤ Q.length) :
    ((P ++ Q) ++ interiorW (P ++ Q)).Perm
      (lastPt P :: headPt Q :: ((P ++ interiorW P) ++ (Q ++ interiorW Q))) := by
  have hPne : P ≠ [] := by intro h; rw [h] at hP; simp at hP
  have hQne : Q ≠ [] := by intro h; rw [h] at hQ; simp at hQ
  have hint : interiorW (P ++ Q)
      = (interiorW P ++ [lastPt P]) ++ (headPt Q :: interiorW Q) := by
    have h1 : interiorW (P ++ Q) = P.drop 1 ++ Q.dropLast := by
      unfold interiorW
      rw [drop_one_append _ _ hPne, List.dropLast_append_of_ne_nil _ hQne]
    rw [h1, drop_one_eq_interior_concat P hP, dropLast_eq_head_cons_interior Q hQ]
  rw [hint]
  rw [← Multiset.coe_eq_coe]
  simp only [← Multiset.cons_coe, ← Multiset.coe_add, ← Multiset.singleton_add,
    Multiset.coe_nil, add_zero]
  abel

/-- A reversed walk accounts for the same occurrences. -/
theorem occsW_reverse (w : List Point) :
    (w.reverse ++ interiorW w.reverse).Perm (w ++ interiorW w) := by
  rw [interiorW_reverse]
  exact (w.reverse_perm).append ((interiorW w).reverse_perm)

/-- Occurrence conservation for the merge step: the merged chain accounts for
both old chains' occurrences plus one occurrence of each matched end value. -/
theorem occs_mergeCh (cA cB : Chain) (pa pb : Bool)
    (hA : cA.closed = false) (hB : cB.closed = false)
    (hlA : 2 ≤ cA.points.length) (hlB : 2 ≤ cB.points.length) :
    (occs (mergeCh cA cB pa pb)).Perm
      ((if pa then cA.headP else cA.tailP) :: (if pb then cB.headP else cB.tailP) ::
        (occs cA ++ occs cB)) := by
  have hlAr : 2 ≤ cA.points.reverse.length := by simpa using hlA
  cases pa <;> cases pb
  · have hocc : occs (mergeCh cA cB false false)
        = (cB.points ++ cA.points.reverse) ++ interiorW (cB.points ++ cA.points.reverse) := by
      show occs ⟨cB.points ++ cA.points.reverse, cB.closed⟩
          = (cB.points ++ cA.points.reverse) ++ interiorW (cB.points ++ cA.points.reverse)
      rw [occs_open ⟨cB.points ++ cA.points.reverse, cB.closed⟩ hB]
    rw [hocc, if_neg (by simp), if_neg (by simp), occs_open cA hA, occs_open cB hB]
    refine ((occsW_append cB.points cA.points.reverse hlB hlAr).trans ?_)
    rw [headPt_reverse]
    refine (List.Perm.cons _ (List.Perm.cons _ (List.Perm.append
      (List.Perm.refl _) (occsW_reverse cA.points)))).trans ?_
    show (cB.tailP :: cA.tailP ::
        ((cB.points ++ interiorW cB.points) ++ (cA.points ++ interiorW cA.points))).Perm
      (cA.tailP :: cB.tailP ::
        ((cA.points ++ interiorW cA.points) ++ (cB.points ++ interiorW cB.points)))
    rw [← Multiset.coe_eq_coe]
    simp only [← Multiset.cons_coe, ← Multiset.coe_add, ← Multiset.singleton_add,
      Multiset.coe_nil, add_zero]
    abel
  · have hocc : occs (mergeCh cA cB false true)
        = (cA.points ++ cB.points) ++ interiorW (cA.points ++ cB.points) := by
      show occs ⟨cA.points ++ cB.points, cA.closed⟩
          = (cA.points ++ cB.points) ++ interiorW (cA.points ++ cB.points)
      rw [occs_open ⟨cA.points ++ cB.points, cA.closed⟩ hA]
    rw [hocc, if_neg (by simp), if_pos rfl, occs_open cA hA, occs_open cB hB]
    exact occsW_append cA.points cB.points hlA hlB
  · have hocc : occs (mergeCh cA cB true false)
        = (cB.points ++ cA.points) ++ interiorW (cB.points ++ cA.points) := by
      show occs ⟨cB.points ++ cA.points, cB.closed⟩
          = (cB.points ++ cA.points) ++ interiorW (cB.points ++ cA.points)
      rw [occs_open ⟨cB.points ++ cA.points, cB.closed⟩ hB]
    rw [hocc, if_pos rfl, if_neg (by simp), occs_open cA hA, occs_open cB hB]
    refine ((occsW_append cB.points cA.points hlB hlA).trans ?_)
    show (cB.tailP :: cA.headP ::
        ((cB.points ++ interiorW cB.points) ++ (cA.points ++ interiorW cA.points))).Perm
      (cA.headP :: cB.tailP ::
        ((cA.points ++ interiorW cA.points) ++ (cB.points ++ interiorW cB.points)))
    rw [← Multiset.coe_eq_coe]
    simp only [← Multiset.cons_coe, ← Multiset.coe_add, ← Multiset.singleton_add,
      Multiset.coe_nil, add_zero]
    abel
  · have hocc : occs (mergeCh cA cB true true)
        = (cA.points.reverse ++ cB.points) ++ interiorW (cA.points.reverse ++ cB.points) := by
      show occs ⟨cA.points.reverse ++ cB.points, cA.closed⟩
          = (cA.points.reverse ++ cB.points) ++ interiorW (cA.points.reverse ++ cB.points)
      rw [occs_open ⟨cA.points.reverse ++ cB.points, cA.closed⟩ hA]
    rw [hocc, if_pos rfl, if_pos rfl, occs_open cA hA, occs_open cB hB]
    refine ((occsW_append cA.points.reverse cB.points hlAr hlB).trans ?_)
    rw [lastPt_reverse]
    exact List.Perm.cons _ (List.Perm.cons _ (List.Perm.append
      (occsW_reverse cA.points) (List.Perm.refl _)))

theorem headP_mem_occs (c : Chain) (hcl : c.closed = false) (hlen : 2 ≤ c.points.length) :
    c.headP ∈ occs c := by
  rw [occs_open c hcl]
  exact List.mem_append_left _ (headPt_mem _ (by intro h; rw [h] at hlen; simp at hlen))

theorem tailP_mem_occs (c : Chain) (hcl : c.closed = false) (hlen : 2 ≤ c.points.length) :
    c.tailP ∈ occs c := by
  rw [occs_open c hcl]
  exact List.mem_append_left _ (lastPt_mem _ (by intro h; rw [h] at hlen; simp at hlen))

theorem lastPt_mem_drop_one (w : List Point) (h : 2 ≤ w.length) :
    lastPt w ∈ w.drop 1 := by
  cases w with
  | nil => simp at h
  | cons a t =>
    have ht : t ≠ [] := by
      cases t with
      | nil => simp at h
      | cons b u => simp
    rw [List.drop_one, List.tail_cons, lastPt_cons a t ht]
    exact lastPt_mem t ht

/-- A closed chain carries its (single) end value at least twice among its
accounted occurrences. -/
theorem closed_count_two (c : Chain) (hcl : c.closed = true) (hlen : 2 ≤ c.points.length)
    (hw : headPt c.points = lastPt c.points) (v : Point)
    (hv : v = c.headP ∨ v = c.tailP) : 2 ≤ (occs c).count v := by
  have hvl : v = lastPt c.points := by
    rcases hv with h | h
    · rw [h]; exact hw
    · rw [h]; rfl
  rw [occs_closed c hcl, List.count_append]
  have hm : v ∈ c.points.drop 1 := by rw [hvl]; exact lastPt_mem_drop_one _ hlen
  have h1 : 1 ≤ (c.points.drop 1).count v := List.one_le_count_iff.mpr hm
  omega

/-- The occurrences of the chain at one position count into the state's. -/
theorem count_stateOccs_of_getElem? {s : List Chain} {i : Nat} {c : Chain}
    (h : s[i]? = some c) (v : Point) :
    (occs c).count v ≤ (stateOccs s).count v := by
  have hi : i < s.length := (List.getElem?_eq_some_iff.mp h).1
  have hperm := stateOccs_perm (permExtract s i hi)
  rw [hperm.count_eq, getIdx_eq_of_getElem? h, stateOccs_cons, List.count_append]
  omega

/-- The occurrences of the chains at two distinct positions count into the
state's. -/
theorem count_stateOccs_two {s : List Chain} {i j : Nat} {ci cj : Chain}
    (hij : i ≠ j) (hi : s[i]? = some ci) (hj : s[j]? = some cj) (v : Point) :
    (occs ci).count v + (occs cj).count v ≤ (stateOccs s).count v := by
  obtain ⟨r, hr1, -⟩ := extract2 s i j hij (List.getElem?_eq_some_iff.mp hi).1
    (List.getElem?_eq_some_iff.mp hj).1
  have hperm := stateOccs_perm hr1
  rw [hperm.count_eq, getIdx_eq_of_getElem? hi, getIdx_eq_of_getElem? hj,
    stateOccs_cons, stateOccs_cons, List.count_append, List.count_append]
  omega

/-- Under the invariant, a future endpoint can only match an open chain, and
only by exact slot-value equality: closed chains are dead to the scan, and
ε-coincidence means equality. -/
theorem match_open {s : List Chain} {rest : List (Point × Point)} (inv : StInv s rest)
    {v : Point} (hv : v ∈ endPts rest) {i : Nat} {c : Chain} (hc : s[i]? = some c)
    (hm : pointsEqual v c.headP = true ∨ pointsEqual v c.tailP = true) :
    c.closed = false ∧
    (pointsEqual v c.headP = true → v = c.headP) ∧
    (pointsEqual v c.tailP = true → v = c.tailP) := by
  have hmem : c ∈ s := List.getElem?_mem hc
  have hlen := inv.twoLe c hmem
  have hvL : v ∈ stateOccs s ++ endPts rest := List.mem_append_right _ hv
  cases hcl : c.closed with
  | false =>
    refine ⟨rfl, ?_, ?_⟩
    · intro hpe
      have hocc : c.headP ∈ occs c := headP_mem_occs c hcl hlen
      have hL : c.headP ∈ stateOccs s ++ endPts rest :=
        List.mem_append_left _ (List.mem_flatMap.mpr ⟨c, hmem, hocc⟩)
      exact (inv.sep v hvL _ hL).mp hpe
    · intro hpe
      have hocc : c.tailP ∈ occs c := tailP_mem_occs c hcl hlen
      have hL : c.tailP ∈ stateOccs s ++ endPts rest :=
        List.mem_append_left _ (List.mem_flatMap.mpr ⟨c, hmem, hocc⟩)
      exact (inv.sep v hvL _ hL).mp hpe
  | true =>
    exfalso
    have hw := inv.wrap c hmem hcl
    have hht : c.headP = c.tailP := hw
    have ht2 : 2 ≤ (occs c).count c.tailP := closed_count_two c hcl hlen hw _ (Or.inr rfl)
    have hpe : pointsEqual v c.tailP = true := by
      rcases hm with h | h
      · rw [← hht]; exact h
      · exact h
    have htocc : c.tailP ∈ occs c := List.count_pos_iff.mp (by omega)
    have htL : c.tailP ∈ stateOccs s ++ endPts rest :=
      List.mem_append_left _ (List.mem_flatMap.mpr ⟨c, hmem, htocc⟩)
    have hveq : v = c.tailP := (inv.sep v hvL _ htL).mp hpe
    have hceil := inv.deg v
    rw [List.count_append] at hceil
    have h1 : 2 ≤ (stateOccs s).count v := by
      calc 2 ≤ (occs c).count v := by rw [hveq]; exact ht2
      _ ≤ (stateOccs s).count v := count_stateOccs_of_getElem? hc v
    have h2 : 1 ≤ (endPts rest).count v := List.one_le_count_iff.mpr hv
    omega

/-- Under the invariant, at most one chain-list position matches a future
endpoint: two matching positions would exhibit a value of degree three. -/
theorem match_unique {s : List Chain} {rest : List (Point × Point)} (inv : StInv s rest)
    {v : Point} (hv : v ∈ endPts rest) {i j : Nat} {ci cj : Chain}
    (hi : s[i]? = some ci) (hj : s[j]? = some cj)
    (hmi : pointsEqual v ci.headP = true ∨ pointsEqual v ci.tailP = true)
    (hmj : pointsEqual v cj.headP = true ∨ pointsEqual v cj.tailP = true) : i = j := by
  by_contra hij
  obtain ⟨hcli, hhi, hti⟩ := match_open inv hv hi hmi
  obtain ⟨hclj, hhj, htj⟩ := match_open inv hv hj hmj
  have hleni := inv.twoLe ci (List.getElem?_mem hi)
  have hlenj := inv.twoLe cj (List.getElem?_mem hj)
  have hvi : v ∈ occs ci := by
    rcases hmi with h | h
    · rw [hhi h]; exact headP_mem_occs ci hcli hleni
    · rw [hti h]; exact tailP_mem_occs ci hcli hleni
  have hvj : v ∈ occs cj := by
    rcases hmj with h | h
    · rw [hhj h]; exact headP_mem_occs cj hclj hlenj
    · rw [htj h]; exact tailP_mem_occs cj hclj hlenj
  have h1 : 1 ≤ (occs ci).count v := List.one_le_count_iff.mpr hvi
  have h2 : 1 ≤ (occs cj).count v := List.one_le_count_iff.mpr hvj
  have h3 := count_stateOccs_two hij hi hj v
  have h4 : 1 ≤ (endPts rest).count v := List.one_le_count_iff.mpr hv
  have hceil := inv.deg v
  rw [List.count_append] at hceil
  omega

/-- The scan reports position `k` whenever chain `k` matches and no earlier
chain does; the flag records whether the head slot matched. -/
theorem firstMatchFrom_spec (v : Point) :
    ∀ (l : List Chain) (k : Nat) (C : Chain), l[k]? = some C →
      (pointsEqual v C.headP = true ∨ pointsEqual v C.tailP = true) →
      (∀ k2, k2 < k → ∀ E, l[k2]? = some E →
        pointsEqual v E.headP = false ∧ pointsEqual v E.tailP = false) →
      firstMatchFrom v l 0 = some (k, pointsEqual v C.headP) := by
  intro l
  induction l with
  | nil => intro k C h _ _; simp at h
  | cons e t ih =>
    intro k C hk hm hearlier
    cases k with
    | zero =>
      simp only [List.getElem?_cons_zero, Option.some.injEq] at hk
      subst hk
      rcases hh : pointsEqual v e.headP with _ | _
      · rcases hm with h | h
        · simp [hh] at h
        · simp [firstMatchFrom, hh, h]
      · simp [firstMatchFrom, hh]
    | succ k =>
      have he := hearlier 0 (Nat.succ_pos k) e (by simp)
      have hk' : t[k]? = some C := by simpa using hk
      have hearlier' : ∀ k2, k2 < k → ∀ E, t[k2]? = some E →
          pointsEqual v E.headP = false ∧ pointsEqual v E.tailP = false := by
        intro k2 hk2 E hE
        exact hearlier (k2 + 1) (by omega) E (by simpa using hE)
      have hstep : firstMatchFrom v (e :: t) 0 = firstMatchFrom v t 1 := by
        simp [firstMatchFrom, he.1, he.2]
      rw [hstep, firstMatchFrom_shift v t 1, ih k C hk' hm hearlier']
      simp

/-- Under the invariant, any chain matching a future endpoint is THE scan
result for that endpoint. -/
theorem fm_of_match {s : List Chain} {rest : List (Point × Point)} (inv : StInv s rest)
    {v : Point} (hv : v ∈ endPts rest) {k : Nat} {C : Chain}
    (hk : s[k]? = some C)
    (hm : pointsEqual v C.headP = true ∨ pointsEqual v C.tailP = true) :
    firstMatchFrom v s 0 = some (k, pointsEqual v C.headP) := by
  refine firstMatchFrom_spec v s k C hk hm ?_
  intro k2 hk2 E hE
  by_contra hco
  have hmE : pointsEqual v E.headP = true ∨ pointsEqual v E.tailP = true := by
    rcases hE1 : pointsEqual v E.headP with _ | _
    · rcases hE2 : pointsEqual v E.tailP with _ | _
      · exact absurd ⟨hE1, hE2⟩ hco
      · exact Or.inr rfl
    · exact Or.inl rfl
  have := match_unique inv hv hE hk hmE hm
  omega

/-- `pointsEqual` is reflexive (distance zero is below `EPSILON`). -/
theorem pointsEqual_refl (p : Point) : pointsEqual p p = true := by
  norm_num [pointsEqual, EPSILON]

theorem count_headPt_two (w : List Point) (h : 2 ≤ w.length)
    (hw : headPt w = lastPt w) : 2 ≤ w.count (headPt w) := by
  cases w with
  | nil => simp at h
  | cons a t =>
    have ht : t ≠ [] := by
      cases t with
      | nil => simp at h
      | cons b u => simp
    simp only [headPt] at hw ⊢
    rw [List.count_cons_self]
    have hlast : lastPt (a :: t) = lastPt t := lastPt_cons a t ht
    have hmem : a ∈ t := by rw [hw, hlast]; exact lastPt_mem t ht
    have := List.one_le_count_iff.mpr hmem
    omega

/-- An open walk whose two free ends carry the same value holds that value at
least twice among its accounted occurrences. -/
theorem open_count_two (c : Chain) (hcl : c.closed = false) (hlen : 2 ≤ c.points.length)
    (hw : c.headP = c.tailP) : 2 ≤ (occs c).count c.headP := by
  rw [occs_open c hcl, List.count_append]
  simp only [Chain.headP, Chain.tailP] at hw ⊢
  have h1 := count_headPt_two c.points hlen hw
  omega

/-- Under the invariant, the two free ends of an open chain carry distinct
values whenever a future endpoint sits on one of them. -/
theorem open_head_ne_tail {s : List Chain} {rest : List (Point × Point)}
    (inv : StInv s rest) {v : Point} (hv : v ∈ endPts rest) {C : Chain}
    (hC : C ∈ s) (hcl : C.closed = false) (hvt : v = C.tailP) : v ≠ C.headP := by
  intro hvh
  have hlen := inv.twoLe C hC
  have hw : C.headP = C.tailP := by rw [← hvh, hvt]
  have h2 := open_count_two C hcl hlen hw
  rw [← hvh] at h2
  obtain ⟨i, hi⟩ := List.getElem?_of_mem hC
  have h3 := count_stateOccs_of_getElem? hi v
  have hceil := inv.deg v
  rw [List.count_append] at hceil
  have h4 : 1 ≤ (endPts rest).count v := List.one_le_count_iff.mpr hv
  omega

/-- Value-level scan determination: a future endpoint equal to some member
chain's head value is matched there, with the prepend flag set. -/
theorem fm_of_mem_head {s : List Chain} {rest : List (Point × Point)}
    (inv : StInv s rest) {v : Point} (hv : v ∈ endPts rest)
    {C : Chain} (hC : C ∈ s) (h : v = C.headP) :
    ∃ k, s[k]? = some C ∧ firstMatchFrom v s 0 = some (k, true) := by
  obtain ⟨k, hk⟩ := List.getElem?_of_mem hC
  refine ⟨k, hk, ?_⟩
  have hpe : pointsEqual v C.headP = true := by rw [h]; exact pointsEqual_refl _
  have hres := fm_of_match inv hv hk (Or.inl hpe)
  rw [hres, hpe]

/-- Value-level scan determination: a future endpoint equal to some member
chain's tail value is matched there, with the prepend flag clear. -/
theorem fm_of_mem_tail {s : List Chain} {rest : List (Point × Point)}
    (inv : StInv s rest) {v : Point} (hv : v ∈ endPts rest)
    {C : Chain} (hC : C ∈ s) (h : v = C.tailP) :
    ∃ k, s[k]? = some C ∧ firstMatchFrom v s 0 = some (k, false) := by
  obtain ⟨k, hk⟩ := List.getElem?_of_mem hC
  refine ⟨k, hk, ?_⟩
  have hpe : pointsEqual v C.tailP = true := by rw [h]; exact pointsEqual_refl _
  have hres := fm_of_match inv hv hk (Or.inr hpe)
  have hcl : C.closed = false := (match_open inv hv hk (Or.inr hpe)).1
  have hne : v ≠ C.headP := open_head_ne_tail inv hv hC hcl h
  have hflag : pointsEqual v C.headP = false := by
    rcases hf : pointsEqual v C.headP with _ | _
    · rfl
    · exact absurd ((match_open inv hv hk (Or.inr hpe)).2.1 hf) hne
  rw [hres, hflag]

/-- Value-level scan determination: a future endpoint equal to no member
chain's end value is unmatched. -/
theorem fm_none_of {s : List Chain} {rest : List (Point × Point)}
    (inv : StInv s rest) {v : Point} (hv : v ∈ endPts rest)
    (h : ∀ c ∈ s, v ≠ c.headP ∧ v ≠ c.tailP) :
    firstMatchFrom v s 0 = none := by
  rcases hf : firstMatchFrom v s 0 with _ | ⟨k, flag⟩
  · rfl
  · exfalso
    obtain ⟨ch, hch, h1, h2⟩ := firstMatchFrom_sound v s k flag hf
    have hm : pointsEqual v ch.headP = true ∨ pointsEqual v ch.tailP = true := by
      cases flag
      · exact Or.inr (h2 rfl).2
      · exact Or.inl (h1 rfl)
    obtain ⟨hcl, hh, ht⟩ := match_open inv hv hch hm
    have hmem : ch ∈ s := List.getElem?_mem hch
    rcases hm with hpe | hpe
    · exact (h ch hmem).1 (hh hpe)
    · exact (h ch hmem).2 (ht hpe)

/-- Value-level scan soundness: under the invariant a reported match names an
open, well-formed chain whose flagged end value IS the endpoint. -/
theorem fm_sound_inv {s : List Chain} {rest : List (Point × Point)}
    (inv : StInv s rest) {v : Point} (hv : v ∈ endPts rest)
    {k : Nat} {flag : Bool} (h : firstMatchFrom v s 0 = some (k, flag)) :
    ∃ C, s[k]? = some C ∧ C.closed = false ∧ 2 ≤ C.points.length ∧
      (flag = true → v = C.headP) ∧ (flag = false → v = C.tailP) := by
  obtain ⟨C, hC, h1, h2⟩ := firstMatchFrom_sound v s k flag h
  have hm : pointsEqual v C.headP = true ∨ pointsEqual v C.tailP = true := by
    cases flag
    · exact Or.inr (h2 rfl).2
    · exact Or.inl (h1 rfl)
  obtain ⟨hcl, hh, ht⟩ := match_open inv hv hC hm
  exact ⟨C, hC, hcl, inv.twoLe C (List.getElem?_mem hC), fun hfl => hh (h1 hfl),
    fun hfl => ht (h2 hfl).2⟩

/-- `chainEq` for open chains from equal-or-reversed walks. -/
theorem chainEq_open_of {c1 c2 : Chain} (h1 : c1.closed = false) (h2 : c2.closed = false)
    (h : c1.points = c2.points ∨ c1.points = c2.points.reverse) : chainEq c1 c2 := by
  refine ⟨by rw [h1, h2], by simp [h1], by simp [h2], ?_⟩
  rw [if_neg (by simp [h1])]
  exact h

/-- `chainEq` for closed chains from matching edge and vertex multisets. -/
theorem chainEq_closed_of {c1 c2 : Chain} (h1 : c1.closed = true) (h2 : c2.closed = true)
    (hw1 : headPt c1.points = lastPt c1.points) (hw2 : headPt c2.points = lastPt c2.points)
    (he : (cycleEdges c1.points).Perm (cycleEdges c2.points))
    (hv : (c1.points.drop 1).Perm (c2.points.drop 1)) : chainEq c1 c2 := by
  refine ⟨by rw [h1, h2], fun _ => hw1, fun _ => hw2, ?_⟩
  rw [if_pos h1]
  exact ⟨he, hv⟩

/-- Inverting `chainEq` at an open left chain. -/
theorem chainEq_open_elim {c1 c2 : Chain} (h : chainEq c1 c2) (h1 : c1.closed = false) :
    c2.closed = false ∧ (c1.points = c2.points ∨ c1.points = c2.points.reverse) := by
  obtain ⟨hc, -, -, hrest⟩ := h
  rw [if_neg (by simp [h1])] at hrest
  exact ⟨by rw [← hc, h1], hrest⟩

theorem extendCh_closed (c : Chain) (pa : Bool) (q : Point) :
    (extendCh c pa q).closed = c.closed := by
  cases pa <;> simp [extendCh]

theorem extendCh_len (c : Chain) (pa : Bool) (q : Point) :
    (extendCh c pa q).points.length = c.points.length + 1 := by
  cases pa <;> simp [extendCh]

/-- Canonical walk of the extension step: the new point first, then the chain
oriented so its matched end comes first. -/
theorem extendCh_points (c : Chain) (pa : Bool) (q : Point) :
    (extendCh c pa q).points = q :: (if pa then c.points else c.points.reverse)
      ∨ (extendCh c pa q).points
          = (q :: (if pa then c.points else c.points.reverse)).reverse := by
  cases pa
  · right; simp [extendCh]
  · left; simp [extendCh]

/-- Canonical walk of the merge step: `cA` oriented with its matched end last,
then `cB` oriented with its matched end first. -/
def glueW (cA cB : Chain) (pa pb : Bool) : List Point :=
  (if pa then cA.points.reverse else cA.points)
    ++ (if pb then cB.points else cB.points.reverse)

theorem mergeCh_closed (cA cB : Chain) (pa pb : Bool) (hA : cA.closed = false)
    (hB : cB.closed = false) : (mergeCh cA cB pa pb).closed = false := by
  cases pa <;> cases pb <;> simp [mergeCh, hA, hB]

theorem mergeCh_len (cA cB : Chain) (pa pb : Bool) :
    (mergeCh cA cB pa pb).points.length = cA.points.length + cB.points.length := by
  cases pa <;> cases pb <;> simp [mergeCh] <;> omega

theorem mergeCh_points (cA cB : Chain) (pa pb : Bool) :
    (mergeCh cA cB pa pb).points = glueW cA cB pa pb
      ∨ (mergeCh cA cB pa pb).points = (glueW cA cB pa pb).reverse := by
  cases pa <;> cases pb
  · right; simp [mergeCh, glueW, List.reverse_append]
  · left; simp [mergeCh, glueW]
  · right; simp [mergeCh, glueW, List.reverse_append]
  · left; simp [mergeCh, glueW]

/-- Reversing the left input while flipping its flag leaves the canonical
merged walk unchanged. -/
theorem glueW_flip_left {cA cA' : Chain} (cB : Chain) (pa pb : Bool)
    (h : cA.points = cA'.points.reverse) :
    glueW cA cB pa pb = glueW cA' cB (!pa) pb := by
  cases pa <;> simp [glueW, h]

/-- Reversing the right input while flipping its flag leaves the canonical
merged walk unchanged. -/
theorem glueW_flip_right (cA : Chain) {cB cB' : Chain} (pa pb : Bool)
    (h : cB.points = cB'.points.reverse) :
    glueW cA cB pa pb = glueW cA cB' pa (!pb) := by
  cases pb <;> simp [glueW, h]

theorem endPts_cons (a b : Point) (rest : List (Point × Point)) :
    endPts ((a, b) :: rest) = a :: b :: endPts rest := by
  simp [endPts]

theorem closeCh_len (c : Chain) : (closeCh c).points.length = c.points.length + 1 := by
  simp [closeCh]

theorem closeCh_wrap (c : Chain) (h : c.points ≠ []) :
    headPt (closeCh c).points = lastPt (closeCh c).points := by
  show headPt (c.tailP :: c.points) = lastPt (c.tailP :: c.points)
  rw [lastPt_cons _ _ h]
  rfl

theorem mem_of_mem_eraseIdx {l : List Chain} {i : Nat} {c : Chain}
    (h : c ∈ l.eraseIdx i) : c ∈ l :=
  (List.eraseIdx_sublist l i).subset h

/-- Rebuild the invariant for the successor state from per-chain facts and
occurrence conservation. -/
theorem stinv_rebuild {s s' : List Chain} {a b : Point} {rest : List (Point × Point)}
    (inv : StInv s ((a, b) :: rest))
    (htwo : ∀ c ∈ s', 2 ≤ c.points.length)
    (hwrap : ∀ c ∈ s', c.closed = true → headPt c.points = lastPt c.points)
    (hocc : (stateOccs s' ++ endPts rest).Perm (stateOccs s ++ endPts ((a, b) :: rest))) :
    StInv s' rest :=
  ⟨htwo, hwrap, sepOn_perm hocc.symm inv.sep, deg2On_perm hocc.symm inv.deg⟩

/-- The invariant is preserved by one `addSegment` step: the new or modified
chain accounts exactly for the two consumed endpoint occurrences. -/
theorem stinv_step {a b : Point} {cb : ContourBuilder} {rest : List (Point × Point)}
    (inv : StInv cb.s ((a, b) :: rest)) : StInv (addSegment a b cb).s rest := by
  have ha_mem : a ∈ endPts ((a, b) :: rest) := by
    rw [endPts_cons]; exact List.mem_cons_self _ _
  have hb_mem : b ∈ endPts ((a, b) :: rest) := by
    rw [endPts_cons]; exact List.mem_cons_of_mem _ (List.mem_cons_self _ _)
  rcases hfa : firstMatchFrom a cb.s 0 with _ | ⟨i, pa⟩ <;>
    rcases hfb : firstMatchFrom b cb.s 0 with _ | ⟨j, pb⟩
  · -- case 0: fresh two-point chain
    have hres := step_case0 a b cb hfa hfb
    refine stinv_rebuild inv ?_ ?_ ?_
    · rw [hres]
      intro c hc
      rcases List.mem_cons.mp hc with h | h
      · subst h; simp
      · exact inv.twoLe c h
    · rw [hres]
      intro c hc hclc
      rcases List.mem_cons.mp hc with h | h
      · subst h; simp at hclc
      · exact inv.wrap c h hclc
    · rw [hres, stateOccs_cons, endPts_cons]
      have hoccN : occs ⟨[a, b], false⟩ = [a, b] := by
        rw [occs_open _ rfl]
        simp [interiorW]
      rw [hoccN]
      rw [← Multiset.coe_eq_coe]
      simp only [← Multiset.cons_coe, ← Multiset.coe_add, ← Multiset.singleton_add,
        Multiset.coe_nil, add_zero]
      abel
  · -- case 2: b matched, extend with a
    obtain ⟨C, hC, hcl, hlen, hhead, htail⟩ := fm_sound_inv inv hb_mem hfb
    have hres := step_case2 a b cb j pb hfa hfb
    rw [getIdx_eq_of_getElem? hC] at hres
    refine stinv_perm hres.symm (List.Perm.refl rest) ?_
    refine stinv_rebuild inv ?_ ?_ ?_
    · intro c hc
      rcases List.mem_cons.mp hc with h | h
      · subst h; rw [extendCh_len]; omega
      · exact inv.twoLe c (mem_of_mem_eraseIdx h)
    · intro c hc hclc
      rcases List.mem_cons.mp hc with h | h
      · subst h; rw [extendCh_closed, hcl] at hclc; simp at hclc
      · exact inv.wrap c (mem_of_mem_eraseIdx h) hclc
    · rw [stateOccs_cons, endPts_cons]
      have hjunction : (if pb then C.headP else C.tailP) = b := by
        cases pb
        · simpa using (htail rfl).symm
        · simpa using (hhead rfl).symm
      have hext := occs_extendCh C pb a hcl hlen
      rw [hjunction] at hext
      have hsplit : (stateOccs cb.s).Perm (occs C ++ stateOccs (cb.s.eraseIdx j)) := by
        have hj : j < cb.s.length := (List.getElem?_eq_some_iff.mp hC).1
        have hp := stateOccs_perm (permExtract cb.s j hj)
        rw [getIdx_eq_of_getElem? hC, stateOccs_cons] at hp
        exact hp
      refine ((hext.append (List.Perm.refl _)).append (List.Perm.refl _)).trans ?_
      refine List.Perm.trans ?_ (hsplit.symm.append (List.Perm.refl _))
      rw [← Multiset.coe_eq_coe]
      simp only [← Multiset.cons_coe, ← Multiset.coe_add, ← Multiset.singleton_add,
        Multiset.coe_nil, add_zero]
      abel
  · -- case 1: a matched, extend with b
    obtain ⟨C, hC, hcl, hlen, hhead, htail⟩ := fm_sound_inv inv ha_mem hfa
    have hres := step_case1 a b cb i pa hfa hfb
    rw [getIdx_eq_of_getElem? hC] at hres
    refine stinv_perm hres.symm (List.Perm.refl rest) ?_
    refine stinv_rebuild inv ?_ ?_ ?_
    · intro c hc
      rcases List.mem_cons.mp hc with h | h
      · subst h; rw [extendCh_len]; omega
      · exact inv.twoLe c (mem_of_mem_eraseIdx h)
    · intro c hc hclc
      rcases List.mem_cons.mp hc with h | h
      · subst h; rw [extendCh_closed, hcl] at hclc; simp at hclc
      · exact inv.wrap c (mem_of_mem_eraseIdx h) hclc
    · rw [stateOccs_cons, endPts_cons]
      have hjunction : (if pa then C.headP else C.tailP) = a := by
        cases pa
        · simpa using (htail rfl).symm
        · simpa using (hhead rfl).symm
      have hext := occs_extendCh C pa b hcl hlen
      rw [hjunction] at hext
      have hsplit : (stateOccs cb.s).Perm (occs C ++ stateOccs (cb.s.eraseIdx i)) := by
        have hi : i < cb.s.length := (List.getElem?_eq_some_iff.mp hC).1
        have hp := stateOccs_perm (permExtract cb.s i hi)
        rw [getIdx_eq_of_getElem? hC, stateOccs_cons] at hp
        exact hp
      refine ((hext.append (List.Perm.refl _)).append (List.Perm.refl _)).trans ?_
      refine List.Perm.trans ?_ (hsplit.symm.append (List.Perm.refl _))
      rw [← Multiset.coe_eq_coe]
      simp only [← Multiset.cons_coe, ← Multiset.coe_add, ← Multiset.singleton_add,
        Multiset.coe_nil, add_zero]
      abel
  · -- case 3
    obtain ⟨C, hC, hclA, hlenA, hheadA, htailA⟩ := fm_sound_inv inv ha_mem hfa
    obtain ⟨C', hC', hclB, hlenB, hheadB, htailB⟩ := fm_sound_inv inv hb_mem hfb
    by_cases hij : i = j
    · -- same chain: close
      subst hij
      have hCC : C = C' := by
        rw [hC] at hC'
        exact Option.some.inj hC'
      subst hCC
      have hjunc : (a = C.headP ∧ b = C.tailP) ∨ (a = C.tailP ∧ b = C.headP) := by
        cases pa <;> cases pb
        · exfalso
          have ha' : a = C.tailP := htailA rfl
          have hb' : b = C.tailP := htailB rfl
          have h1 : C.tailP ∈ occs C := tailP_mem_occs C hclA hlenA
          have h2 : 1 ≤ (occs C).count C.tailP := List.one_le_count_iff.mpr h1
          have h3 := count_stateOccs_of_getElem? hC C.tailP
          have hceil := inv.deg C.tailP
          rw [List.count_append, endPts_cons] at hceil
          have h4 : 2 ≤ (a :: b :: endPts rest).count C.tailP := by
            rw [ha', hb', List.count_cons_self, List.count_cons_self]
            omega
          omega
        · exact Or.inr ⟨htailA rfl, hheadB rfl⟩
        · exact Or.inl ⟨hheadA rfl, htailB rfl⟩
        · exfalso
          have ha' : a = C.headP := hheadA rfl
          have hb' : b = C.headP := hheadB rfl
          have h1 : C.headP ∈ occs C := headP_mem_occs C hclA hlenA
          have h2 : 1 ≤ (occs C).count C.headP := List.one_le_count_iff.mpr h1
          have h3 := count_stateOccs_of_getElem? hC C.headP
          have hceil := inv.deg C.headP
          rw [List.count_append, endPts_cons] at hceil
          have h4 : 2 ≤ (a :: b :: endPts rest).count C.headP := by
            rw [ha', hb', List.count_cons_self, List.count_cons_self]
            omega
          omega
      have hres := step_close a b cb i pa pb hfa hfb
      rw [getIdx_eq_of_getElem? hC] at hres
      refine stinv_perm hres.symm (List.Perm.refl rest) ?_
      refine stinv_rebuild inv ?_ ?_ ?_
      · intro c hc
        rcases List.mem_cons.mp hc with h | h
        · subst h; rw [closeCh_len]; omega
        · exact inv.twoLe c (mem_of_mem_eraseIdx h)
      · intro c hc hclc
        rcases List.mem_cons.mp hc with h | h
        · subst h
          exact closeCh_wrap C (by intro hnil; rw [hnil] at hlenA; simp at hlenA)
        · exact inv.wrap c (mem_of_mem_eraseIdx h) hclc
      · rw [stateOccs_cons, endPts_cons]
        have hcc := occs_closeCh C hclA hlenA
        have hcc2 : (occs (closeCh C)).Perm (a :: b :: occs C) := by
          rcases hjunc with ⟨ha', hb'⟩ | ⟨ha', hb'⟩
          · rw [← ha', ← hb'] at hcc
            exact hcc
          · rw [← ha', ← hb'] at hcc
            exact hcc.trans (List.Perm.swap _ _ _)
        have hsplit : (stateOccs cb.s).Perm (occs C ++ stateOccs (cb.s.eraseIdx i)) := by
          have hi : i < cb.s.length := (List.getElem?_eq_some_iff.mp hC).1
          have hp := stateOccs_perm (permExtract cb.s i hi)
          rw [getIdx_eq_of_getElem? hC, stateOccs_cons] at hp
          exact hp
        refine ((hcc2.append (List.Perm.refl _)).append (List.Perm.refl _)).trans ?_
        refine List.Perm.trans ?_ (hsplit.symm.append (List.Perm.refl _))
        rw [← Multiset.coe_eq_coe]
        simp only [← Multiset.cons_coe, ← Multiset.coe_add, ← Multiset.singleton_add,
          Multiset.coe_nil, add_zero]
        abel
    · -- distinct chains: merge
      obtain ⟨r, hr1, hr2⟩ := step_merge a b cb i j pa pb hfa hfb hij
      rw [getIdx_eq_of_getElem? hC, getIdx_eq_of_getElem? hC'] at hr1 hr2
      refine stinv_perm hr2.symm (List.Perm.refl rest) ?_
      refine stinv_rebuild inv ?_ ?_ ?_
      · intro c hc
        rcases List.mem_cons.mp hc with h | h
        · subst h; rw [mergeCh_len]; omega
        · exact inv.twoLe c (hr1.mem_iff.mpr
            (List.mem_cons_of_mem _ (List.mem_cons_of_mem _ h)))
      · intro c hc hclc
        rcases List.mem_cons.mp hc with h | h
        · subst h; rw [mergeCh_closed C C' pa pb hclA hclB] at hclc; simp at hclc
        · exact inv.wrap c (hr1.mem_iff.mpr
            (List.mem_cons_of_mem _ (List.mem_cons_of_mem _ h))) hclc
      · rw [stateOccs_cons, endPts_cons]
        have hmm := occs_mergeCh C C' pa pb hclA hclB hlenA hlenB
        have hja : (if pa then C.headP else C.tailP) = a := by
          cases pa
          · simpa using (htailA rfl).symm
          · simpa using (hheadA rfl).symm
        have hjb : (if pb then C'.headP else C'.tailP) = b := by
          cases pb
          · simpa using (htailB rfl).symm
          · simpa using (hheadB rfl).symm
        rw [hja, hjb] at hmm
        have hsplit : (stateOccs cb.s).Perm (occs C ++ (occs C' ++ stateOccs r)) := by
          have hp := stateOccs_perm hr1
          rw [stateOccs_cons, stateOccs_cons] at hp
          exact hp
        refine ((hmm.append (List.Perm.refl _)).append (List.Perm.refl _)).trans ?_
        refine List.Perm.trans ?_ (hsplit.symm.append (List.Perm.refl _))
        rw [← Multiset.coe_eq_coe]
        simp only [← Multiset.cons_coe, ← Multiset.coe_add, ← Multiset.singleton_add,
          Multiset.coe_nil, add_zero]
        abel

theorem ne_of_pe_false {p q : Point} (h : pointsEqual p q = false) : p ≠ q := by
  intro he
  rw [he, pointsEqual_refl] at h
  simp at h

/-- Under the invariant, a future endpoint differs from both slot values of
every closed chain. -/
theorem closed_no_end_eq {s : List Chain} {rest : List (Point × Point)}
    (inv : StInv s rest) {v : Point} (hv : v ∈ endPts rest) {c : Chain}
    (hc : c ∈ s) (hcl : c.closed = true) : v ≠ c.headP ∧ v ≠ c.tailP := by
  obtain ⟨k, hk⟩ := List.getElem?_of_mem hc
  constructor
  · intro he
    have h1 := (match_open inv hv hk (Or.inl (by rw [he]; exact pointsEqual_refl _))).1
    rw [hcl] at h1
    simp at h1
  · intro he
    have h1 := (match_open inv hv hk (Or.inr (by rw [he]; exact pointsEqual_refl _))).1
    rw [hcl] at h1
    simp at h1

theorem forall₂_chainEq_mem_left : ∀ {m s2 : List Chain},
    List.Forall₂ chainEq m s2 → ∀ {c}, c ∈ m → ∃ c2 ∈ s2, chainEq c c2 := by
  intro m s2 h
  induction h with
  | nil => intro c hc; simp at hc
  | cons hc ht ih =>
    intro c hcm
    rcases List.mem_cons.mp hcm with h | h
    · subst h; exact ⟨_, List.mem_cons_self _ _, hc⟩
    · obtain ⟨c2, hc2, heq⟩ := ih h
      exact ⟨c2, List.mem_cons_of_mem _ hc2, heq⟩

theorem forall₂_exchange_left {m m' b : List Chain} (hp : m.Perm m')
    (hf : List.Forall₂ chainEq m b) :
    ∃ b', b.Perm b' ∧ List.Forall₂ chainEq m' b' := by
  obtain ⟨d, hbd, hdm'⟩ := forall₂_chainEq_exchange hp (forall₂_chainEq_symm hf)
  exact ⟨d, hbd, forall₂_chainEq_symm hdm'⟩

/-- A related pair of states pairs each member of the left with a member of
the right. -/
theorem seq_mem_fwd {s1 s2 : List Chain} (h : SEq s1 s2) {c1 : Chain} (hc1 : c1 ∈ s1) :
    ∃ c2 ∈ s2, chainEq c1 c2 := by
  obtain ⟨mid, hp, hf⟩ := h
  exact forall₂_chainEq_mem_left hf (hp.mem_iff.mp hc1)

theorem seq_mem_rev {s1 s2 : List Chain} (h : SEq s1 s2) {c2 : Chain} (hc2 : c2 ∈ s2) :
    ∃ c1 ∈ s1, chainEq c1 c2 := by
  obtain ⟨c1, hc1, heq⟩ := seq_mem_fwd (seq_symm h) hc2
  exact ⟨c1, hc1, chainEq_symm heq⟩

/-- Pull one chain out of a related pair of states: its partner can be pulled
out of the other side, leaving related remainders. -/
theorem seq_extract {C1 : Chain} {t1 s2 : List Chain} (h : SEq (C1 :: t1) s2) :
    ∃ C2 t2, s2.Perm (C2 :: t2) ∧ chainEq C1 C2 ∧ SEq t1 t2 := by
  obtain ⟨mid, hperm, hf⟩ := h
  have hC1m : C1 ∈ mid := hperm.mem_iff.mp (List.mem_cons_self _ _)
  have hmid : mid.Perm (C1 :: mid.erase C1) := List.perm_cons_erase hC1m
  obtain ⟨b', hb', hf'⟩ := forall₂_exchange_left hmid hf
  cases hf' with
  | cons hc ht =>
    rename_i C2 t2
    exact ⟨C2, t2, hb', hc, ⟨mid.erase C1, (hperm.trans hmid).cons_inv, ht⟩⟩

theorem seq_of_perm_left {s1 s1' s2 : List Chain} (hp : s1.Perm s1') (h : SEq s1' s2) :
    SEq s1 s2 := by
  obtain ⟨mid, hm, hf⟩ := h
  exact ⟨mid, hp.trans hm, hf⟩

theorem seq_of_perm_right {s1 s2 s2' : List Chain} (h : SEq s1 s2) (hp : s2.Perm s2')
    (hw : ∀ c ∈ s2', c.closed = true → headPt c.points = lastPt c.points) : SEq s1 s2' :=
  seq_trans h (seq_of_perm hp hw)

/-- The walk of a chain oriented so that the matched end (head when the flag
is set) comes first. -/
def orientFrom (c : Chain) (p : Bool) : List Point :=
  if p then c.points else c.points.reverse

theorem glueW_eq_orient (cA cB : Chain) (pa pb : Bool) :
    glueW cA cB pa pb = (orientFrom cA pa).reverse ++ orientFrom cB pb := by
  cases pa <;> cases pb <;> simp [glueW, orientFrom]

/-- Transfer of a scan match along `chainEq`: the partner chain is matched at
the corresponding end, and the two matched-end-first orientations agree. -/
theorem match_transfer {s2 : List Chain} {rest2 : List (Point × Point)}
    (inv2 : StInv s2 rest2) {v : Point} (hv : v ∈ endPts rest2)
    {C1 C2 : Chain} (hc2 : C2 ∈ s2) (heq : chainEq C1 C2) (hcl1 : C1.closed = false)
    {p1 : Bool} (hval : (if p1 then C1.headP else C1.tailP) = v) :
    ∃ k2 f2, s2[k2]? = some C2 ∧ firstMatchFrom v s2 0 = some (k2, f2) ∧
      orientFrom C2 f2 = orientFrom C1 p1 := by
  obtain ⟨hcl2, hor⟩ := chainEq_open_elim heq hcl1
  rcases hor with hor | hor
  · cases p1
    · have hv2 : v = C2.tailP := by
        rw [← hval]
        show C1.tailP = C2.tailP
        simp [Chain.tailP, hor]
      obtain ⟨k, hk, hfm⟩ := fm_of_mem_tail inv2 hv hc2 hv2
      exact ⟨k, false, hk, hfm, by simp [orientFrom, hor]⟩
    · have hv2 : v = C2.headP := by
        rw [← hval]
        show C1.headP = C2.headP
        simp [Chain.headP, hor]
      obtain ⟨k, hk, hfm⟩ := fm_of_mem_head inv2 hv hc2 hv2
      exact ⟨k, true, hk, hfm, by simp [orientFrom, hor]⟩
  · cases p1
    · have hv2 : v = C2.headP := by
        rw [← hval]
        show C1.tailP = C2.headP
        simp only [Chain.tailP, Chain.headP, hor]
        exact lastPt_reverse C2.points
      obtain ⟨k, hk, hfm⟩ := fm_of_mem_head inv2 hv hc2 hv2
      refine ⟨k, true, hk, hfm, ?_⟩
      simp [orientFrom, hor]
    · have hv2 : v = C2.tailP := by
        rw [← hval]
        show C1.headP = C2.tailP
        simp only [Chain.headP, Chain.tailP, hor]
        exact headPt_reverse C2.points
      obtain ⟨k, hk, hfm⟩ := fm_of_mem_tail inv2 hv hc2 hv2
      refine ⟨k, false, hk, hfm, ?_⟩
      simp [orientFrom, hor]

/-- Transfer of a scan miss along `SEq`: if no chain of the left state
matches, none of the right state does. -/
theorem none_transfer {s1 s2 : List Chain} {rest2 : List (Point × Point)}
    (hseq : SEq s1 s2) (inv2 : StInv s2 rest2)
    {v : Point} (hv2 : v ∈ endPts rest2)
    (h : firstMatchFrom v s1 0 = none) : firstMatchFrom v s2 0 = none := by
  apply fm_none_of inv2 hv2
  intro c2 hc2
  obtain ⟨c1, hc1, heq⟩ := seq_mem_rev hseq hc2
  rcases hcl1 : c1.closed with _ | _
  · obtain ⟨hcl2, hor⟩ := chainEq_open_elim heq hcl1
    have h1 := (firstMatchFrom_eq_none v s1 0).mp h c1 hc1
    have hne1 : v ≠ c1.headP := ne_of_pe_false h1.1
    have hne2 : v ≠ c1.tailP := ne_of_pe_false h1.2
    constructor
    · intro he
      rcases hor with hor | hor
      · apply hne1
        rw [he]
        show c2.headP = c1.headP
        simp [Chain.headP, hor]
      · apply hne2
        rw [he]
        show c2.headP = c1.tailP
        simp only [Chain.headP, Chain.tailP, hor]
        exact (lastPt_reverse c2.points).symm
    · intro he
      rcases hor with hor | hor
      · apply hne2
        rw [he]
        show c2.tailP = c1.tailP
        simp [Chain.tailP, hor]
      · apply hne1
        rw [he]
        show c2.tailP = c1.headP
        simp only [Chain.tailP, Chain.headP, hor]
        exact (headPt_reverse c2.points).symm
  · have hcl2 : c2.closed = true := by rw [← heq.1]; exact hcl1
    exact closed_no_end_eq inv2 hv2 hc2 hcl2

/-- Extending partner chains at corresponding ends with the same point gives
`chainEq` results. -/
theorem extendCh_chainEq {C1 C2 : Chain} (q : Point) {f1 f2 : Bool}
    (hcl1 : C1.closed = false) (hcl2 : C2.closed = false)
    (hor : orientFrom C1 f1 = orientFrom C2 f2) :
    chainEq (extendCh C1 f1 q) (extendCh C2 f2 q) := by
  apply chainEq_open_of
  · rw [extendCh_closed]; exact hcl1
  · rw [extendCh_closed]; exact hcl2
  · have e1 := extendCh_points C1 f1 q
    have e2 := extendCh_points C2 f2 q
    rw [show (if f1 then C1.points else C1.points.reverse) = orientFrom C1 f1 from rfl] at e1
    rw [show (if f2 then C2.points else C2.points.reverse) = orientFrom C2 f2 from rfl] at e2
    rcases e1 with h1 | h1 <;> rcases e2 with h2 | h2
    · left; rw [h1, h2, hor]
    · right; rw [h1, h2, hor, List.reverse_reverse]
    · right; rw [h1, h2, hor]
    · left; rw [h1, h2, hor]

/-- Closing partner open chains gives `chainEq` closed results. -/
theorem closeCh_chainEq {C1 C2 : Chain} (hcl1 : C1.closed = false) (hcl2 : C2.closed = false)
    (hlen1 : 2 ≤ C1.points.length) (hlen2 : 2 ≤ C2.points.length)
    (hor : C1.points = C2.points ∨ C1.points = C2.points.reverse) :
    chainEq (closeCh C1) (closeCh C2) := by
  have hne1 : C1.points ≠ [] := by intro h; rw [h] at hlen1; simp at hlen1
  have hne2 : C2.points ≠ [] := by intro h; rw [h] at hlen2; simp at hlen2
  refine chainEq_closed_of rfl rfl (closeCh_wrap C1 hne1) (closeCh_wrap C2 hne2) ?_ ?_
  · rcases hor with hor | hor
    · have hpts : (closeCh C1).points = (closeCh C2).points := by
        show C1.tailP :: C1.points = C2.tailP :: C2.points
        have ht : C1.tailP = C2.tailP := by simp [Chain.tailP, hor]
        rw [ht, hor]
      rw [hpts]
    · show (cycleEdges (C1.tailP :: C1.points)).Perm (cycleEdges (C2.tailP :: C2.points))
      have ht1 : C1.tailP = headPt C2.points := by
        simp only [Chain.tailP, hor]
        exact lastPt_reverse C2.points
      rw [hor, ht1]
      rw [cycleEdges_cons _ _ (by simpa using hne2), cycleEdges_cons _ _ hne2]
      rw [headPt_reverse C2.points]
      have hnp : normPair (headPt C2.points) (lastPt C2.points)
          = normPair C2.tailP (headPt C2.points) := by
        rw [normPair_comm]
        rfl
      rw [hnp]
      exact (cycleEdges_reverse C2.points).cons _
  · show ((C1.tailP :: C1.points).drop 1).Perm ((C2.tailP :: C2.points).drop 1)
    simp only [List.drop_one, List.tail_cons]
    rcases hor with hor | hor
    · rw [hor]
    · rw [hor]
      exact C2.points.reverse_perm

/-- Merging partner chain pairs at corresponding ends gives `chainEq`
results. -/
theorem mergeCh_chainEq {A1 B1 A2 B2 : Chain} {pa1 pb1 pa2 pb2 : Bool}
    (hA1 : A1.closed = false) (hB1 : B1.closed = false)
    (hA2 : A2.closed = false) (hB2 : B2.closed = false)
    (horA : orientFrom A1 pa1 = orientFrom A2 pa2)
    (horB : orientFrom B1 pb1 = orientFrom B2 pb2) :
    chainEq (mergeCh A1 B1 pa1 pb1) (mergeCh A2 B2 pa2 pb2) := by
  have hg : glueW A1 B1 pa1 pb1 = glueW A2 B2 pa2 pb2 := by
    rw [glueW_eq_orient, glueW_eq_orient, horA, horB]
  apply chainEq_open_of (mergeCh_closed _ _ _ _ hA1 hB1) (mergeCh_closed _ _ _ _ hA2 hB2)
  rcases mergeCh_points A1 B1 pa1 pb1 with h1 | h1 <;>
    rcases mergeCh_points A2 B2 pa2 pb2 with h2 | h2
  · left; rw [h1, h2, hg]
  · right; rw [h1, h2, hg, List.reverse_reverse]
  · right; rw [h1, h2, hg]
  · left; rw [h1, h2, hg]

theorem or_rev_symm {w1 w2 : List Point} (h : w1 = w2 ∨ w1 = w2.reverse) :
    w2 = w1 ∨ w2 = w1.reverse := by
  rcases h with h | h
  · exact Or.inl h.symm
  · right
    rw [h, List.reverse_reverse]

/-- Transport of an end value along an equal-or-reversed walk relation. -/
theorem end_transfer {C1 C2 : Chain}
    (h : C1.points = C2.points ∨ C1.points = C2.points.reverse) {v : Point}
    (hv : v = C1.headP ∨ v = C1.tailP) : v = C2.headP ∨ v = C2.tailP := by
  rcases h with h | h <;> rcases hv with hv | hv
  · left; rw [hv]; show C1.headP = C2.headP; simp [Chain.headP, h]
  · right; rw [hv]; show C1.tailP = C2.tailP; simp [Chain.tailP, h]
  · right
    rw [hv]
    show C1.headP = C2.tailP
    simp only [Chain.headP, Chain.tailP, h]
    exact headPt_reverse C2.points
  · left
    rw [hv]
    show C1.tailP = C2.headP
    simp only [Chain.tailP, Chain.headP, h]
    exact lastPt_reverse C2.points

/-- Two endpoints of one segment cannot land on one and the same occupied
value. -/
theorem no_double_end {s : List Chain} {rest : List (Point × Point)} {a b : Point}
    (inv : StInv s ((a, b) :: rest)) {i : Nat} {C : Chain}
    (hC : s[i]? = some C) {v : Point} (hvocc : v ∈ occs C)
    (ha' : a = v) (hb' : b = v) : False := by
  have h2 : 1 ≤ (occs C).count v := List.one_le_count_iff.mpr hvocc
  have h3 := count_stateOccs_of_getElem? hC v
  have hceil := inv.deg v
  rw [List.count_append, endPts_cons] at hceil
  have h4 : 2 ≤ (a :: b :: endPts rest).count v := by
    rw [ha', hb', List.count_cons_self, List.count_cons_self]
    omega
  omega

/-- In the close case the two endpoints sit on the two opposite ends of the
matched chain. -/
theorem close_junc {s : List Chain} {rest : List (Point × Point)} {a b : Point}
    (inv : StInv s ((a, b) :: rest)) {i : Nat} {pa pb : Bool} {C : Chain}
    (hC : s[i]? = some C)
    (hfa : firstMatchFrom a s 0 = some (i, pa))
    (hfb : firstMatchFrom b s 0 = some (i, pb)) :
    (a = C.headP ∧ b = C.tailP) ∨ (a = C.tailP ∧ b = C.headP) := by
  have ha_mem : a ∈ endPts ((a, b) :: rest) := by
    rw [endPts_cons]; exact List.mem_cons_self _ _
  have hb_mem : b ∈ endPts ((a, b) :: rest) := by
    rw [endPts_cons]; exact List.mem_cons_of_mem _ (List.mem_cons_self _ _)
  obtain ⟨C1, hC1, hcl1, hlen1, hh1, ht1⟩ := fm_sound_inv inv ha_mem hfa
  obtain ⟨C2, hC2, hcl2, hlen2, hh2, ht2⟩ := fm_sound_inv inv hb_mem hfb
  have e1 : C1 = C := by rw [hC] at hC1; exact (Option.some.inj hC1).symm
  have e2 : C2 = C := by rw [hC] at hC2; exact (Option.some.inj hC2).symm
  rw [e1] at hcl1 hlen1 hh1 ht1
  rw [e2] at hh2 ht2
  cases pa <;> cases pb
  · exact (no_double_end inv hC (tailP_mem_occs C hcl1 hlen1) (ht1 rfl) (ht2 rfl)).elim
  · exact Or.inr ⟨ht1 rfl, hh2 rfl⟩
  · exact Or.inl ⟨hh1 rfl, ht2 rfl⟩
  · exact (no_double_end inv hC (headP_mem_occs C hcl1 hlen1) (hh1 rfl) (hh2 rfl)).elim

theorem pe_or_of_val {v : Point} {C : Chain} (h : v = C.headP ∨ v = C.tailP) :
    pointsEqual v C.headP = true ∨ pointsEqual v C.tailP = true := by
  rcases h with h | h
  · left; rw [h]; exact pointsEqual_refl _
  · right; rw [h]; exact pointsEqual_refl _

theorem pe_or_of_fm {s : List Chain} {rest : List (Point × Point)}
    (inv : StInv s rest) {v : Point} (hv : v ∈ endPts rest) {k : Nat} {flag : Bool}
    (h : firstMatchFrom v s 0 = some (k, flag)) :
    ∃ E, s[k]? = some E ∧
      (pointsEqual v E.headP = true ∨ pointsEqual v E.tailP = true) := by
  obtain ⟨E, hE, -, -, hh, ht⟩ := fm_sound_inv inv hv h
  refine ⟨E, hE, ?_⟩
  cases flag
  · exact pe_or_of_val (Or.inr (ht rfl))
  · exact pe_or_of_val (Or.inl (hh rfl))

/-- One `addSegment` step is a congruence for state equivalence: related
states with the invariant step to related states. -/
theorem step_congr {a b : Point} {cb1 cb2 : ContourBuilder}
    {r1 r2 : List (Point × Point)}
    (hseq : SEq cb1.s cb2.s)
    (inv1 : StInv cb1.s ((a, b) :: r1)) (inv2 : StInv cb2.s ((a, b) :: r2)) :
    SEq (addSegment a b cb1).s (addSegment a b cb2).s := by
  have ha1 : a ∈ endPts ((a, b) :: r1) := by
    rw [endPts_cons]; exact List.mem_cons_self _ _
  have hb1 : b ∈ endPts ((a, b) :: r1) := by
    rw [endPts_cons]; exact List.mem_cons_of_mem _ (List.mem_cons_self _ _)
  have ha2 : a ∈ endPts ((a, b) :: r2) := by
    rw [endPts_cons]; exact List.mem_cons_self _ _
  have hb2 : b ∈ endPts ((a, b) :: r2) := by
    rw [endPts_cons]; exact List.mem_cons_of_mem _ (List.mem_cons_self _ _)
  rcases hfa : firstMatchFrom a cb1.s 0 with _ | ⟨i, pa⟩ <;>
    rcases hfb : firstMatchFrom b cb1.s 0 with _ | ⟨j, pb⟩
  · -- both fresh in both states
    have hfa2 := none_transfer hseq inv2 ha2 hfa
    have hfb2 := none_transfer hseq inv2 hb2 hfb
    rw [step_case0 a b cb1 hfa hfb, step_case0 a b cb2 hfa2 hfb2]
    exact seq_cons (chainEq_open_of rfl rfl (Or.inl rfl)) hseq
  · -- b matched, a fresh in both states
    obtain ⟨B1, hB1, hclB1, hlenB1, hhB1, htB1⟩ := fm_sound_inv inv1 hb1 hfb
    have hvalB : (if pb then B1.headP else B1.tailP) = b := by
      cases pb
      · simpa using (htB1 rfl).symm
      · simpa using (hhB1 rfl).symm
    have hj : j < cb1.s.length := (List.getElem?_eq_some_iff.mp hB1).1
    have hperm1 : cb1.s.Perm (B1 :: cb1.s.eraseIdx j) := by
      have hp := permExtract cb1.s j hj
      rw [getIdx_eq_of_getElem? hB1] at hp
      exact hp
    have hseq' : SEq (B1 :: cb1.s.eraseIdx j) cb2.s := seq_of_perm_left hperm1.symm hseq
    obtain ⟨B2, t2, hs2p, heqB, hseqrem⟩ := seq_extract hseq'
    have hB2mem : B2 ∈ cb2.s := hs2p.mem_iff.mpr (List.mem_cons_self _ _)
    obtain ⟨k2, f2, hk2, hfm2, hor⟩ := match_transfer inv2 hb2 hB2mem heqB hclB1 hvalB
    have hfa2 := none_transfer hseq inv2 ha2 hfa
    have hres1 := step_case2 a b cb1 j pb hfa hfb
    rw [getIdx_eq_of_getElem? hB1] at hres1
    have hres2 := step_case2 a b cb2 k2 f2 hfa2 hfm2
    rw [getIdx_eq_of_getElem? hk2] at hres2
    have hk2len : k2 < cb2.s.length := (List.getElem?_eq_some_iff.mp hk2).1
    have hperm2 : cb2.s.Perm (B2 :: cb2.s.eraseIdx k2) := by
      have hp := permExtract cb2.s k2 hk2len
      rw [getIdx_eq_of_getElem? hk2] at hp
      exact hp
    have hrem : t2.Perm (cb2.s.eraseIdx k2) := (hs2p.symm.trans hperm2).cons_inv
    refine seq_of_perm_left hres1 (seq_of_perm_right ?_ hres2.symm (stinv_step inv2).wrap)
    refine seq_cons (extendCh_chainEq a hclB1 (chainEq_open_elim heqB hclB1).1 hor.symm) ?_
    exact seq_of_perm_right hseqrem hrem (fun c hc => inv2.wrap c (mem_of_mem_eraseIdx hc))
  · -- a matched, b fresh in both states
    obtain ⟨A1, hA1, hclA1, hlenA1, hhA1, htA1⟩ := fm_sound_inv inv1 ha1 hfa
    have hvalA : (if pa then A1.headP else A1.tailP) = a := by
      cases pa
      · simpa using (htA1 rfl).symm
      · simpa using (hhA1 rfl).symm
    have hi : i < cb1.s.length := (List.getElem?_eq_some_iff.mp hA1).1
    have hperm1 : cb1.s.Perm (A1 :: cb1.s.eraseIdx i) := by
      have hp := permExtract cb1.s i hi
      rw [getIdx_eq_of_getElem? hA1] at hp
      exact hp
    have hseq' : SEq (A1 :: cb1.s.eraseIdx i) cb2.s := seq_of_perm_left hperm1.symm hseq
    obtain ⟨A2, t2, hs2p, heqA, hseqrem⟩ := seq_extract hseq'
    have hA2mem : A2 ∈ cb2.s := hs2p.mem_iff.mpr (List.mem_cons_self _ _)
    obtain ⟨k2, f2, hk2, hfm2, hor⟩ := match_transfer inv2 ha2 hA2mem heqA hclA1 hvalA
    have hfb2 := none_transfer hseq inv2 hb2 hfb
    have hres1 := step_case1 a b cb1 i pa hfa hfb
    rw [getIdx_eq_of_getElem? hA1] at hres1
    have hres2 := step_case1 a b cb2 k2 f2 hfm2 hfb2
    rw [getIdx_eq_of_getElem? hk2] at hres2
    have hk2len : k2 < cb2.s.length := (List.getElem?_eq_some_iff.mp hk2).1
    have hperm2 : cb2.s.Perm (A2 :: cb2.s.eraseIdx k2) := by
      have hp := permExtract cb2.s k2 hk2len
      rw [getIdx_eq_of_getElem? hk2] at hp
      exact hp
    have hrem : t2.Perm (cb2.s.eraseIdx k2) := (hs2p.symm.trans hperm2).cons_inv
    refine seq_of_perm_left hres1 (seq_of_perm_right ?_ hres2.symm (stinv_step inv2).wrap)
    refine seq_cons (extendCh_chainEq b hclA1 (chainEq_open_elim heqA hclA1).1 hor.symm) ?_
    exact seq_of_perm_right hseqrem hrem (fun c hc => inv2.wrap c (mem_of_mem_eraseIdx hc))
  · -- both matched
    by_cases hij : i = j
    · -- same chain: close in both states
      subst hij
      obtain ⟨C1, hC1, hcl1, hlen1, hh1, ht1⟩ := fm_sound_inv inv1 ha1 hfa
      have hjunc := close_junc inv1 hC1 hfa hfb
      have hi : i < cb1.s.length := (List.getElem?_eq_some_iff.mp hC1).1
      have hperm1 : cb1.s.Perm (C1 :: cb1.s.eraseIdx i) := by
        have hp := permExtract cb1.s i hi
        rw [getIdx_eq_of_getElem? hC1] at hp
        exact hp
      have hseq' : SEq (C1 :: cb1.s.eraseIdx i) cb2.s := seq_of_perm_left hperm1.symm hseq
      obtain ⟨C2, t2, hs2p, heqC, hseqrem⟩ := seq_extract hseq'
      have hC2mem : C2 ∈ cb2.s := hs2p.mem_iff.mpr (List.mem_cons_self _ _)
      obtain ⟨hclC2, horC⟩ := chainEq_open_elim heqC hcl1
      have hlenC2 := inv2.twoLe C2 hC2mem
      rcases hjunc with ⟨hja, hjb⟩ | ⟨hja, hjb⟩
      · obtain ⟨ka, fa2, hka, hfma, -⟩ := match_transfer inv2 ha2 hC2mem heqC hcl1
          (show (if true then C1.headP else C1.tailP) = a from by simpa using hja.symm)
        obtain ⟨kb, fb2, hkb, hfmb, -⟩ := match_transfer inv2 hb2 hC2mem heqC hcl1
          (show (if false then C1.headP else C1.tailP) = b from by simpa using hjb.symm)
        have hbC2 : b = C2.headP ∨ b = C2.tailP := end_transfer horC (Or.inr hjb)
        obtain ⟨E, hE, hmE⟩ := pe_or_of_fm inv2 hb2 hfmb
        have hkk : ka = kb := match_unique inv2 hb2 hka hE (pe_or_of_val hbC2) hmE
        rw [← hkk] at hfmb
        have hres1 := step_close a b cb1 i pa pb hfa hfb
        rw [getIdx_eq_of_getElem? hC1] at hres1
        have hres2 := step_close a b cb2 ka fa2 fb2 hfma hfmb
        rw [getIdx_eq_of_getElem? hka] at hres2
        have hkalen : ka < cb2.s.length := (List.getElem?_eq_some_iff.mp hka).1
        have hperm2 : cb2.s.Perm (C2 :: cb2.s.eraseIdx ka) := by
          have hp := permExtract cb2.s ka hkalen
          rw [getIdx_eq_of_getElem? hka] at hp
          exact hp
        have hrem : t2.Perm (cb2.s.eraseIdx ka) := (hs2p.symm.trans hperm2).cons_inv
        refine seq_of_perm_left hres1 (seq_of_perm_right ?_ hres2.symm (stinv_step inv2).wrap)
        refine seq_cons (closeCh_chainEq hcl1 hclC2 hlen1 hlenC2 horC) ?_
        exact seq_of_perm_right hseqrem hrem
          (fun c hc => inv2.wrap c (mem_of_mem_eraseIdx hc))
      · obtain ⟨ka, fa2, hka, hfma, -⟩ := match_transfer inv2 ha2 hC2mem heqC hcl1
          (show (if false then C1.headP else C1.tailP) = a from by simpa using hja.symm)
        obtain ⟨kb, fb2, hkb, hfmb, -⟩ := match_transfer inv2 hb2 hC2mem heqC hcl1
          (show (if true then C1.headP else C1.tailP) = b from by simpa using hjb.symm)
        have hbC2 : b = C2.headP ∨ b = C2.tailP := end_transfer horC (Or.inl hjb)
        obtain ⟨E, hE, hmE⟩ := pe_or_of_fm inv2 hb2 hfmb
        have hkk : ka = kb := match_unique inv2 hb2 hka hE (pe_or_of_val hbC2) hmE
        rw [← hkk] at hfmb
        have hres1 := step_close a b cb1 i pa pb hfa hfb
        rw [getIdx_eq_of_getElem? hC1] at hres1
        have hres2 := step_close a b cb2 ka fa2 fb2 hfma hfmb
        rw [getIdx_eq_of_getElem? hka] at hres2
        have hkalen : ka < cb2.s.length := (List.getElem?_eq_some_iff.mp hka).1
        have hperm2 : cb2.s.Perm (C2 :: cb2.s.eraseIdx ka) := by
          have hp := permExtract cb2.s ka hkalen
          rw [getIdx_eq_of_getElem? hka] at hp
          exact hp
        have hrem : t2.Perm (cb2.s.eraseIdx ka) := (hs2p.symm.trans hperm2).cons_inv
        refine seq_of_perm_left hres1 (seq_of_perm_right ?_ hres2.symm (stinv_step inv2).wrap)
        refine seq_cons (closeCh_chainEq hcl1 hclC2 hlen1 hlenC2 horC) ?_
        exact seq_of_perm_right hseqrem hrem
          (fun c hc => inv2.wrap c (mem_of_mem_eraseIdx hc))
    · -- distinct chains: merge in both states
      obtain ⟨A1, hA1, hclA1, hlenA1, hhA1, htA1⟩ := fm_sound_inv inv1 ha1 hfa
      obtain ⟨B1, hB1, hclB1, hlenB1, hhB1, htB1⟩ := fm_sound_inv inv1 hb1 hfb
      have hvalA : (if pa then A1.headP else A1.tailP) = a := by
        cases pa
        · simpa using (htA1 rfl).symm
        · simpa using (hhA1 rfl).symm
      have hvalB : (if pb then B1.headP else B1.tailP) = b := by
        cases pb
        · simpa using (htB1 rfl).symm
        · simpa using (hhB1 rfl).symm
      obtain ⟨r, hr1, hr2⟩ := step_merge a b cb1 i j pa pb hfa hfb hij
      rw [getIdx_eq_of_getElem? hA1, getIdx_eq_of_getElem? hB1] at hr1 hr2
      have hseq' : SEq (A1 :: B1 :: r) cb2.s := seq_of_perm_left hr1.symm hseq
      obtain ⟨A2, t2, hs2pA, heqA, hseqA⟩ := seq_extract hseq'
      obtain ⟨B2, t2', hs2pB, heqB, hseqB⟩ := seq_extract hseqA
      have hA2mem : A2 ∈ cb2.s := hs2pA.mem_iff.mpr (List.mem_cons_self _ _)
      have hB2mem : B2 ∈ cb2.s := by
        have h1 : B2 ∈ t2 := hs2pB.mem_iff.mpr (List.mem_cons_self _ _)
        exact hs2pA.mem_iff.mpr (List.mem_cons_of_mem _ h1)
      obtain ⟨hclA2, horA⟩ := chainEq_open_elim heqA hclA1
      obtain ⟨hclB2, horB⟩ := chainEq_open_elim heqB hclB1
      obtain ⟨ka, fa2, hka, hfma, horFA⟩ := match_transfer inv2 ha2 hA2mem heqA hclA1 hvalA
      obtain ⟨kb, fb2, hkb, hfmb, horFB⟩ := match_transfer inv2 hb2 hB2mem heqB hclB1 hvalB
      have hkk : ka ≠ kb := by
        intro he
        rw [he] at hka
        have hAB : A2 = B2 := by rw [hka] at hkb; exact Option.some.inj hkb
        have hbB1 : b = B1.headP ∨ b = B1.tailP := by
          cases pb
          · exact Or.inr (htB1 rfl)
          · exact Or.inl (hhB1 rfl)
        have hbB2 : b = B2.headP ∨ b = B2.tailP := end_transfer horB hbB1
        have hbA2 : b = A2.headP ∨ b = A2.tailP := by rw [hAB]; exact hbB2
        have hbA1 : b = A1.headP ∨ b = A1.tailP :=
          end_transfer (or_rev_symm horA) hbA2
        exact hij (match_unique inv1 hb1 hA1 hB1 (pe_or_of_val hbA1) (pe_or_of_val hbB1))
      obtain ⟨r2', hr1', hr2'⟩ := step_merge a b cb2 ka kb fa2 fb2 hfma hfmb hkk
      rw [getIdx_eq_of_getElem? hka, getIdx_eq_of_getElem? hkb] at hr1' hr2'
      have hrem : t2'.Perm r2' := by
        have h2 : cb2.s.Perm (A2 :: B2 :: t2') := hs2pA.trans (hs2pB.cons A2)
        exact ((h2.symm.trans hr1').cons_inv).cons_inv
      refine seq_of_perm_left hr2 (seq_of_perm_right ?_ hr2'.symm (stinv_step inv2).wrap)
      refine seq_cons (mergeCh_chainEq hclA1 hclB1 hclA2 hclB2 horFA.symm horFB.symm) ?_
      exact seq_of_perm_right hseqB hrem
        (fun c hc => inv2.wrap c (hr1'.mem_iff.mpr
          (List.mem_cons_of_mem _ (List.mem_cons_of_mem _ hc))))

theorem endPts_cons2 (a b x y : Point) (rest : List (Point × Point)) :
    endPts ((a, b) :: (x, y) :: rest) = a :: b :: x :: y :: endPts rest := by
  simp [endPts]

theorem fm_none_vals {v : Point} {s : List Chain}
    (h : firstMatchFrom v s 0 = none) :
    ∀ c ∈ s, v ≠ c.headP ∧ v ≠ c.tailP := by
  intro c hc
  have hh := (firstMatchFrom_eq_none v s 0).mp h c hc
  exact ⟨ne_of_pe_false hh.1, ne_of_pe_false hh.2⟩

theorem count_cons_le (p v : Point) (l : List Point) : l.count v ≤ (p :: l).count v := by
  rw [List.count_cons]
  split <;> omega

/-- Three coincident endpoint slots among the next two segments contradict
the degree bound. -/
theorem deg_endpts3 {s : List Chain} {a b x y : Point} {rest : List (Point × Point)}
    (inv : StInv s ((a, b) :: (x, y) :: rest)) {v : Point}
    (h3 : 3 ≤ (a :: b :: x :: y :: endPts rest).count v) : False := by
  have hd := inv.deg v
  rw [List.count_append, endPts_cons2] at hd
  omega

/-- The walk of an open chain, up to reversal. -/
def WalkIs (c : Chain) (W : List Point) : Prop :=
  c.points = W ∨ c.points = W.reverse

theorem walkIs_refl (c : Chain) : WalkIs c c.points := Or.inl rfl

theorem walkIs_rev {c : Chain} {W : List Point} (h : WalkIs c W) : WalkIs c W.reverse := by
  rcases h with h | h
  · exact Or.inr (by rw [h, List.reverse_reverse])
  · exact Or.inl h

theorem walkIs_to_or {c1 c2 : Chain} {W : List Point} (h1 : WalkIs c1 W) (h2 : WalkIs c2 W) :
    c1.points = c2.points ∨ c1.points = c2.points.reverse := by
  rcases h1 with h1 | h1 <;> rcases h2 with h2 | h2
  · exact Or.inl (by rw [h1, h2])
  · exact Or.inr (by rw [h1, h2, List.reverse_reverse])
  · exact Or.inr (by rw [h1, h2])
  · exact Or.inl (by rw [h1, h2])

theorem chainEq_of_walkIs {c1 c2 : Chain} {W : List Point} (h1cl : c1.closed = false)
    (h2cl : c2.closed = false) (h1 : WalkIs c1 W) (h2 : WalkIs c2 W) : chainEq c1 c2 :=
  chainEq_open_of h1cl h2cl (walkIs_to_or h1 h2)

/-- A value different from both free ends of a chain's walk differs from the
chain's two slot values. -/
theorem ends_of_walk {c : Chain} {W : List Point} (hW : WalkIs c W) {v : Point}
    (h1 : v ≠ headPt W) (h2 : v ≠ lastPt W) : v ≠ c.headP ∧ v ≠ c.tailP := by
  rcases hW with hW | hW
  · constructor
    · intro he; apply h1; rw [he]; show c.headP = headPt W; simp [Chain.headP, hW]
    · intro he; apply h2; rw [he]; show c.tailP = lastPt W; simp [Chain.tailP, hW]
  · constructor
    · intro he
      apply h2
      rw [he]
      show c.headP = lastPt W
      simp only [Chain.headP, hW]
      rw [← headPt_reverse W]
    · intro he
      apply h1
      rw [he]
      show c.tailP = headPt W
      simp only [Chain.tailP, hW]
      rw [← lastPt_reverse W]

/-- Scan determination keyed on an abstract flag-end equation. -/
theorem fm_of_mem_val {s : List Chain} {rest : List (Point × Point)}
    (inv : StInv s rest) {v : Point} (hv : v ∈ endPts rest)
    {C : Chain} (hC : C ∈ s) {p : Bool}
    (hval : (if p then C.headP else C.tailP) = v) :
    ∃ k, s[k]? = some C ∧ firstMatchFrom v s 0 = some (k, p) := by
  cases p
  · exact fm_of_mem_tail inv hv hC (by simpa using hval.symm)
  · exact fm_of_mem_head inv hv hC (by simpa using hval.symm)

/-- Scan determination keyed on a walk-level head value: the reported
orientation puts the matched end first. -/
theorem fm_walk_head {s : List Chain} {rest : List (Point × Point)}
    (inv : StInv s rest) {v : Point} (hv : v ∈ endPts rest)
    {C : Chain} (hC : C ∈ s) {W : List Point} (hW : WalkIs C W)
    (hval : v = headPt W) :
    ∃ k f, s[k]? = some C ∧ firstMatchFrom v s 0 = some (k, f) ∧ orientFrom C f = W := by
  rcases hW with hW | hW
  · have hv2 : v = C.headP := by
      rw [hval]
      show headPt W = C.headP
      simp [Chain.headP, hW]
    obtain ⟨k, hk, hfm⟩ := fm_of_mem_head inv hv hC hv2
    exact ⟨k, true, hk, hfm, by simp [orientFrom, hW]⟩
  · have hv2 : v = C.tailP := by
      rw [hval]
      show headPt W = C.tailP
      simp only [Chain.tailP, hW]
      exact (lastPt_reverse W).symm
    obtain ⟨k, hk, hfm⟩ := fm_of_mem_tail inv hv hC hv2
    exact ⟨k, false, hk, hfm, by simp [orientFrom, hW]⟩

/-- Scan determination keyed on a walk-level last value: the reported
orientation is the reversed walk. -/
theorem fm_walk_last {s : List Chain} {rest : List (Point × Point)}
    (inv : StInv s rest) {v : Point} (hv : v ∈ endPts rest)
    {C : Chain} (hC : C ∈ s) {W : List Point} (hW : WalkIs C W)
    (hval : v = lastPt W) :
    ∃ k f, s[k]? = some C ∧ firstMatchFrom v s 0 = some (k, f)
      ∧ orientFrom C f = W.reverse := by
  refine fm_walk_head inv hv hC (walkIs_rev hW) ?_
  rw [hval]
  exact (headPt_reverse W).symm

theorem glueW_swap (cA cB : Chain) (pa pb : Bool) :
    glueW cB cA pb pa = (glueW cA cB pa pb).reverse := by
  cases pa <;> cases pb <;> simp [glueW, List.reverse_append]

theorem mergeCh_swap_chainEq {cA cB : Chain} (pa pb : Bool)
    (hA : cA.closed = false) (hB : cB.closed = false) :
    chainEq (mergeCh cA cB pa pb) (mergeCh cB cA pb pa) := by
  apply chainEq_open_of (mergeCh_closed _ _ _ _ hA hB) (mergeCh_closed _ _ _ _ hB hA)
  rcases mergeCh_points cA cB pa pb with h1 | h1 <;>
    rcases mergeCh_points cB cA pb pa with h2 | h2 <;>
    rw [glueW_swap cA cB pa pb] at h2
  · right; rw [h1, h2, List.reverse_reverse]
  · left; rw [h1, h2, List.reverse_reverse]
  · left; rw [h1, h2]
  · right; rw [h1, h2, List.reverse_reverse]

theorem stinv_flip {s : List Chain} {a b : Point} {rest : List (Point × Point)}
    (inv : StInv s ((a, b) :: rest)) : StInv s ((b, a) :: rest) := by
  have hp : (endPts ((a, b) :: rest)).Perm (endPts ((b, a) :: rest)) := by
    rw [endPts_cons, endPts_cons]
    exact List.Perm.swap b a (endPts rest)
  have hocc : (stateOccs s ++ endPts ((a, b) :: rest)).Perm
      (stateOccs s ++ endPts ((b, a) :: rest)) :=
    (List.Perm.refl _).append hp
  exact ⟨inv.twoLe, inv.wrap, sepOn_perm hocc inv.sep, deg2On_perm hocc inv.deg⟩

theorem stinv_swap12 {s : List Chain} {u v : Point × Point} {rest : List (Point × Point)}
    (inv : StInv s (u :: v :: rest)) : StInv s (v :: u :: rest) :=
  stinv_perm (List.Perm.refl s) (List.Perm.swap v u rest) inv

/-- Feeding the segment with its endpoints exchanged gives an equivalent
state. -/
theorem step_reorient {a b : Point} {cb : ContourBuilder} {rest : List (Point × Point)}
    (inv : StInv cb.s ((a, b) :: rest)) :
    SEq (addSegment a b cb).s (addSegment b a cb).s := by
  have ha1 : a ∈ endPts ((a, b) :: rest) := by
    rw [endPts_cons]; exact List.mem_cons_self _ _
  have hb1 : b ∈ endPts ((a, b) :: rest) := by
    rw [endPts_cons]; exact List.mem_cons_of_mem _ (List.mem_cons_self _ _)
  have invF := stinv_flip inv
  rcases hfa : firstMatchFrom a cb.s 0 with _ | ⟨i, pa⟩ <;>
    rcases hfb : firstMatchFrom b cb.s 0 with _ | ⟨j, pb⟩
  · rw [step_case0 a b cb hfa hfb, step_case0 b a cb hfb hfa]
    exact seq_cons (chainEq_open_of rfl rfl (Or.inr (by simp)))
      (seq_of_perm (List.Perm.refl _) inv.wrap)
  · have h1 := step_case2 a b cb j pb hfa hfb
    have h2 := step_case1 b a cb j pb hfb hfa
    refine seq_of_perm_left h1 (seq_of_perm_right ?_ h2.symm (stinv_step invF).wrap)
    exact seq_of_perm (List.Perm.refl _)
      (fun c hc => (stinv_step invF).wrap c (h2.mem_iff.mpr hc))
  · have h1 := step_case1 a b cb i pa hfa hfb
    have h2 := step_case2 b a cb i pa hfb hfa
    refine seq_of_perm_left h1 (seq_of_perm_right ?_ h2.symm (stinv_step invF).wrap)
    exact seq_of_perm (List.Perm.refl _)
      (fun c hc => (stinv_step invF).wrap c (h2.mem_iff.mpr hc))
  · by_cases hij : i = j
    · subst hij
      have h1 := step_close a b cb i pa pb hfa hfb
      have h2 := step_close b a cb i pb pa hfb hfa
      refine seq_of_perm_left h1 (seq_of_perm_right ?_ h2.symm (stinv_step invF).wrap)
      exact seq_of_perm (List.Perm.refl _)
        (fun c hc => (stinv_step invF).wrap c (h2.mem_iff.mpr hc))
    · obtain ⟨A, hA, hclA, hlenA, -, -⟩ := fm_sound_inv inv ha1 hfa
      obtain ⟨B, hB, hclB, hlenB, -, -⟩ := fm_sound_inv inv hb1 hfb
      obtain ⟨r, hr1, hr2⟩ := step_merge a b cb i j pa pb hfa hfb hij
      obtain ⟨r', hr1', hr2'⟩ := step_merge b a cb j i pb pa hfb hfa (Ne.symm hij)
      rw [getIdx_eq_of_getElem? hA, getIdx_eq_of_getElem? hB] at hr1 hr2
      rw [getIdx_eq_of_getElem? hB, getIdx_eq_of_getElem? hA] at hr1' hr2'
      have hrr : r.Perm r' := by
        have h0 : (A :: B :: r).Perm (A :: B :: r') :=
          (hr1.symm.trans hr1').trans (List.Perm.swap A B r')
        exact (h0.cons_inv).cons_inv
      refine seq_of_perm_left hr2 (seq_of_perm_right ?_ hr2'.symm (stinv_step invF).wrap)
      refine seq_cons (mergeCh_swap_chainEq pa pb hclA hclB) ?_
      exact seq_of_perm hrr
        (fun c hc => (stinv_step invF).wrap c
          (hr2'.mem_iff.mpr (List.mem_cons_of_mem _ hc)))

/-- Reduce the adjacent-transposition goal to the one with the first segment
reoriented. -/
theorem swap_flip_u {a b x y : Point} {cb : ContourBuilder} {rest : List (Point × Point)}
    (inv : StInv cb.s ((a, b) :: (x, y) :: rest))
    (h : SEq (addSegment x y (addSegment b a cb)).s
      (addSegment b a (addSegment x y cb)).s) :
    SEq (addSegment x y (addSegment a b cb)).s
      (addSegment a b (addSegment x y cb)).s := by
  have invF : StInv cb.s ((b, a) :: (x, y) :: rest) := stinv_flip inv
  have invV : StInv cb.s ((x, y) :: (a, b) :: rest) := stinv_swap12 inv
  have h1 : SEq (addSegment x y (addSegment a b cb)).s
      (addSegment x y (addSegment b a cb)).s :=
    step_congr (step_reorient inv) (stinv_step inv) (stinv_step invF)
  have h2 : SEq (addSegment a b (addSegment x y cb)).s
      (addSegment b a (addSegment x y cb)).s :=
    step_reorient (stinv_step invV)
  exact seq_trans h1 (seq_trans h (seq_symm h2))

/-- Reduce the adjacent-transposition goal to the one with the second segment
reoriented. -/
theorem swap_flip_v {a b x y : Point} {cb : ContourBuilder} {rest : List (Point × Point)}
    (inv : StInv cb.s ((a, b) :: (x, y) :: rest))
    (h : SEq (addSegment y x (addSegment a b cb)).s
      (addSegment a b (addSegment y x cb)).s) :
    SEq (addSegment x y (addSegment a b cb)).s
      (addSegment a b (addSegment x y cb)).s := by
  have invU := stinv_step inv
  have h1 : SEq (addSegment x y (addSegment a b cb)).s
      (addSegment y x (addSegment a b cb)).s :=
    step_reorient invU
  have invV : StInv cb.s ((x, y) :: (a, b) :: rest) := stinv_swap12 inv
  have invVF : StInv cb.s ((y, x) :: (a, b) :: rest) := stinv_flip invV
  have h2 : SEq (addSegment a b (addSegment x y cb)).s
      (addSegment a b (addSegment y x cb)).s :=
    step_congr (step_reorient invV) (stinv_step invV) (stinv_step invVF)
  exact seq_trans h1 (seq_trans h (seq_symm h2))

theorem headPt_orientFrom (c : Chain) (f : Bool) :
    headPt (orientFrom c f) = if f then c.headP else c.tailP := by
  cases f
  · show headPt c.points.reverse = c.tailP
    exact headPt_reverse c.points
  · rfl

theorem lastPt_orientFrom (c : Chain) (f : Bool) :
    lastPt (orientFrom c f) = if f then c.tailP else c.headP := by
  cases f
  · show lastPt c.points.reverse = c.headP
    exact lastPt_reverse c.points
  · rfl

theorem orientFrom_ne_nil {c : Chain} (h : c.points ≠ []) (f : Bool) :
    orientFrom c f ≠ [] := by
  cases f <;> simp [orientFrom, h]

theorem orientFrom_length (c : Chain) (f : Bool) :
    (orientFrom c f).length = c.points.length := by
  cases f <;> simp [orientFrom]

theorem walkIs_length {c : Chain} {W : List Point} (h : WalkIs c W) :
    c.points.length = W.length := by
  rcases h with h | h <;> simp [h]

theorem walkIs_extendCh (c : Chain) (p : Bool) (q : Point) :
    WalkIs (extendCh c p q) (q :: orientFrom c p) :=
  extendCh_points c p q

theorem walkIs_mergeCh (cA cB : Chain) (pa pb : Bool) :
    WalkIs (mergeCh cA cB pa pb) (glueW cA cB pa pb) :=
  mergeCh_points cA cB pa pb

/-- A `WalkIs` fact transported along a known orientation equation. -/
theorem walkIs_of_eq {c : Chain} {W W' : List Point} (h : WalkIs c W) (he : W = W') :
    WalkIs c W' := he ▸ h

theorem walkIs_unrev {c : Chain} {W : List Point} (h : WalkIs c W.reverse) : WalkIs c W :=
  walkIs_of_eq (walkIs_rev h) (List.reverse_reverse W)

theorem perm_extract_of_getElem? {S : List Chain} {k : Nat} {C : Chain}
    (h : S[k]? = some C) : S.Perm (C :: S.eraseIdx k) := by
  have hp := permExtract S k (List.getElem?_eq_some_iff.mp h).1
  rw [getIdx_eq_of_getElem? h] at hp
  exact hp

theorem fm_none_in_perm {v : Point} {N : Chain} {s0 S : List Chain}
    {rest : List (Point × Point)} (invS : StInv S rest) (hv : v ∈ endPts rest)
    (hS : S.Perm (N :: s0)) (hN1 : v ≠ N.headP) (hN2 : v ≠ N.tailP)
    (h0 : ∀ c ∈ s0, v ≠ c.headP ∧ v ≠ c.tailP) :
    firstMatchFrom v S 0 = none := by
  apply fm_none_of invS hv
  intro c hc
  rcases List.mem_cons.mp (hS.mem_iff.mp hc) with rfl | hc
  · exact ⟨hN1, hN2⟩
  · exact h0 c hc

/-- The two free end values of a canonical merged walk. -/
theorem glue_ends (cA cB : Chain) (pa pb : Bool) (hA : cA.points ≠ [])
    (hB : cB.points ≠ []) :
    headPt (glueW cA cB pa pb) = (if pa then cA.tailP else cA.headP)
      ∧ lastPt (glueW cA cB pa pb) = (if pb then cB.tailP else cB.headP) := by
  constructor
  · rw [glueW_eq_orient, headPt_append _ _ (by simp [orientFrom_ne_nil hA pa]),
      headPt_reverse, lastPt_orientFrom]
  · rw [glueW_eq_orient, lastPt_append _ _ (orientFrom_ne_nil hB pb), lastPt_orientFrom]

/-- Adjacent transposition, first segment fresh on both endpoints. -/
theorem swap_u0 {a b x y : Point} {cb : ContourBuilder} {rest : List (Point × Point)}
    (inv : StInv cb.s ((a, b) :: (x, y) :: rest))
    (hfa : firstMatchFrom a cb.s 0 = none) (hfb : firstMatchFrom b cb.s 0 = none) :
    SEq (addSegment x y (addSegment a b cb)).s
      (addSegment a b (addSegment x y cb)).s := by
  have invU : StInv (addSegment a b cb).s ((x, y) :: rest) := stinv_step inv
  have invV0 : StInv cb.s ((x, y) :: (a, b) :: rest) := stinv_swap12 inv
  have invV : StInv (addSegment x y cb).s ((a, b) :: rest) := stinv_step invV0
  have invT2 : StInv (addSegment a b (addSegment x y cb)).s rest := stinv_step invV
  have hU : (addSegment a b cb).s = ⟨[a, b], false⟩ :: cb.s := step_case0 a b cb hfa hfb
  have hva := fm_none_vals hfa
  have hvb := fm_none_vals hfb
  have hxe : x ∈ endPts ((x, y) :: rest) := by
    rw [endPts_cons]; exact List.mem_cons_self _ _
  have hye : y ∈ endPts ((x, y) :: rest) := by
    rw [endPts_cons]; exact List.mem_cons_of_mem _ (List.mem_cons_self _ _)
  have hae : a ∈ endPts ((a, b) :: rest) := by
    rw [endPts_cons]; exact List.mem_cons_self _ _
  have hbe : b ∈ endPts ((a, b) :: rest) := by
    rw [endPts_cons]; exact List.mem_cons_of_mem _ (List.mem_cons_self _ _)
  have hx1 : x ∈ endPts ((a, b) :: (x, y) :: rest) := by
    rw [endPts_cons2]
    exact List.mem_cons_of_mem _ (List.mem_cons_of_mem _ (List.mem_cons_self _ _))
  have hy1 : y ∈ endPts ((a, b) :: (x, y) :: rest) := by
    rw [endPts_cons2]
    exact List.mem_cons_of_mem _ (List.mem_cons_of_mem _
      (List.mem_cons_of_mem _ (List.mem_cons_self _ _)))
  have hx0 : x ∈ endPts ((x, y) :: (a, b) :: rest) := by
    rw [endPts_cons]; exact List.mem_cons_self _ _
  have hy0 : y ∈ endPts ((x, y) :: (a, b) :: rest) := by
    rw [endPts_cons]; exact List.mem_cons_of_mem _ (List.mem_cons_self _ _)
  have hNU : (⟨[a, b], false⟩ : Chain) ∈ (addSegment a b cb).s := by
    rw [hU]; exact List.mem_cons_self _ _
  by_cases hxa : x = a
  · replace hxa := hxa.symm
    subst hxa
    by_cases hyb : y = b
    · replace hyb := hyb.symm
      subst hyb
      exact seq_of_perm (List.Perm.refl _) invT2.wrap
    · by_cases hya : y = a
      · replace hya := hya.symm
        subst hya
        have h3 : 3 ≤ (a :: b :: a :: a :: endPts rest).count a := by
          rw [List.count_cons_self]
          have h4 := count_cons_le b a (a :: a :: endPts rest)
          rw [List.count_cons_self, List.count_cons_self] at h4
          omega
        exact (deg_endpts3 inv h3).elim
      · have hba : b ≠ a := by
          intro he
          have h3 : 3 ≤ (a :: b :: a :: y :: endPts rest).count a := by
            rw [he, List.count_cons_self, List.count_cons_self,
              List.count_cons_self]
            omega
          exact deg_endpts3 inv h3
        rcases hfy : firstMatchFrom y cb.s 0 with _ | ⟨ky, fy⟩
        · -- x = a, y fresh: extend the new chain in both orders
          obtain ⟨kx, hkx, hfmx⟩ := fm_of_mem_head invU hxe hNU rfl
          have hfmyU : firstMatchFrom y (addSegment a b cb).s 0 = none := by
            refine fm_none_in_perm invU hye (by rw [hU]) ?_ ?_ (fm_none_vals hfy)
            · exact fun h => hya h
            · exact fun h => hyb h
          have hT1 := step_case1 a y (addSegment a b cb) kx true hfmx hfmyU
          rw [getIdx_eq_of_getElem? hkx] at hT1
          have hR1 : cb.s.Perm ((addSegment a b cb).s.eraseIdx kx) := by
            have hp := perm_extract_of_getElem? hkx
            nth_rewrite 1 [hU] at hp
            exact hp.cons_inv
          have hV : (addSegment a y cb).s = ⟨[a, y], false⟩ :: cb.s :=
            step_case0 a y cb hfa hfy
          have hNvV : (⟨[a, y], false⟩ : Chain) ∈ (addSegment a y cb).s := by
            rw [hV]; exact List.mem_cons_self _ _
          obtain ⟨ka, hka, hfa2⟩ := fm_of_mem_head invV hae hNvV rfl
          have hfb2 : firstMatchFrom b (addSegment a y cb).s 0 = none := by
            refine fm_none_in_perm invV hbe (by rw [hV]) ?_ ?_ (fm_none_vals hfb)
            · exact fun h => hba h
            · exact fun h => hyb h.symm
          have hT2 := step_case1 a b (addSegment a y cb) ka true hfa2 hfb2
          rw [getIdx_eq_of_getElem? hka] at hT2
          have hR2 : cb.s.Perm ((addSegment a y cb).s.eraseIdx ka) := by
            have hp := perm_extract_of_getElem? hka
            nth_rewrite 1 [hV] at hp
            exact hp.cons_inv
          refine seq_of_perm_left hT1 (seq_of_perm_right ?_ hT2.symm invT2.wrap)
          refine seq_cons (chainEq_open_of rfl rfl (Or.inr (by simp [extendCh]))) ?_
          refine seq_of_perm (hR1.symm.trans hR2) ?_
          exact fun c hc => invT2.wrap c (hT2.mem_iff.mpr (List.mem_cons_of_mem _ hc))
        · -- x = a, y on an existing chain: merge with the new chain
          obtain ⟨Q, hQ, hclQ, hlenQ, hhQ, htQ⟩ := fm_sound_inv inv hy1 hfy
          have hQmem : Q ∈ cb.s := List.getElem?_mem hQ
          have hvalQ : (if fy then Q.headP else Q.tailP) = y := by
            cases fy
            · simpa using (htQ rfl).symm
            · simpa using (hhQ rfl).symm
          have hQne : Q.points ≠ [] := by intro h; rw [h] at hlenQ; simp at hlenQ
          obtain ⟨kx, hkx, hfmx⟩ := fm_of_mem_head invU hxe hNU rfl
          have hQU : Q ∈ (addSegment a b cb).s := by
            rw [hU]; exact List.mem_cons_of_mem _ hQmem
          obtain ⟨kyU, hkyU, hfmyU⟩ := fm_of_mem_val invU hye hQU hvalQ
          have hne : kx ≠ kyU := by
            intro he
            rw [he] at hkx
            have hNQ : (⟨[a, b], false⟩ : Chain) = Q := by
              rw [hkx] at hkyU
              exact Option.some.inj hkyU
            exact (hva Q hQmem).1 (by rw [← hNQ]; rfl)
          obtain ⟨r1, hr1, hT1⟩ :=
            step_merge a y (addSegment a b cb) kx kyU true fy hfmx hfmyU hne
          rw [getIdx_eq_of_getElem? hkx, getIdx_eq_of_getElem? hkyU] at hr1 hT1
          have hcbr1 : cb.s.Perm (Q :: r1) := by
            have hp := hr1
            rw [hU] at hp
            exact hp.cons_inv
          have hWm : WalkIs (mergeCh ⟨[a, b], false⟩ Q true fy)
              (b :: a :: orientFrom Q fy) := by
            refine walkIs_of_eq (walkIs_mergeCh _ _ _ _) ?_
            rw [glueW_eq_orient]
            show (orientFrom ⟨[a, b], false⟩ true).reverse ++ orientFrom Q fy
              = b :: a :: orientFrom Q fy
            rfl
          have hVpre := step_case2 a y cb ky fy hfa hfy
          rw [getIdx_eq_of_getElem? hQ] at hVpre
          have hEvV : extendCh Q fy a ∈ (addSegment a y cb).s :=
            hVpre.mem_iff.mpr (List.mem_cons_self _ _)
          have hWEv : WalkIs (extendCh Q fy a) (a :: orientFrom Q fy) :=
            walkIs_extendCh Q fy a
          obtain ⟨ka, fa2, hka, hfa2, horA⟩ := fm_walk_head invV hae hEvV hWEv rfl
          have hfb2 : firstMatchFrom b (addSegment a y cb).s 0 = none := by
            apply fm_none_of invV hbe
            intro c hc
            rcases List.mem_cons.mp (hVpre.mem_iff.mp hc) with rfl | hc'
            · refine ends_of_walk hWEv ?_ ?_
              · exact fun h => hba h
              · intro h
                rw [lastPt_cons _ _ (orientFrom_ne_nil hQne fy), lastPt_orientFrom] at h
                cases fy
                · exact (hvb Q hQmem).1 (by simpa using h)
                · exact (hvb Q hQmem).2 (by simpa using h)
            · exact fm_none_vals hfb c (mem_of_mem_eraseIdx hc')
          have hT2 := step_case1 a b (addSegment a y cb) ka fa2 hfa2 hfb2
          rw [getIdx_eq_of_getElem? hka] at hT2
          have hWT2 : WalkIs (extendCh (extendCh Q fy a) fa2 b)
              (b :: a :: orientFrom Q fy) := by
            refine walkIs_of_eq (walkIs_extendCh _ _ _) ?_
            rw [horA]
          have hR2a : ((addSegment a y cb).s.eraseIdx ka).Perm (cb.s.eraseIdx ky) :=
            ((perm_extract_of_getElem? hka).symm.trans hVpre).cons_inv
          have hRR : r1.Perm ((addSegment a y cb).s.eraseIdx ka) := by
            have h1 : r1.Perm (cb.s.eraseIdx ky) :=
              (hcbr1.symm.trans (perm_extract_of_getElem? hQ)).cons_inv
            exact h1.trans hR2a.symm
          refine seq_of_perm_left hT1 (seq_of_perm_right ?_ hT2.symm invT2.wrap)
          refine seq_cons (chainEq_of_walkIs (mergeCh_closed _ _ _ _ rfl hclQ)
            (by rw [extendCh_closed, extendCh_closed]; exact hclQ) hWm hWT2) ?_
          refine seq_of_perm hRR ?_
          exact fun c hc => invT2.wrap c (hT2.mem_iff.mpr (List.mem_cons_of_mem _ hc))
  · by_cases hxb : x = b
    · replace hxb := hxb.symm
      subst hxb
      by_cases hya : y = a
      · replace hya := hya.symm
        subst hya
        have hA := step_reorient invU
        have hB : SEq (addSegment a b (addSegment b a cb)).s
            (addSegment a b (addSegment a b cb)).s :=
          step_congr (seq_symm (step_reorient inv)) (stinv_step invV0)
            (stinv_step (stinv_flip invV0))
        exact seq_trans hA (seq_symm hB)
      · by_cases hyb : y = b
        · replace hyb := hyb.symm
          subst hyb
          have h3 : 3 ≤ (a :: b :: b :: b :: endPts rest).count b := by
            have h4 := count_cons_le a b (b :: b :: b :: endPts rest)
            rw [List.count_cons_self, List.count_cons_self, List.count_cons_self] at h4
            omega
          exact (deg_endpts3 inv h3).elim
        · have hab : a ≠ b := by
            intro he
            have h3 : 3 ≤ (a :: b :: b :: y :: endPts rest).count b := by
              rw [he, List.count_cons_self, List.count_cons_self, List.count_cons_self]
              omega
            exact deg_endpts3 inv h3
          rcases hfy : firstMatchFrom y cb.s 0 with _ | ⟨ky, fy⟩
          · -- x = b, y fresh
            obtain ⟨kx, hkx, hfmx⟩ := fm_of_mem_tail invU hxe hNU rfl
            have hfmyU : firstMatchFrom y (addSegment a b cb).s 0 = none := by
              refine fm_none_in_perm invU hye (by rw [hU]) ?_ ?_ (fm_none_vals hfy)
              · exact fun h => hya h
              · exact fun h => hyb h
            have hT1 := step_case1 b y (addSegment a b cb) kx false hfmx hfmyU
            rw [getIdx_eq_of_getElem? hkx] at hT1
            have hR1 : cb.s.Perm ((addSegment a b cb).s.eraseIdx kx) := by
              have hp := perm_extract_of_getElem? hkx
              nth_rewrite 1 [hU] at hp
              exact hp.cons_inv
            have hV : (addSegment b y cb).s = ⟨[b, y], false⟩ :: cb.s :=
              step_case0 b y cb hfb hfy
            have hNvV : (⟨[b, y], false⟩ : Chain) ∈ (addSegment b y cb).s := by
              rw [hV]; exact List.mem_cons_self _ _
            have hfa2 : firstMatchFrom a (addSegment b y cb).s 0 = none := by
              refine fm_none_in_perm invV hae (by rw [hV]) ?_ ?_ (fm_none_vals hfa)
              · exact fun h => hab h
              · exact fun h => hya h.symm
            obtain ⟨kb, hkb, hfb2⟩ := fm_of_mem_head invV hbe hNvV rfl
            have hT2 := step_case2 a b (addSegment b y cb) kb true hfa2 hfb2
            rw [getIdx_eq_of_getElem? hkb] at hT2
            have hR2 : cb.s.Perm ((addSegment b y cb).s.eraseIdx kb) := by
              have hp := perm_extract_of_getElem? hkb
              nth_rewrite 1 [hV] at hp
              exact hp.cons_inv
            refine seq_of_perm_left hT1 (seq_of_perm_right ?_ hT2.symm invT2.wrap)
            refine seq_cons (chainEq_open_of rfl rfl (Or.inl (by simp [extendCh]))) ?_
            refine seq_of_perm (hR1.symm.trans hR2) ?_
            exact fun c hc => invT2.wrap c (hT2.mem_iff.mpr (List.mem_cons_of_mem _ hc))
          · -- x = b, y on an existing chain
            obtain ⟨Q, hQ, hclQ, hlenQ, hhQ, htQ⟩ := fm_sound_inv inv hy1 hfy
            have hQmem : Q ∈ cb.s := List.getElem?_mem hQ
            have hvalQ : (if fy then Q.headP else Q.tailP) = y := by
              cases fy
              · simpa using (htQ rfl).symm
              · simpa using (hhQ rfl).symm
            have hQne : Q.points ≠ [] := by intro h; rw [h] at hlenQ; simp at hlenQ
            obtain ⟨kx, hkx, hfmx⟩ := fm_of_mem_tail invU hxe hNU rfl
            have hQU : Q ∈ (addSegment a b cb).s := by
              rw [hU]; exact List.mem_cons_of_mem _ hQmem
            obtain ⟨kyU, hkyU, hfmyU⟩ := fm_of_mem_val invU hye hQU hvalQ
            have hne : kx ≠ kyU := by
              intro he
              rw [he] at hkx
              have hNQ : (⟨[a, b], false⟩ : Chain) = Q := by
                rw [hkx] at hkyU
                exact Option.some.inj hkyU
              exact (hva Q hQmem).1 (by rw [← hNQ]; rfl)
            obtain ⟨r1, hr1, hT1⟩ :=
              step_merge b y (addSegment a b cb) kx kyU false fy hfmx hfmyU hne
            rw [getIdx_eq_of_getElem? hkx, getIdx_eq_of_getElem? hkyU] at hr1 hT1
            have hcbr1 : cb.s.Perm (Q :: r1) := by
              have hp := hr1
              rw [hU] at hp
              exact hp.cons_inv
            have hWm : WalkIs (mergeCh ⟨[a, b], false⟩ Q false fy)
                (a :: b :: orientFrom Q fy) := by
              refine walkIs_of_eq (walkIs_mergeCh _ _ _ _) ?_
              rw [glueW_eq_orient]
              show (orientFrom ⟨[a, b], false⟩ false).reverse ++ orientFrom Q fy
                = a :: b :: orientFrom Q fy
              rfl
            have hVpre := step_case2 b y cb ky fy hfb hfy
            rw [getIdx_eq_of_getElem? hQ] at hVpre
            have hEvV : extendCh Q fy b ∈ (addSegment b y cb).s :=
              hVpre.mem_iff.mpr (List.mem_cons_self _ _)
            have hWEv : WalkIs (extendCh Q fy b) (b :: orientFrom Q fy) :=
              walkIs_extendCh Q fy b
            have hfa2 : firstMatchFrom a (addSegment b y cb).s 0 = none := by
              apply fm_none_of invV hae
              intro c hc
              rcases List.mem_cons.mp (hVpre.mem_iff.mp hc) with rfl | hc'
              · refine ends_of_walk hWEv ?_ ?_
                · exact fun h => hab h
                · intro h
                  rw [lastPt_cons _ _ (orientFrom_ne_nil hQne fy), lastPt_orientFrom] at h
                  cases fy
                  · exact (hva Q hQmem).1 (by simpa using h)
                  · exact (hva Q hQmem).2 (by simpa using h)
              · exact fm_none_vals hfa c (mem_of_mem_eraseIdx hc')
            obtain ⟨kb, f2, hkb, hfb2, horB⟩ := fm_walk_head invV hbe hEvV hWEv rfl
            have hT2 := step_case2 a b (addSegment b y cb) kb f2 hfa2 hfb2
            rw [getIdx_eq_of_getElem? hkb] at hT2
            have hWT2 : WalkIs (extendCh (extendCh Q fy b) f2 a)
                (a :: b :: orientFrom Q fy) := by
              refine walkIs_of_eq (walkIs_extendCh _ _ _) ?_
              rw [horB]
            have hR2a : ((addSegment b y cb).s.eraseIdx kb).Perm (cb.s.eraseIdx ky) :=
              ((perm_extract_of_getElem? hkb).symm.trans hVpre).cons_inv
            have hRR : r1.Perm ((addSegment b y cb).s.eraseIdx kb) := by
              have h1 : r1.Perm (cb.s.eraseIdx ky) :=
                (hcbr1.symm.trans (perm_extract_of_getElem? hQ)).cons_inv
              exact h1.trans hR2a.symm
            refine seq_of_perm_left hT1 (seq_of_perm_right ?_ hT2.symm invT2.wrap)
            refine seq_cons (chainEq_of_walkIs (mergeCh_closed _ _ _ _ rfl hclQ)
              (by rw [extendCh_closed, extendCh_closed]; exact hclQ) hWm hWT2) ?_
            refine seq_of_perm hRR ?_
            exact fun c hc => invT2.wrap c (hT2.mem_iff.mpr (List.mem_cons_of_mem _ hc))
    · by_cases hya : y = a
      · replace hya := hya.symm
        subst hya
        rcases hfx : firstMatchFrom x cb.s 0 with _ | ⟨kx', fx⟩
        · -- y = a, x fresh
          have hfmxU : firstMatchFrom x (addSegment a b cb).s 0 = none := by
            refine fm_none_in_perm invU hxe (by rw [hU]) ?_ ?_ (fm_none_vals hfx)
            · exact fun h => hxa h
            · exact fun h => hxb h
          obtain ⟨ky, hky, hfmy⟩ := fm_of_mem_head invU hye hNU rfl
          have hT1 := step_case2 x a (addSegment a b cb) ky true hfmxU hfmy
          rw [getIdx_eq_of_getElem? hky] at hT1
          have hR1 : cb.s.Perm ((addSegment a b cb).s.eraseIdx ky) := by
            have hp := perm_extract_of_getElem? hky
            nth_rewrite 1 [hU] at hp
            exact hp.cons_inv
          have hba : b ≠ a := by
            intro he
            have h3 : 3 ≤ (a :: b :: x :: a :: endPts rest).count a := by
              rw [he, List.count_cons_self, List.count_cons_self]
              have h4 := count_cons_le x a (a :: endPts rest)
              rw [List.count_cons_self] at h4
              omega
            exact deg_endpts3 inv h3
          have hV : (addSegment x a cb).s = ⟨[x, a], false⟩ :: cb.s :=
            step_case0 x a cb hfx hfa
          have hNvV : (⟨[x, a], false⟩ : Chain) ∈ (addSegment x a cb).s := by
            rw [hV]; exact List.mem_cons_self _ _
          obtain ⟨ka, hka, hfa2⟩ := fm_of_mem_tail invV hae hNvV rfl
          have hfb2 : firstMatchFrom b (addSegment x a cb).s 0 = none := by
            refine fm_none_in_perm invV hbe (by rw [hV]) ?_ ?_ (fm_none_vals hfb)
            · exact fun h => hxb h.symm
            · exact fun h => hba h
          have hT2 := step_case1 a b (addSegment x a cb) ka false hfa2 hfb2
          rw [getIdx_eq_of_getElem? hka] at hT2
          have hR2 : cb.s.Perm ((addSegment x a cb).s.eraseIdx ka) := by
            have hp := perm_extract_of_getElem? hka
            nth_rewrite 1 [hV] at hp
            exact hp.cons_inv
          refine seq_of_perm_left hT1 (seq_of_perm_right ?_ hT2.symm invT2.wrap)
          refine seq_cons (chainEq_open_of rfl rfl (Or.inl (by simp [extendCh]))) ?_
          refine seq_of_perm (hR1.symm.trans hR2) ?_
          exact fun c hc => invT2.wrap c (hT2.mem_iff.mpr (List.mem_cons_of_mem _ hc))
        · -- y = a, x on an existing chain
          obtain ⟨Q, hQ, hclQ, hlenQ, hhQ, htQ⟩ := fm_sound_inv inv hx1 hfx
          have hQmem : Q ∈ cb.s := List.getElem?_mem hQ
          have hvalQ : (if fx then Q.headP else Q.tailP) = x := by
            cases fx
            · simpa using (htQ rfl).symm
            · simpa using (hhQ rfl).symm
          have hQne : Q.points ≠ [] := by intro h; rw [h] at hlenQ; simp at hlenQ
          have hQU : Q ∈ (addSegment a b cb).s := by
            rw [hU]; exact List.mem_cons_of_mem _ hQmem
          obtain ⟨kxU, hkxU, hfmxU⟩ := fm_of_mem_val invU hxe hQU hvalQ
          obtain ⟨kyU, hkyU, hfmyU⟩ := fm_of_mem_head invU hye hNU rfl
          have hne : kxU ≠ kyU := by
            intro he
            rw [he] at hkxU
            have hNQ : Q = ⟨[a, b], false⟩ := by
              rw [hkyU] at hkxU
              exact (Option.some.inj hkxU).symm
            exact (hva Q hQmem).1 (by rw [hNQ]; rfl)
          obtain ⟨r1, hr1, hT1⟩ :=
            step_merge x a (addSegment a b cb) kxU kyU fx true hfmxU hfmyU hne
          rw [getIdx_eq_of_getElem? hkxU, getIdx_eq_of_getElem? hkyU] at hr1 hT1
          have hcbr1 : cb.s.Perm (Q :: r1) := by
            have hp := hr1
            rw [hU] at hp
            exact (hp.trans (List.Perm.swap ⟨[a, b], false⟩ Q r1)).cons_inv
          have hWm : WalkIs (mergeCh Q ⟨[a, b], false⟩ fx true)
              (b :: a :: orientFrom Q fx) := by
            refine walkIs_unrev (walkIs_of_eq (walkIs_mergeCh _ _ _ _) ?_)
            rw [glueW_eq_orient]
            show (orientFrom Q fx).reverse ++ [a, b]
              = (b :: a :: orientFrom Q fx).reverse
            simp
          have hba : b ≠ a := by
            intro he
            have h3 : 3 ≤ (a :: b :: x :: a :: endPts rest).count a := by
              rw [he, List.count_cons_self, List.count_cons_self]
              have h4 := count_cons_le x a (a :: endPts rest)
              rw [List.count_cons_self] at h4
              omega
            exact deg_endpts3 inv h3
          have hVpre := step_case1 x a cb kx' fx hfx hfa
          rw [getIdx_eq_of_getElem? hQ] at hVpre
          have hEvV : extendCh Q fx a ∈ (addSegment x a cb).s :=
            hVpre.mem_iff.mpr (List.mem_cons_self _ _)
          have hWEv : WalkIs (extendCh Q fx a) (a :: orientFrom Q fx) :=
            walkIs_extendCh Q fx a
          obtain ⟨ka, f2, hka, hfa2, horA⟩ := fm_walk_head invV hae hEvV hWEv rfl
          have hfb2 : firstMatchFrom b (addSegment x a cb).s 0 = none := by
            apply fm_none_of invV hbe
            intro c hc
            rcases List.mem_cons.mp (hVpre.mem_iff.mp hc) with rfl | hc'
            · refine ends_of_walk hWEv ?_ ?_
              · exact fun h => hba h
              · intro h
                rw [lastPt_cons _ _ (orientFrom_ne_nil hQne fx), lastPt_orientFrom] at h
                cases fx
                · exact (hvb Q hQmem).1 (by simpa using h)
                · exact (hvb Q hQmem).2 (by simpa using h)
            · exact fm_none_vals hfb c (mem_of_mem_eraseIdx hc')
          have hT2 := step_case1 a b (addSegment x a cb) ka f2 hfa2 hfb2
          rw [getIdx_eq_of_getElem? hka] at hT2
          have hWT2 : WalkIs (extendCh (extendCh Q fx a) f2 b)
              (b :: a :: orientFrom Q fx) := by
            refine walkIs_of_eq (walkIs_extendCh _ _ _) ?_
            rw [horA]
          have hR2a : ((addSegment x a cb).s.eraseIdx ka).Perm (cb.s.eraseIdx kx') :=
            ((perm_extract_of_getElem? hka).symm.trans hVpre).cons_inv
          have hRR : r1.Perm ((addSegment x a cb).s.eraseIdx ka) := by
            have h1 : r1.Perm (cb.s.eraseIdx kx') :=
              (hcbr1.symm.trans (perm_extract_of_getElem? hQ)).cons_inv
            exact h1.trans hR2a.symm
          refine seq_of_perm_left hT1 (seq_of_perm_right ?_ hT2.symm invT2.wrap)
          refine seq_cons (chainEq_of_walkIs (mergeCh_closed _ _ _ _ hclQ rfl)
            (by rw [extendCh_closed, extendCh_closed]; exact hclQ) hWm hWT2) ?_
          refine seq_of_perm hRR ?_
          exact fun c hc => invT2.wrap c (hT2.mem_iff.mpr (List.mem_cons_of_mem _ hc))
      · by_cases hyb : y = b
        · replace hyb := hyb.symm
          subst hyb
          rcases hfx : firstMatchFrom x cb.s 0 with _ | ⟨kx', fx⟩
          · -- y = b, x fresh
            have hfmxU : firstMatchFrom x (addSegment a b cb).s 0 = none := by
              refine fm_none_in_perm invU hxe (by rw [hU]) ?_ ?_ (fm_none_vals hfx)
              · exact fun h => hxa h
              · exact fun h => hxb h
            obtain ⟨ky, hky, hfmy⟩ := fm_of_mem_tail invU hye hNU rfl
            have hT1 := step_case2 x b (addSegment a b cb) ky false hfmxU hfmy
            rw [getIdx_eq_of_getElem? hky] at hT1
            have hR1 : cb.s.Perm ((addSegment a b cb).s.eraseIdx ky) := by
              have hp := perm_extract_of_getElem? hky
              nth_rewrite 1 [hU] at hp
              exact hp.cons_inv
            have hab : a ≠ b := by
              intro he
              have h3 : 3 ≤ (a :: b :: x :: b :: endPts rest).count b := by
                rw [he, List.count_cons_self, List.count_cons_self]
                have h4 := count_cons_le x b (b :: endPts rest)
                rw [List.count_cons_self] at h4
                omega
              exact deg_endpts3 inv h3
            have hV : (addSegment x b cb).s = ⟨[x, b], false⟩ :: cb.s :=
              step_case0 x b cb hfx hfb
            have hNvV : (⟨[x, b], false⟩ : Chain) ∈ (addSegment x b cb).s := by
              rw [hV]; exact List.mem_cons_self _ _
            have hfa2 : firstMatchFrom a (addSegment x b cb).s 0 = none := by
              refine fm_none_in_perm invV hae (by rw [hV]) ?_ ?_ (fm_none_vals hfa)
              · exact fun h => hxa h.symm
              · exact fun h => hab h
            obtain ⟨kb, hkb, hfb2⟩ := fm_of_mem_tail invV hbe hNvV rfl
            have hT2 := step_case2 a b (addSegment x b cb) kb false hfa2 hfb2
            rw [getIdx_eq_of_getElem? hkb] at hT2
            have hR2 : cb.s.Perm ((addSegment x b cb).s.eraseIdx kb) := by
              have hp := perm_extract_of_getElem? hkb
              nth_rewrite 1 [hV] at hp
              exact hp.cons_inv
            refine seq_of_perm_left hT1 (seq_of_perm_right ?_ hT2.symm invT2.wrap)
            refine seq_cons (chainEq_open_of rfl rfl (Or.inr (by simp [extendCh]))) ?_
            refine seq_of_perm (hR1.symm.trans hR2) ?_
            exact fun c hc => invT2.wrap c (hT2.mem_iff.mpr (List.mem_cons_of_mem _ hc))
          · -- y = b, x on an existing chain
            obtain ⟨Q, hQ, hclQ, hlenQ, hhQ, htQ⟩ := fm_sound_inv inv hx1 hfx
            have hQmem : Q ∈ cb.s := List.getElem?_mem hQ
            have hvalQ : (if fx then Q.headP else Q.tailP) = x := by
              cases fx
              · simpa using (htQ rfl).symm
              · simpa using (hhQ rfl).symm
            have hQne : Q.points ≠ [] := by intro h; rw [h] at hlenQ; simp at hlenQ
            have hQU : Q ∈ (addSegment a b cb).s := by
              rw [hU]; exact List.mem_cons_of_mem _ hQmem
            obtain ⟨kxU, hkxU, hfmxU⟩ := fm_of_mem_val invU hxe hQU hvalQ
            obtain ⟨kyU, hkyU, hfmyU⟩ := fm_of_mem_tail invU hye hNU rfl
            have hne : kxU ≠ kyU := by
              intro he
              rw [he] at hkxU
              have hNQ : Q = ⟨[a, b], false⟩ := by
                rw [hkyU] at hkxU
                exact (Option.some.inj hkxU).symm
              exact (hva Q hQmem).1 (by rw [hNQ]; rfl)
            obtain ⟨r1, hr1, hT1⟩ :=
              step_merge x b (addSegment a b cb) kxU kyU fx false hfmxU hfmyU hne
            rw [getIdx_eq_of_getElem? hkxU, getIdx_eq_of_getElem? hkyU] at hr1 hT1
            have hcbr1 : cb.s.Perm (Q :: r1) := by
              have hp := hr1
              rw [hU] at hp
              exact (hp.trans (List.Perm.swap ⟨[a, b], false⟩ Q r1)).cons_inv
            have hWm : WalkIs (mergeCh Q ⟨[a, b], false⟩ fx false)
                (a :: b :: orientFrom Q fx) := by
              refine walkIs_unrev (walkIs_of_eq (walkIs_mergeCh _ _ _ _) ?_)
              rw [glueW_eq_orient]
              show (orientFrom Q fx).reverse ++ [b, a]
                = (a :: b :: orientFrom Q fx).reverse
              simp
            have hab : a ≠ b := by
              intro he
              have h3 : 3 ≤ (a :: b :: x :: b :: endPts rest).count b := by
                rw [he, List.count_cons_self, List.count_cons_self]
                have h4 := count_cons_le x b (b :: endPts rest)
                rw [List.count_cons_self] at h4
                omega
              exact deg_endpts3 inv h3
            have hVpre := step_case1 x b cb kx' fx hfx hfb
            rw [getIdx_eq_of_getElem? hQ] at hVpre
            have hEvV : extendCh Q fx b ∈ (addSegment x b cb).s :=
              hVpre.mem_iff.mpr (List.mem_cons_self _ _)
            have hWEv : WalkIs (extendCh Q fx b) (b :: orientFrom Q fx) :=
              walkIs_extendCh Q fx b
            have hfa2 : firstMatchFrom a (addSegment x b cb).s 0 = none := by
              apply fm_none_of invV hae
              intro c hc
              rcases List.mem_cons.mp (hVpre.mem_iff.mp hc) with rfl | hc'
              · refine ends_of_walk hWEv ?_ ?_
                · exact fun h => hab h
                · intro h
                  rw [lastPt_cons _ _ (orientFrom_ne_nil hQne fx), lastPt_orientFrom] at h
                  cases fx
                  · exact (hva Q hQmem).1 (by simpa using h)
                  · exact (hva Q hQmem).2 (by simpa using h)
              · exact fm_none_vals hfa c (mem_of_mem_eraseIdx hc')
            obtain ⟨kb, f2, hkb, hfb2, horB⟩ := fm_walk_head invV hbe hEvV hWEv rfl
            have hT2 := step_case2 a b (addSegment x b cb) kb f2 hfa2 hfb2
            rw [getIdx_eq_of_getElem? hkb] at hT2
            have hWT2 : WalkIs (extendCh (extendCh Q fx b) f2 a)
                (a :: b :: orientFrom Q fx) := by
              refine walkIs_of_eq (walkIs_extendCh _ _ _) ?_
              rw [horB]
            have hR2a : ((addSegment x b cb).s.eraseIdx kb).Perm (cb.s.eraseIdx kx') :=
              ((perm_extract_of_getElem? hkb).symm.trans hVpre).cons_inv
            have hRR : r1.Perm ((addSegment x b cb).s.eraseIdx kb) := by
              have h1 : r1.Perm (cb.s.eraseIdx kx') :=
                (hcbr1.symm.trans (perm_extract_of_getElem? hQ)).cons_inv
              exact h1.trans hR2a.symm
            refine seq_of_perm_left hT1 (seq_of_perm_right ?_ hT2.symm invT2.wrap)
            refine seq_cons (chainEq_of_walkIs (mergeCh_closed _ _ _ _ hclQ rfl)
              (by rw [extendCh_closed, extendCh_closed]; exact hclQ) hWm hWT2) ?_
            refine seq_of_perm hRR ?_
            exact fun c hc => invT2.wrap c (hT2.mem_iff.mpr (List.mem_cons_of_mem _ hc))
        · -- x, y both away from a and b
          rcases hfx : firstMatchFrom x cb.s 0 with _ | ⟨kx', fx⟩ <;>
            rcases hfy : firstMatchFrom y cb.s 0 with _ | ⟨ky, fy⟩
          · -- both fresh: two new chains, order of pushes only
            have hfmxU : firstMatchFrom x (addSegment a b cb).s 0 = none := by
              refine fm_none_in_perm invU hxe (by rw [hU]) ?_ ?_ (fm_none_vals hfx)
              · exact fun h => hxa h
              · exact fun h => hxb h
            have hfmyU : firstMatchFrom y (addSegment a b cb).s 0 = none := by
              refine fm_none_in_perm invU hye (by rw [hU]) ?_ ?_ (fm_none_vals hfy)
              · exact fun h => hya h
              · exact fun h => hyb h
            have hT1 := step_case0 x y (addSegment a b cb) hfmxU hfmyU
            rw [hU] at hT1
            have hV : (addSegment x y cb).s = ⟨[x, y], false⟩ :: cb.s :=
              step_case0 x y cb hfx hfy
            have hfa2 : firstMatchFrom a (addSegment x y cb).s 0 = none := by
              refine fm_none_in_perm invV hae (by rw [hV]) ?_ ?_ (fm_none_vals hfa)
              · exact fun h => hxa h.symm
              · exact fun h => hya h.symm
            have hfb2 : firstMatchFrom b (addSegment x y cb).s 0 = none := by
              refine fm_none_in_perm invV hbe (by rw [hV]) ?_ ?_ (fm_none_vals hfb)
              · exact fun h => hxb h.symm
              · exact fun h => hyb h.symm
            have hT2 := step_case0 a b (addSegment x y cb) hfa2 hfb2
            rw [hV] at hT2
            refine seq_of_perm ?_ invT2.wrap
            rw [hT1, hT2]
            exact List.Perm.swap _ _ _
          · -- x fresh, y on a chain: same extension in both orders
            obtain ⟨Q, hQ, hclQ, hlenQ, hhQ, htQ⟩ := fm_sound_inv inv hy1 hfy
            have hQmem : Q ∈ cb.s := List.getElem?_mem hQ
            have hvalQ : (if fy then Q.headP else Q.tailP) = y := by
              cases fy
              · simpa using (htQ rfl).symm
              · simpa using (hhQ rfl).symm
            have hQne : Q.points ≠ [] := by intro h; rw [h] at hlenQ; simp at hlenQ
            have hfmxU : firstMatchFrom x (addSegment a b cb).s 0 = none := by
              refine fm_none_in_perm invU hxe (by rw [hU]) ?_ ?_ (fm_none_vals hfx)
              · exact fun h => hxa h
              · exact fun h => hxb h
            have hQU : Q ∈ (addSegment a b cb).s := by
              rw [hU]; exact List.mem_cons_of_mem _ hQmem
            obtain ⟨kyU, hkyU, hfmyU⟩ := fm_of_mem_val invU hye hQU hvalQ
            have hT1 := step_case2 x y (addSegment a b cb) kyU fy hfmxU hfmyU
            rw [getIdx_eq_of_getElem? hkyU] at hT1
            have hUer : ((addSegment a b cb).s.eraseIdx kyU).Perm
                (⟨[a, b], false⟩ :: cb.s.eraseIdx ky) := by
              have h1 : (addSegment a b cb).s.Perm
                  (Q :: ⟨[a, b], false⟩ :: cb.s.eraseIdx ky) := by
                rw [hU]
                exact ((perm_extract_of_getElem? hQ).cons _).trans
                  (List.Perm.swap Q ⟨[a, b], false⟩ _)
              exact ((perm_extract_of_getElem? hkyU).symm.trans h1).cons_inv
            have hVpre := step_case2 x y cb ky fy hfx hfy
            rw [getIdx_eq_of_getElem? hQ] at hVpre
            have hWEv : WalkIs (extendCh Q fy x) (x :: orientFrom Q fy) :=
              walkIs_extendCh Q fy x
            have hfa2 : firstMatchFrom a (addSegment x y cb).s 0 = none := by
              apply fm_none_of invV hae
              intro c hc
              rcases List.mem_cons.mp (hVpre.mem_iff.mp hc) with rfl | hc'
              · refine ends_of_walk hWEv ?_ ?_
                · exact fun h => hxa (h.symm)
                · intro h
                  rw [lastPt_cons _ _ (orientFrom_ne_nil hQne fy), lastPt_orientFrom] at h
                  cases fy
                  · exact (hva Q hQmem).1 (by simpa using h)
                  · exact (hva Q hQmem).2 (by simpa using h)
              · exact fm_none_vals hfa c (mem_of_mem_eraseIdx hc')
            have hfb2 : firstMatchFrom b (addSegment x y cb).s 0 = none := by
              apply fm_none_of invV hbe
              intro c hc
              rcases List.mem_cons.mp (hVpre.mem_iff.mp hc) with rfl | hc'
              · refine ends_of_walk hWEv ?_ ?_
                · exact fun h => hxb (h.symm)
                · intro h
                  rw [lastPt_cons _ _ (orientFrom_ne_nil hQne fy), lastPt_orientFrom] at h
                  cases fy
                  · exact (hvb Q hQmem).1 (by simpa using h)
                  · exact (hvb Q hQmem).2 (by simpa using h)
              · exact fm_none_vals hfb c (mem_of_mem_eraseIdx hc')
            have hT2 := step_case0 a b (addSegment x y cb) hfa2 hfb2
            refine seq_of_perm ?_ invT2.wrap
            have hp1 : (addSegment x y (addSegment a b cb)).s.Perm
                (extendCh Q fy x :: ⟨[a, b], false⟩ :: cb.s.eraseIdx ky) :=
              hT1.trans (hUer.cons _)
            have hp2 : (addSegment a b (addSegment x y cb)).s.Perm
                (⟨[a, b], false⟩ :: extendCh Q fy x :: cb.s.eraseIdx ky) := by
              rw [hT2]
              exact hVpre.cons _
            exact hp1.trans ((List.Perm.swap _ _ _).trans hp2.symm)
          · -- x on a chain, y fresh
            obtain ⟨Q, hQ, hclQ, hlenQ, hhQ, htQ⟩ := fm_sound_inv inv hx1 hfx
            have hQmem : Q ∈ cb.s := List.getElem?_mem hQ
            have hvalQ : (if fx then Q.headP else Q.tailP) = x := by
              cases fx
              · simpa using (htQ rfl).symm
              · simpa using (hhQ rfl).symm
            have hQne : Q.points ≠ [] := by intro h; rw [h] at hlenQ; simp at hlenQ
            have hQU : Q ∈ (addSegment a b cb).s := by
              rw [hU]; exact List.mem_cons_of_mem _ hQmem
            obtain ⟨kxU, hkxU, hfmxU⟩ := fm_of_mem_val invU hxe hQU hvalQ
            have hfmyU : firstMatchFrom y (addSegment a b cb).s 0 = none := by
              refine fm_none_in_perm invU hye (by rw [hU]) ?_ ?_ (fm_none_vals hfy)
              · exact fun h => hya h
              · exact fun h => hyb h
            have hT1 := step_case1 x y (addSegment a b cb) kxU fx hfmxU hfmyU
            rw [getIdx_eq_of_getElem? hkxU] at hT1
            have hUer : ((addSegment a b cb).s.eraseIdx kxU).Perm
                (⟨[a, b], false⟩ :: cb.s.eraseIdx kx') := by
              have h1 : (addSegment a b cb).s.Perm
                  (Q :: ⟨[a, b], false⟩ :: cb.s.eraseIdx kx') := by
                rw [hU]
                exact ((perm_extract_of_getElem? hQ).cons _).trans
                  (List.Perm.swap Q ⟨[a, b], false⟩ _)
              exact ((perm_extract_of_getElem? hkxU).symm.trans h1).cons_inv
            have hVpre := step_case1 x y cb kx' fx hfx hfy
            rw [getIdx_eq_of_getElem? hQ] at hVpre
            have hWEv : WalkIs (extendCh Q fx y) (y :: orientFrom Q fx) :=
              walkIs_extendCh Q fx y
            have hfa2 : firstMatchFrom a (addSegment x y cb).s 0 = none := by
              apply fm_none_of invV hae
              intro c hc
              rcases List.mem_cons.mp (hVpre.mem_iff.mp hc) with rfl | hc'
              · refine ends_of_walk hWEv ?_ ?_
                · exact fun h => hya (h.symm)
                · intro h
                  rw [lastPt_cons _ _ (orientFrom_ne_nil hQne fx), lastPt_orientFrom] at h
                  cases fx
                  · exact (hva Q hQmem).1 (by simpa using h)
                  · exact (hva Q hQmem).2 (by simpa using h)
              · exact fm_none_vals hfa c (mem_of_mem_eraseIdx hc')
            have hfb2 : firstMatchFrom b (addSegment x y cb).s 0 = none := by
              apply fm_none_of invV hbe
              intro c hc
              rcases List.mem_cons.mp (hVpre.mem_iff.mp hc) with rfl | hc'
              · refine ends_of_walk hWEv ?_ ?_
                · exact fun h => hyb (h.symm)
                · intro h
                  rw [lastPt_cons _ _ (orientFrom_ne_nil hQne fx), lastPt_orientFrom] at h
                  cases fx
                  · exact (hvb Q hQmem).1 (by simpa using h)
                  · exact (hvb Q hQmem).2 (by simpa using h)
              · exact fm_none_vals hfb c (mem_of_mem_eraseIdx hc')
            have hT2 := step_case0 a b (addSegment x y cb) hfa2 hfb2
            refine seq_of_perm ?_ invT2.wrap
            have hp1 : (addSegment x y (addSegment a b cb)).s.Perm
                (extendCh Q fx y :: ⟨[a, b], false⟩ :: cb.s.eraseIdx kx') :=
              hT1.trans (hUer.cons _)
            have hp2 : (addSegment a b (addSegment x y cb)).s.Perm
                (⟨[a, b], false⟩ :: extendCh Q fx y :: cb.s.eraseIdx kx') := by
              rw [hT2]
              exact hVpre.cons _
            exact hp1.trans ((List.Perm.swap _ _ _).trans hp2.symm)
          · -- x and y both on existing chains
            by_cases hkxy : kx' = ky
            · -- same chain: the second segment closes it in both orders
              subst hkxy
              obtain ⟨Q, hQ, hclQ, hlenQ, hhQ, htQ⟩ := fm_sound_inv invV0 hx0 hfx
              have hQmem : Q ∈ cb.s := List.getElem?_mem hQ
              have hjunc := close_junc invV0 hQ hfx hfy
              have hvalQx : (if fx then Q.headP else Q.tailP) = x := by
                cases fx
                · simpa using (htQ rfl).symm
                · simpa using (hhQ rfl).symm
              obtain ⟨Q', hQ', hclQ', hlenQ', hhQ', htQ'⟩ := fm_sound_inv invV0 hy0 hfy
              have hQQ : Q = Q' := by
                rw [hQ] at hQ'
                exact Option.some.inj hQ'
              subst hQQ
              have hvalQy : (if fy then Q.headP else Q.tailP) = y := by
                cases fy
                · simpa using (htQ' rfl).symm
                · simpa using (hhQ' rfl).symm
              have hQU : Q ∈ (addSegment a b cb).s := by
                rw [hU]; exact List.mem_cons_of_mem _ hQmem
              obtain ⟨kxU, hkxU, hfmxU⟩ := fm_of_mem_val invU hxe hQU hvalQx
              obtain ⟨kyU, hkyU, hfmyU⟩ := fm_of_mem_val invU hye hQU hvalQy
              have hyOr : y = Q.headP ∨ y = Q.tailP := by
                cases fy
                · exact Or.inr (htQ' rfl)
                · exact Or.inl (hhQ' rfl)
              have hkk : kxU = kyU := match_unique invU hye hkxU hkyU
                (pe_or_of_val hyOr) (pe_or_of_val hyOr)
              rw [← hkk] at hfmyU
              have hT1 := step_close x y (addSegment a b cb) kxU fx fy hfmxU hfmyU
              rw [getIdx_eq_of_getElem? hkxU] at hT1
              have hUer : ((addSegment a b cb).s.eraseIdx kxU).Perm
                  (⟨[a, b], false⟩ :: cb.s.eraseIdx kx') := by
                have h1 : (addSegment a b cb).s.Perm
                    (Q :: ⟨[a, b], false⟩ :: cb.s.eraseIdx kx') := by
                  rw [hU]
                  exact ((perm_extract_of_getElem? hQ).cons _).trans
                    (List.Perm.swap Q ⟨[a, b], false⟩ _)
                exact ((perm_extract_of_getElem? hkxU).symm.trans h1).cons_inv
              have hVpre := step_close x y cb kx' fx fy hfx hfy
              rw [getIdx_eq_of_getElem? hQ] at hVpre
              have hCmem : closeCh Q ∈ (addSegment x y cb).s :=
                hVpre.mem_iff.mpr (List.mem_cons_self _ _)
              have hfa2 : firstMatchFrom a (addSegment x y cb).s 0 = none := by
                apply fm_none_of invV hae
                intro c hc
                rcases List.mem_cons.mp (hVpre.mem_iff.mp hc) with rfl | hc'
                · exact closed_no_end_eq invV hae hCmem rfl
                · exact fm_none_vals hfa c (mem_of_mem_eraseIdx hc')
              have hfb2 : firstMatchFrom b (addSegment x y cb).s 0 = none := by
                apply fm_none_of invV hbe
                intro c hc
                rcases List.mem_cons.mp (hVpre.mem_iff.mp hc) with rfl | hc'
                · exact closed_no_end_eq invV hbe hCmem rfl
                · exact fm_none_vals hfb c (mem_of_mem_eraseIdx hc')
              have hT2 := step_case0 a b (addSegment x y cb) hfa2 hfb2
              refine seq_of_perm ?_ invT2.wrap
              have hp1 : (addSegment x y (addSegment a b cb)).s.Perm
                  (closeCh Q :: ⟨[a, b], false⟩ :: cb.s.eraseIdx kx') :=
                hT1.trans (hUer.cons _)
              have hp2 : (addSegment a b (addSegment x y cb)).s.Perm
                  (⟨[a, b], false⟩ :: closeCh Q :: cb.s.eraseIdx kx') := by
                rw [hT2]
                exact hVpre.cons _
              exact hp1.trans ((List.Perm.swap _ _ _).trans hp2.symm)
            · -- two distinct chains: the second segment merges them in both orders
              obtain ⟨Qx, hQx, hclQx, hlenQx, hhQx, htQx⟩ := fm_sound_inv invV0 hx0 hfx
              obtain ⟨Qy, hQy, hclQy, hlenQy, hhQy, htQy⟩ := fm_sound_inv invV0 hy0 hfy
              have hQxmem : Qx ∈ cb.s := List.getElem?_mem hQx
              have hQymem : Qy ∈ cb.s := List.getElem?_mem hQy
              have hvalQx : (if fx then Qx.headP else Qx.tailP) = x := by
                cases fx
                · simpa using (htQx rfl).symm
                · simpa using (hhQx rfl).symm
              have hvalQy : (if fy then Qy.headP else Qy.tailP) = y := by
                cases fy
                · simpa using (htQy rfl).symm
                · simpa using (hhQy rfl).symm
              have hyOr : y = Qy.headP ∨ y = Qy.tailP := by
                cases fy
                · exact Or.inr (htQy rfl)
                · exact Or.inl (hhQy rfl)
              have hQxne : Qx.points ≠ [] := by
                intro h; rw [h] at hlenQx; simp at hlenQx
              have hQyne : Qy.points ≠ [] := by
                intro h; rw [h] at hlenQy; simp at hlenQy
              have hQxU : Qx ∈ (addSegment a b cb).s := by
                rw [hU]; exact List.mem_cons_of_mem _ hQxmem
              have hQyU : Qy ∈ (addSegment a b cb).s := by
                rw [hU]; exact List.mem_cons_of_mem _ hQymem
              obtain ⟨kxU, hkxU, hfmxU⟩ := fm_of_mem_val invU hxe hQxU hvalQx
              obtain ⟨kyU, hkyU, hfmyU⟩ := fm_of_mem_val invU hye hQyU hvalQy
              have hne : kxU ≠ kyU := by
                intro he
                rw [he] at hkxU
                have hQQ : Qx = Qy := by
                  rw [hkxU] at hkyU
                  exact Option.some.inj hkyU
                have hyQx : y = Qx.headP ∨ y = Qx.tailP := by rw [hQQ]; exact hyOr
                exact hkxy (match_unique invV0 hy0 hQx hQy
                  (pe_or_of_val hyQx) (pe_or_of_val hyOr))
              obtain ⟨r1, hr1, hT1⟩ :=
                step_merge x y (addSegment a b cb) kxU kyU fx fy hfmxU hfmyU hne
              rw [getIdx_eq_of_getElem? hkxU, getIdx_eq_of_getElem? hkyU] at hr1 hT1
              obtain ⟨r2, hr2, hV2⟩ := step_merge x y cb kx' ky fx fy hfx hfy hkxy
              rw [getIdx_eq_of_getElem? hQx, getIdx_eq_of_getElem? hQy] at hr2 hV2
              have hrN : r1.Perm (⟨[a, b], false⟩ :: r2) := by
                have h1 : (addSegment a b cb).s.Perm
                    (Qx :: Qy :: ⟨[a, b], false⟩ :: r2) := by
                  rw [hU]
                  refine (hr2.cons _).trans ?_
                  refine (List.Perm.swap Qx ⟨[a, b], false⟩ _).trans ?_
                  exact (List.Perm.swap Qy ⟨[a, b], false⟩ r2).cons Qx
                exact ((hr1.symm.trans h1).cons_inv).cons_inv
              have hMmem : mergeCh Qx Qy fx fy ∈ (addSegment x y cb).s :=
                hV2.mem_iff.mpr (List.mem_cons_self _ _)
              have hWM : WalkIs (mergeCh Qx Qy fx fy) (glueW Qx Qy fx fy) :=
                walkIs_mergeCh Qx Qy fx fy
              have hfa2 : firstMatchFrom a (addSegment x y cb).s 0 = none := by
                apply fm_none_of invV hae
                intro c hc
                rcases List.mem_cons.mp (hV2.mem_iff.mp hc) with rfl | hc'
                · refine ends_of_walk hWM ?_ ?_
                  · intro h
                    rw [(glue_ends Qx Qy fx fy hQxne hQyne).1] at h
                    cases fx
                    · exact (hva Qx hQxmem).1 (by simpa using h)
                    · exact (hva Qx hQxmem).2 (by simpa using h)
                  · intro h
                    rw [(glue_ends Qx Qy fx fy hQxne hQyne).2] at h
                    cases fy
                    · exact (hva Qy hQymem).1 (by simpa using h)
                    · exact (hva Qy hQymem).2 (by simpa using h)
                · exact fm_none_vals hfa c (hr2.mem_iff.mpr
                    (List.mem_cons_of_mem _ (List.mem_cons_of_mem _ hc')))
              have hfb2 : firstMatchFrom b (addSegment x y cb).s 0 = none := by
                apply fm_none_of invV hbe
                intro c hc
                rcases List.mem_cons.mp (hV2.mem_iff.mp hc) with rfl | hc'
                · refine ends_of_walk hWM ?_ ?_
                  · intro h
                    rw [(glue_ends Qx Qy fx fy hQxne hQyne).1] at h
                    cases fx
                    · exact (hvb Qx hQxmem).1 (by simpa using h)
                    · exact (hvb Qx hQxmem).2 (by simpa using h)
                  · intro h
                    rw [(glue_ends Qx Qy fx fy hQxne hQyne).2] at h
                    cases fy
                    · exact (hvb Qy hQymem).1 (by simpa using h)
                    · exact (hvb Qy hQymem).2 (by simpa using h)
                · exact fm_none_vals hfb c (hr2.mem_iff.mpr
                    (List.mem_cons_of_mem _ (List.mem_cons_of_mem _ hc')))
              have hT2 := step_case0 a b (addSegment x y cb) hfa2 hfb2
              refine seq_of_perm ?_ invT2.wrap
              have hp1 : (addSegment x y (addSegment a b cb)).s.Perm
                  (mergeCh Qx Qy fx fy :: ⟨[a, b], false⟩ :: r2) :=
                hT1.trans (hrN.cons _)
              have hp2 : (addSegment a b (addSegment x y cb)).s.Perm
                  (⟨[a, b], false⟩ :: mergeCh Qx Qy fx fy :: r2) := by
                rw [hT2]
                exact hV2.cons _
              exact hp1.trans ((List.Perm.swap _ _ _).trans hp2.symm)

/-- Ends of a chain, read through any walk representation. -/
theorem walk_ends_or {c : Chain} {W : List Point} (hW : WalkIs c W) {v : Point}
    (h : v = c.headP ∨ v = c.tailP) : v = headPt W ∨ v = lastPt W := by
  by_contra hcon
  push_neg at hcon
  have h2 := ends_of_walk hW hcon.1 hcon.2
  rcases h with h | h
  · exact h2.1 h
  · exact h2.2 h

/-- Closing a chain wraps its walk: edge multiset is the walk's plus the
wrap edge, vertex multiset (past the stored wrap point) is the walk's. -/
theorem closeCh_cycle {c : Chain} {W : List Point} (hW : WalkIs c W) (hne : W ≠ []) :
    (cycleEdges (closeCh c).points).Perm
      (normPair (lastPt W) (headPt W) :: cycleEdges W)
    ∧ ((closeCh c).points.drop 1).Perm W := by
  have hpts : (closeCh c).points = c.tailP :: c.points := rfl
  rcases hW with hW | hW
  · constructor
    · rw [hpts, hW]
      have ht : c.tailP = lastPt W := by show lastPt c.points = lastPt W; rw [hW]
      rw [ht, cycleEdges_cons _ _ hne]
    · rw [hpts, hW]
      have hd : (lastPt W :: W).drop 1 = W := rfl
      rw [show c.tailP = lastPt W from by show lastPt c.points = lastPt W; rw [hW], hd]
  · have hner : W.reverse ≠ [] := by simpa using hne
    have ht : c.tailP = headPt W := by
      show lastPt c.points = headPt W
      rw [hW]
      exact lastPt_reverse W
    constructor
    · rw [hpts, hW, ht, cycleEdges_cons _ _ hner, headPt_reverse, normPair_comm]
      exact (cycleEdges_reverse W).cons _
    · rw [hpts, hW, ht]
      have hd : (headPt W :: W.reverse).drop 1 = W.reverse := rfl
      rw [hd]
      exact List.reverse_perm W

/-- One element hopped over another across permuted middles. -/
theorem perm_shuffle2 {α : Type} (e1 e2 : α) {l1 l1' l2 l2' : List α}
    (h1 : l1.Perm l1') (h2 : l2.Perm l2') :
    (e1 :: (l1 ++ e2 :: l2)).Perm (e2 :: (l1' ++ e1 :: l2')) := by
  have hA : (l1 ++ e2 :: l2).Perm (e2 :: (l1 ++ l2)) := List.perm_middle
  have hB : (l1' ++ e1 :: l2').Perm (e1 :: (l1' ++ l2')) := List.perm_middle
  refine (hA.cons e1).trans (.trans ?_ (hB.cons e2).symm)
  refine (List.Perm.swap e2 e1 _).trans ?_
  exact ((h1.append h2).cons e1).cons e2

/-- Rotating a two-block cyclic word past its two junction edges. -/
theorem perm_shuffle2r {α : Type} (e1 e2 : α) (l1 l2 : List α) :
    (e1 :: (l1 ++ e2 :: l2)).Perm (e2 :: (l2 ++ e1 :: l1)) := by
  have hA : (l1 ++ e2 :: l2).Perm (e2 :: (l1 ++ l2)) := List.perm_middle
  have hB : (l2 ++ e1 :: l1).Perm (e1 :: (l2 ++ l1)) := List.perm_middle
  refine (hA.cons e1).trans (.trans ?_ (hB.cons e2).symm)
  refine (List.Perm.swap e2 e1 _).trans ?_
  exact (List.perm_append_comm.cons e1).cons e2

/-- Closing two walks that split as a reversed block against a block gives
cycle-equal chains. -/
theorem closeCh_glue_chainEq {c1 c2 : Chain} {P B : List Point}
    (hP : P ≠ []) (hB : B ≠ [])
    (hW1 : WalkIs c1 (P.reverse ++ B)) (hW2 : WalkIs c2 (P ++ B.reverse)) :
    chainEq (closeCh c1) (closeCh c2) := by
  have hPr : P.reverse ≠ [] := by simpa using hP
  have hBr : B.reverse ≠ [] := by simpa using hB
  have hne1 : (P.reverse ++ B : List Point) ≠ [] := by simp [hB]
  have hne2 : (P ++ B.reverse : List Point) ≠ [] := by simp [hP]
  have hc1ne : c1.points ≠ [] := by
    rcases hW1 with h | h <;> rw [h] <;> simp [hP, hB]
  have hc2ne : c2.points ≠ [] := by
    rcases hW2 with h | h <;> rw [h] <;> simp [hP, hB]
  obtain ⟨he1, hv1⟩ := closeCh_cycle hW1 hne1
  obtain ⟨he2, hv2⟩ := closeCh_cycle hW2 hne2
  refine chainEq_closed_of rfl rfl (closeCh_wrap c1 hc1ne) (closeCh_wrap c2 hc2ne) ?_ ?_
  · refine he1.trans (.trans ?_ he2.symm)
    rw [cycleEdges_append _ _ hPr hB, cycleEdges_append _ _ hP hBr,
      headPt_append _ _ hPr, headPt_append _ _ hP,
      lastPt_append _ _ hB, lastPt_append _ _ hBr,
      headPt_reverse, headPt_reverse, lastPt_reverse, lastPt_reverse,
      normPair_comm (lastPt P) (lastPt B)]
    rw [show normPair (headPt B) (headPt P) = normPair (headPt P) (headPt B) from
      normPair_comm _ _]
    exact perm_shuffle2 _ _ (cycleEdges_reverse P) (cycleEdges_reverse B).symm
  · refine hv1.trans (.trans ?_ hv2.symm)
    exact (List.reverse_perm P).append (List.reverse_perm B).symm

/-- Closing two walks that are block-rotations of each other gives
cycle-equal chains. -/
theorem closeCh_rot_chainEq {c1 c2 : Chain} {A B : List Point}
    (hA : A ≠ []) (hB : B ≠ [])
    (hW1 : WalkIs c1 (A ++ B)) (hW2 : WalkIs c2 (B ++ A)) :
    chainEq (closeCh c1) (closeCh c2) := by
  have hne1 : (A ++ B : List Point) ≠ [] := by simp [hA]
  have hne2 : (B ++ A : List Point) ≠ [] := by simp [hB]
  have hc1ne : c1.points ≠ [] := by
    rcases hW1 with h | h <;> rw [h] <;> simp [hA, hB]
  have hc2ne : c2.points ≠ [] := by
    rcases hW2 with h | h <;> rw [h] <;> simp [hA, hB]
  obtain ⟨he1, hv1⟩ := closeCh_cycle hW1 hne1
  obtain ⟨he2, hv2⟩ := closeCh_cycle hW2 hne2
  refine chainEq_closed_of rfl rfl (closeCh_wrap c1 hc1ne) (closeCh_wrap c2 hc2ne) ?_ ?_
  · refine he1.trans (.trans ?_ he2.symm)
    rw [cycleEdges_append _ _ hA hB, cycleEdges_append _ _ hB hA,
      headPt_append _ _ hA, headPt_append _ _ hB,
      lastPt_append _ _ hB, lastPt_append _ _ hA]
    exact perm_shuffle2r _ _ _ _
  · refine hv1.trans (.trans ?_ hv2.symm)
    exact List.perm_append_comm

/-- Remainder alignment: extracting a known member leaves a list permuted
with any other decomposition's remainder. -/
theorem erase_align {S R : List Chain} {k : Nat} {C : Chain}
    (hk : S[k]? = some C) (hS : S.Perm (C :: R)) : (S.eraseIdx k).Perm R :=
  ((perm_extract_of_getElem? hk).symm.trans hS).cons_inv

/-- Assembling state equivalence from one equivalent chain pair over
permuted remainders. -/
theorem seq_assemble {T1 T2 : List Chain} {c1 c2 : Chain} {r1 r2 : List Chain}
    {restT : List (Point × Point)}
    (hT1 : T1.Perm (c1 :: r1)) (hT2 : T2.Perm (c2 :: r2))
    (invT2 : StInv T2 restT) (hc : chainEq c1 c2) (hr : r1.Perm r2) :
    SEq T1 T2 := by
  refine seq_of_perm_left hT1 (seq_of_perm_right ?_ hT2.symm invT2.wrap)
  refine seq_cons hc (seq_of_perm hr ?_)
  exact fun c hc2 => invT2.wrap c (hT2.mem_iff.mpr (List.mem_cons_of_mem _ hc2))

/-- A member chain with an accounted occurrence forbids that value from
filling two further future endpoint slots. -/
theorem deg_state_excl {s : List Chain} {rest : List (Point × Point)}
    (inv : StInv s rest) {C : Chain} {i : Nat} (hC : s[i]? = some C) {v : Point}
    (hocc : v ∈ occs C) (h2 : 2 ≤ (endPts rest).count v) : False := by
  have h1 : 1 ≤ (occs C).count v := List.one_le_count_iff.mpr hocc
  have h3 := count_stateOccs_of_getElem? hC v
  have hd := inv.deg v
  rw [List.count_append] at hd
  omega
